import Mathlib

/-!
Shallow embedding of the skip-list repository (src/include/locked_skiplist.h):
the coarse-locked variant `FatSkipList` and the concurrent variant
`LockedSkipList`, both instantiated at `K = Int`, `V = Int` (so `K()`, `V{}`
are `0`).  Heaps are modelled as functions from node identifiers to optional
node records; `delete` removes the binding.  Mutex operations have no effect
on the sequential state and are therefore not represented; the validation
predicates the source computes are kept as explicit definitions.  The
`while (true)` retry loops of the concurrent variant take a fuel argument and
return `none` when the fuel runs out, which models divergence.  Bounded
inner loops (pointer walks) take a fuel that provably suffices under the
representation invariant.
-/

/-- Node of the concurrent `LockedSkipList`: key, value, forward pointers
(`none` models `nullptr`), the two atomic flags and the tower height. -/
structure LNode where
  key : Int
  value : Int
  forward : List (Option Nat)
  marked : Bool
  fully_linked : Bool
  node_level : Nat
deriving DecidableEq, Repr

instance : Inhabited LNode := ⟨⟨0, 0, [], false, false, 0⟩⟩

/-- State of a `LockedSkipList` object: the heap of nodes, the two sentinels,
the constructor parameters and an allocation counter (fresh ids come from
`next_id`; C++ `new` similarly returns addresses distinct from all live ones). -/
structure LState where
  heap : Nat → Option LNode
  header : Nat
  tail : Nat
  max_level : Nat
  probability : ℚ
  next_id : Nat

instance : Inhabited LState := ⟨⟨fun _ => none, 0, 0, 0, 0, 0⟩⟩

/-- Dereference a node; reading through a dangling pointer is undefined in the
source, here it yields the junk `default` node. -/
def lnode (s : LState) (p : Nat) : LNode := (s.heap p).getD default

/-- `p->key`. -/
def lkey (s : LState) (p : Nat) : Int := (lnode s p).key

/-- `p->forward[L]` (out-of-range reads yield the junk `none`). -/
def lfwd (s : LState) (p : Nat) (L : Nat) : Option Nat := (lnode s p).forward.getD L none

/-- Write `p->forward[L] = tgt` (no-op on a dangling pointer or out of range,
mirroring that the source never performs such a write on a well-formed list). -/
def lsetFwd (s : LState) (p : Nat) (L : Nat) (tgt : Option Nat) : LState :=
  { s with heap := fun q =>
      if q = p then (s.heap p).map (fun n => { n with forward := n.forward.set L tgt })
      else s.heap q }

/-- Write `p->marked = true`. -/
def lsetMarked (s : LState) (p : Nat) : LState :=
  { s with heap := fun q =>
      if q = p then (s.heap p).map (fun n => { n with marked := true }) else s.heap q }

/-- Write `p->fully_linked = true`. -/
def lsetLinked (s : LState) (p : Nat) : LState :=
  { s with heap := fun q =>
      if q = p then (s.heap p).map (fun n => { n with fully_linked := true }) else s.heap q }

/-- `delete p`. -/
def ldelete (s : LState) (p : Nat) : LState :=
  { s with heap := fun q => if q = p then none else s.heap q }

/-- The inner walk of `LockedSkipList::find` at one level:
`while (curr != tail_ && key > curr->key) { pred = curr; curr = curr->forward[level]; }`. -/
def ladvance (s : LState) (key : Int) (level : Nat) : Nat → Nat → Nat → Nat × Nat
  | 0, pred, curr => (pred, curr)
  | fuel + 1, pred, curr =>
    if curr ≠ s.tail ∧ key > lkey s curr then
      ladvance s key level fuel curr ((lfwd s curr level).getD 0)
    else (pred, curr)

/-- The level descent of `LockedSkipList::find`; `l` counts the levels still
to process (level `l - 1` next), `preds`/`succs` are the output vectors and
`found` the running `found` value (`none` encodes `-1`). -/
def lfindAux (s : LState) (key : Int) :
    Nat → Nat → List Nat → List Nat → Option Nat → List Nat × List Nat × Option Nat
  | 0, _, preds, succs, found => (preds, succs, found)
  | l + 1, pred, preds, succs, found =>
    let level := l
    let start := (lfwd s pred level).getD 0
    let pc := ladvance s key level s.next_id pred start
    let found' :=
      if found = none ∧ pc.2 ≠ s.tail ∧ lkey s pc.2 = key then some level else found
    lfindAux s key l pc.1 (preds.set level pc.1) (succs.set level pc.2) found'

/-- `LockedSkipList::find`: returns `(preds, succs, found_level)`. -/
def lfind (s : LState) (key : Int) : List Nat × List Nat × Option Nat :=
  lfindAux s key (s.max_level + 1) s.header
    (List.replicate (s.max_level + 1) 0) (List.replicate (s.max_level + 1) 0) none

/-- `LockedSkipList::search`. -/
def lsearch (s : LState) (key : Int) : Bool × Int :=
  let r := lfind s key
  match r.2.2 with
  | some fl =>
    let nd := r.2.1.getD fl 0
    if nd ≠ s.tail ∧ lkey s nd = key ∧ (lnode s nd).fully_linked = true ∧
        (lnode s nd).marked = false then
      (true, (lnode s nd).value)
    else (false, 0)
  | none => (false, 0)

/-- The validation performed by `LockedSkipList::insert` under the predecessor
locks: at every level up to `node_level`,
`!(pred->marked || succ->marked || pred->forward[level] != succ)`. -/
def linsertValid (s : LState) (preds succs : List Nat) (node_level : Nat) : Bool :=
  (List.range (node_level + 1)).all fun level =>
    (lnode s (preds.getD level 0)).marked = false ∧
      (lnode s (succs.getD level 0)).marked = false ∧
      lfwd s (preds.getD level 0) level = some (succs.getD level 0)

/-- One level of the splice in `LockedSkipList::insert`:
`new_node->forward[level] = succs[level]; preds[level]->forward[level] = new_node;`. -/
def lspliceLevel (preds succs : List Nat) (newId : Nat) (s : LState) (level : Nat) : LState :=
  lsetFwd (lsetFwd s newId level (some (succs.getD level 0))) (preds.getD level 0) level
    (some newId)

/-- `LockedSkipList::insert`, with the sampled `node_level` passed explicitly
and the outer `while (true)` loop bounded by `fuel` (`none` = nontermination).
The busy wait on `fully_linked` of a live duplicate either exits immediately
or spins forever in a sequential execution, hence the flag is consulted once. -/
def linsertLoop (s : LState) (key value : Int) (node_level : Nat) :
    Nat → Option (LState × Bool)
  | 0 => none
  | fuel + 1 =>
    let r := lfind s key
    match r.2.2 with
    | some fl =>
      let node_found := r.2.1.getD fl 0
      if (lnode s node_found).marked = false then
        if (lnode s node_found).fully_linked = true then some (s, false)
        else none
      else linsertLoop s key value node_level fuel
    | none =>
      if linsertValid s r.1 r.2.1 node_level = true then
        let newId := s.next_id
        let s1 : LState :=
          { s with
            heap := fun q =>
              if q = newId then
                some ⟨key, value, List.replicate (node_level + 1) none, false, false, node_level⟩
              else s.heap q,
            next_id := s.next_id + 1 }
        let s2 := (List.range (node_level + 1)).foldl (lspliceLevel r.1 r.2.1 newId) s1
        some (lsetLinked s2 newId, true)
      else linsertLoop s key value node_level fuel

/-- The validation performed by `LockedSkipList::remove` under the predecessor
locks: at every level up to `node_level`,
`!(pred->marked || pred->forward[level] != victim)`. -/
def lremoveValid (s : LState) (preds : List Nat) (node_level : Nat) (victim : Nat) : Bool :=
  (List.range (node_level + 1)).all fun level =>
    (lnode s (preds.getD level 0)).marked = false ∧
      lfwd s (preds.getD level 0) level = some victim

/-- `LockedSkipList::remove`.  `is_marked` and `node_level` persist across
iterations of the outer loop exactly as in the source.  Note that in the
source the result of the predecessor validation only decides whether the
predecessor locks are released early; control then falls through (there is no
`continue`), so the unlink loop, `delete victim` and `return true` execute
regardless of the validation outcome.  The embedding reproduces that. -/
def lremoveLoop (key : Int) :
    Nat → LState → Bool → Nat → Option (LState × Bool)
  | 0, _, _, _ => none
  | fuel + 1, s, is_marked, node_level =>
    let r := lfind s key
    match r.2.2 with
    | none => some (s, false)
    | some fl =>
      let victim := r.2.1.getD fl 0
      if is_marked = true ∨ ((lnode s victim).fully_linked = true ∧
          (lnode s victim).node_level = fl ∧ (lnode s victim).marked = false) then
        if is_marked = false ∧ (lnode s victim).marked = true then some (s, false)
        else
          let nl := if is_marked then node_level else (lnode s victim).node_level
          let s1 := if is_marked then s else lsetMarked s victim
          let valid := lremoveValid s1 r.1 nl victim
          let s2 := ((List.range (nl + 1)).reverse).foldl
            (fun st level => lsetFwd st (r.1.getD level 0) level (lfwd st victim level)) s1
          let _ := valid
          some (ldelete s2 victim, true)
      else lremoveLoop key fuel s is_marked node_level

/-- Entry point of `LockedSkipList::remove` (initially `is_marked = false`,
`node_level` is uninitialised junk). -/
def lremove (s : LState) (key : Int) (fuel : Nat) : Option (LState × Bool) :=
  lremoveLoop key fuel s false 0

/-- Level-0 walk of `LockedSkipList::for_each`, collecting the `(key, value)`
pairs passed to the visitor. -/
def lforEachAux (s : LState) : Nat → Nat → List (Int × Int)
  | 0, _ => []
  | fuel + 1, p =>
    if p = s.tail then []
    else ((lnode s p).key, (lnode s p).value) :: lforEachAux s fuel ((lfwd s p 0).getD 0)

/-- `LockedSkipList::for_each`. -/
def lforEach (s : LState) : List (Int × Int) :=
  lforEachAux s s.next_id ((lfwd s s.header 0).getD 0)

/-- The `LockedSkipList` constructor: header of height `max_level` with every
forward pointer on the tail, tail of height 0. -/
def linit (max_level : Nat) (p : ℚ) : LState :=
  { heap := fun q =>
      if q = 0 then some ⟨0, 0, List.replicate (max_level + 1) (some 1), false, false, max_level⟩
      else if q = 1 then some ⟨0, 0, [none], false, false, 0⟩
      else none,
    header := 0, tail := 1, max_level := max_level, probability := p, next_id := 2 }

/-- The loop of `get_rand_level` (shared text in both variants):
`while (dist(gen_) < probability_ && level < max_level_) level++;`.
The draws of `dist(gen_)` are modelled as a stream of rationals, `i` indexes
the next draw.  The fuel `max_level + 1 - level` bounds the loop. -/
def grlAux (p : ℚ) (max_level : Nat) (draws : Nat → ℚ) : Nat → Nat → Nat → Nat
  | 0, _, level => level
  | fuel + 1, i, level =>
    if draws i < p ∧ level < max_level then grlAux p max_level draws fuel (i + 1) (level + 1)
    else level

/-- `get_rand_level`. -/
def get_rand_level (p : ℚ) (max_level : Nat) (draws : Nat → ℚ) : Nat :=
  grlAux p max_level draws (max_level + 1) 0 0

/-- `LockedSkipList::insert` as called by clients: the level is sampled by
`get_rand_level` from the list's probability and a stream of uniform draws. -/
def linsertR (s : LState) (key value : Int) (draws : Nat → ℚ) (fuel : Nat) :
    Option (LState × Bool) :=
  linsertLoop s key value (get_rand_level s.probability s.max_level draws) fuel

/-- Node of the coarse-locked `FatSkipList`: no flags, no per-node mutex;
the height is `forward.length - 1`. -/
structure FNode where
  key : Int
  value : Int
  forward : List (Option Nat)
deriving DecidableEq, Repr

instance : Inhabited FNode := ⟨⟨0, 0, []⟩⟩

/-- State of a `FatSkipList` object. -/
structure FState where
  heap : Nat → Option FNode
  header : Nat
  cur_level : Nat
  max_level : Nat
  probability : ℚ
  next_id : Nat

instance : Inhabited FState := ⟨⟨fun _ => none, 0, 0, 0, 0, 0⟩⟩

/-- Dereference a `FatSkipList` node. -/
def fnode (s : FState) (p : Nat) : FNode := (s.heap p).getD default

/-- `p->key`. -/
def fkey (s : FState) (p : Nat) : Int := (fnode s p).key

/-- `p->forward[L]`. -/
def ffwd (s : FState) (p : Nat) (L : Nat) : Option Nat := (fnode s p).forward.getD L none

/-- Write `p->forward[L] = tgt`. -/
def fsetFwd (s : FState) (p : Nat) (L : Nat) (tgt : Option Nat) : FState :=
  { s with heap := fun q =>
      if q = p then (s.heap p).map (fun n => { n with forward := n.forward.set L tgt })
      else s.heap q }

/-- Write `p->value = v` (the duplicate-key path of `FatSkipList::insert`). -/
def fsetValue (s : FState) (p : Nat) (v : Int) : FState :=
  { s with heap := fun q =>
      if q = p then (s.heap p).map (fun n => { n with value := v }) else s.heap q }

/-- `delete p`. -/
def fdelete (s : FState) (p : Nat) : FState :=
  { s with heap := fun q => if q = p then none else s.heap q }

/-- The inner walk of `FatSkipList::find_node` at one level:
`while (node->forward[level] && node->forward[level]->key < key) node = node->forward[level];`. -/
def fadvance (s : FState) (key : Int) (level : Nat) : Nat → Nat → Nat
  | 0, node => node
  | fuel + 1, node =>
    match ffwd s node level with
    | some nxt => if fkey s nxt < key then fadvance s key level fuel nxt else node
    | none => node

/-- The level descent of `FatSkipList::find_node`; `l` counts levels still to
process, `upds` is the `to_be_updated` vector (length `max_level + 1`,
initialised to `nullptr`). -/
def ffindAux (s : FState) (key : Int) :
    Nat → Nat → List (Option Nat) → Nat × List (Option Nat)
  | 0, node, upds => (node, upds)
  | l + 1, node, upds =>
    let level := l
    let node' := fadvance s key level s.next_id node
    ffindAux s key l node' (upds.set level (some node'))

/-- `FatSkipList::find_node`: the candidate is the level-0 successor of the
final predecessor. -/
def ffind (s : FState) (key : Int) : Option Nat × List (Option Nat) :=
  let r := ffindAux s key (s.cur_level + 1) s.header (List.replicate (s.max_level + 1) none)
  (ffwd s r.1 0, r.2)

/-- `FatSkipList::search`. -/
def fsearch (s : FState) (key : Int) : Bool × Int :=
  match (ffind s key).1 with
  | some nd => if fkey s nd = key then (true, (fnode s nd).value) else (false, 0)
  | none => (false, 0)

/-- The non-duplicate path of `FatSkipList::insert`: extend `to_be_updated`
with the header on the levels above `cur_level_`, allocate, splice. -/
def finsertGo (s : FState) (key value : Int) (node_level : Nat)
    (upds : List (Option Nat)) : FState × Bool :=
  let ext :=
    if node_level > s.cur_level then
      (List.range' (s.cur_level + 1) (node_level - s.cur_level)).foldl
        (fun u i => u.set i (some s.header)) upds
    else upds
  let cur' := if node_level > s.cur_level then node_level else s.cur_level
  let newId := s.next_id
  let s1 : FState :=
    { s with
      cur_level := cur',
      heap := fun q =>
        if q = newId then some ⟨key, value, List.replicate (node_level + 1) none⟩
        else s.heap q,
      next_id := s.next_id + 1 }
  let s2 := (List.range (node_level + 1)).foldl
    (fun st level =>
      let u := (ext.getD level none).getD 0
      fsetFwd (fsetFwd st newId level (ffwd st u level)) u level (some newId)) s1
  (s2, true)

/-- `FatSkipList::insert`, with the sampled `node_level` passed explicitly.
On a duplicate key the stored value is overwritten and `false` returned. -/
def finsert (s : FState) (key value : Int) (node_level : Nat) : FState × Bool :=
  let r := ffind s key
  match r.1 with
  | some nd =>
    if fkey s nd = key then (fsetValue s nd value, false)
    else finsertGo s key value node_level r.2
  | none => finsertGo s key value node_level r.2

/-- The unlink loop of `FatSkipList::remove` with its `break` on the first
level where the recorded predecessor does not point at the victim. -/
def fremoveSplice (upds : List (Option Nat)) (victim : Nat) :
    List Nat → FState → FState
  | [], st => st
  | level :: rest, st =>
    let u := (upds.getD level none).getD 0
    if ffwd st u level = some victim then
      fremoveSplice upds victim rest (fsetFwd st u level (ffwd st victim level))
    else st

/-- The `cur_level_` shrink loop of `FatSkipList::remove`:
`while (cur_level_ > 0 && header_->forward[cur_level_] == nullptr) cur_level_--;`. -/
def fshrink (s : FState) : Nat → Nat
  | 0 => 0
  | c + 1 => if ffwd s s.header (c + 1) = none then fshrink s c else c + 1

/-- `FatSkipList::remove`. -/
def fremove (s : FState) (key : Int) : FState × Bool :=
  let r := ffind s key
  match r.1 with
  | none => (s, false)
  | some nd =>
    if fkey s nd ≠ key then (s, false)
    else
      let s1 := fremoveSplice r.2 nd (List.range (s.cur_level + 1)) s
      let s2 := fdelete s1 nd
      ({ s2 with cur_level := fshrink s2 s2.cur_level }, true)

/-- Level-0 walk of `FatSkipList::for_each` (chain ends at `nullptr`). -/
def fforEachAux (s : FState) : Nat → Option Nat → List (Int × Int)
  | 0, _ => []
  | _ + 1, none => []
  | fuel + 1, some p =>
    ((fnode s p).key, (fnode s p).value) :: fforEachAux s fuel (ffwd s p 0)

/-- `FatSkipList::for_each`. -/
def fforEach (s : FState) : List (Int × Int) :=
  fforEachAux s s.next_id (ffwd s s.header 0)

/-- The `FatSkipList` constructor. -/
def finit (max_level : Nat) (p : ℚ) : FState :=
  { heap := fun q =>
      if q = 0 then some ⟨0, 0, List.replicate (max_level + 1) none⟩ else none,
    header := 0, cur_level := 0, max_level := max_level, probability := p, next_id := 1 }

/-- `FatSkipList::insert` as called by clients, sampling the level. -/
def finsertR (s : FState) (key value : Int) (draws : Nat → ℚ) : FState × Bool :=
  finsert s key value (get_rand_level s.probability s.max_level draws)

/-! ### Generic list helpers -/

theorem getD_set_self {α : Type} (l : List α) (i : Nat) (h : i < l.length) (a d : α) :
    (l.set i a).getD i d = a := by
  simp [List.getD_eq_getElem?_getD, List.getElem?_set_self, h]

theorem getD_set_ne {α : Type} (l : List α) {i j : Nat} (h : i ≠ j) (a d : α) :
    (l.set i a).getD j d = l.getD j d := by
  simp [List.getD_eq_getElem?_getD, List.getElem?_set_ne h]

theorem getLast?_cons_getLastD {α : Type} (a : α) (l : List α) :
    (a :: l).getLast? = some (l.getLastD a) := by
  induction l generalizing a with
  | nil => rfl
  | cons b l ih => rw [List.getLastD_cons, List.getLast?_cons_cons]; exact ih b

theorem headD_append_singleton {α : Type} (l : List α) (a d : α) :
    ((l ++ [a]).head?).getD d = l.headD a := by
  cases l <;> simp

theorem getLastD_append_cons {α : Type} (u v : List α) (a d : α) :
    (u ++ a :: v).getLastD d = v.getLastD a := by
  induction u generalizing d with
  | nil => rw [List.nil_append, List.getLastD_cons]
  | cons b u ih => rw [List.cons_append, List.getLastD_cons]; exact ih b

/-- In a list whose keys are strictly sorted, `takeWhile (key < k)` is the
filter of the same predicate. -/
theorem takeWhile_eq_filter_of_sorted {f : Nat → Int} {k : Int} :
    ∀ {l : List Nat}, (l.map f).Chain' (· < ·) →
      l.takeWhile (fun p => decide (f p < k)) = l.filter (fun p => decide (f p < k))
  | [], _ => rfl
  | a :: l, h => by
    have h' : (l.map f).Chain' (· < ·) := (List.chain'_cons'.mp (by simpa using h)).2
    have hlt : ∀ x ∈ l, f a < f x := by
      have := (List.chain'_iff_pairwise.mp h)
      intro x hx
      exact List.rel_of_pairwise_cons (by simpa using this) (List.mem_map_of_mem f hx)
    by_cases hfa : f a < k
    · simp only [List.takeWhile_cons, List.filter_cons, hfa, decide_eq_true_eq, if_true,
        decide_eq_true hfa, cond_true]
      exact congrArg _ (takeWhile_eq_filter_of_sorted h')
    · simp only [List.takeWhile_cons, List.filter_cons, decide_eq_false hfa, cond_false,
        if_false, Bool.false_eq_true]
      symm
      refine List.filter_eq_nil_iff.mpr ?_
      intro x hx
      simp only [decide_eq_true_eq]
      intro hk
      exact hfa (lt_trans (hlt x hx) hk)

/-- Counterpart for `dropWhile`: on a strictly sorted list it is the filter of
the complementary predicate. -/
theorem dropWhile_eq_filter_of_sorted {f : Nat → Int} {k : Int} :
    ∀ {l : List Nat}, (l.map f).Chain' (· < ·) →
      l.dropWhile (fun p => decide (f p < k)) = l.filter (fun p => !decide (f p < k))
  | [], _ => rfl
  | a :: l, h => by
    have h' : (l.map f).Chain' (· < ·) := (List.chain'_cons'.mp (by simpa using h)).2
    have hlt : ∀ x ∈ l, f a < f x := by
      have := (List.chain'_iff_pairwise.mp h)
      intro x hx
      exact List.rel_of_pairwise_cons (by simpa using this) (List.mem_map_of_mem f hx)
    by_cases hfa : f a < k
    · simp only [List.dropWhile_cons, List.filter_cons, decide_eq_true hfa, if_true,
        Bool.not_true, cond_false]
      exact dropWhile_eq_filter_of_sorted h'
    · simp only [List.dropWhile_cons, List.filter_cons, decide_eq_false hfa, if_false,
        Bool.not_false, cond_true, Bool.false_eq_true]
      refine congrArg _ (List.filter_eq_self.mpr ?_).symm
      intro x hx
      simp only [Bool.not_eq_true', decide_eq_false_iff_not]
      intro hk
      exact hfa (lt_trans (hlt x hx) hk)

/-- Splitting a strictly key-sorted list at key `k`. -/
theorem sorted_filter_split {f : Nat → Int} {k : Int} {l : List Nat}
    (h : (l.map f).Chain' (· < ·)) :
    l = l.filter (fun p => decide (f p < k)) ++ l.filter (fun p => !decide (f p < k)) := by
  rw [← takeWhile_eq_filter_of_sorted h, ← dropWhile_eq_filter_of_sorted h,
    List.takeWhile_append_dropWhile]

/-- The head of the not-yet-`k` part of a sorted split is the node with key
`k`, when there is one. -/
theorem head_filter_ge {f : Nat → Int} {k : Int} :
    ∀ {l : List Nat}, (l.map f).Chain' (· < ·) → ∀ {X : Nat}, X ∈ l → f X = k →
      (l.filter (fun p => !decide (f p < k))).head? = some X
  | [], _, _, hX, _ => absurd hX (List.not_mem_nil _)
  | a :: l, h, X, hX, hk => by
    have h' : (l.map f).Chain' (· < ·) := (List.chain'_cons'.mp (by simpa using h)).2
    have hlt : ∀ x ∈ l, f a < f x := by
      have := (List.chain'_iff_pairwise.mp h)
      intro x hx
      exact List.rel_of_pairwise_cons (by simpa using this) (List.mem_map_of_mem f hx)
    rcases List.mem_cons.mp hX with rfl | hX
    · have hnk : ¬ f X < k := by rw [hk]; exact lt_irrefl k
      simp only [List.filter_cons, decide_eq_false hnk, Bool.not_false, cond_true,
        if_true, List.head?_cons]
    · have ha : f a < k := hk ▸ hlt X hX
      simp only [List.filter_cons, decide_eq_true ha, Bool.not_true, cond_false]
      exact head_filter_ge h' hX hk

/-! ### Representation invariant for the concurrent variant -/

/-- One step of a level-`L` chain. -/
def lstep (s : LState) (L : Nat) (a b : Nat) : Prop := lfwd s a L = some b

/-- The ids of `t` that occupy level `L` (their tower reaches `L`). -/
def towerL (s : LState) (t : List Nat) (L : Nat) : List Nat :=
  t.filter fun p => decide (L ≤ (lnode s p).node_level)

/-- The level-`L` nodes with key strictly below `key`. -/
def AL (s : LState) (t : List Nat) (key : Int) (L : Nat) : List Nat :=
  (towerL s t L).filter fun p => decide (lkey s p < key)

/-- The level-`L` nodes with key at least `key`. -/
def BL (s : LState) (t : List Nat) (key : Int) (L : Nat) : List Nat :=
  (towerL s t L).filter fun p => !decide (lkey s p < key)

/-- The predecessor `find` computes at level `L`. -/
def predAt (s : LState) (t : List Nat) (key : Int) (L : Nat) : Nat :=
  (AL s t key L).getLastD s.header

/-- The successor `find` computes at level `L`. -/
def succAt (s : LState) (t : List Nat) (key : Int) (L : Nat) : Nat :=
  (BL s t key L).headD s.tail

/-- The (unique) live node of `t` with key `key`, if any. -/
def lfound (s : LState) (t : List Nat) (key : Int) : Option Nat :=
  t.find? fun p => decide (lkey s p = key)

/-- Abstract lookup: the stored value for `key`. -/
def lookupV (s : LState) (t : List Nat) (key : Int) : Option Int :=
  (lfound s t key).map fun p => (lnode s p).value

/-- Representation invariant relating a `LockedSkipList` state to the list
`t` of its live node ids in strictly increasing key order. -/
structure LWF (s : LState) (t : List Nat) : Prop where
  hne : s.header ≠ s.tail
  hmem : s.header ∉ t
  tmem : s.tail ∉ t
  nodup : t.Nodup
  dom : ∀ p, (s.heap p).isSome = true ↔ (p = s.header ∨ p = s.tail ∨ p ∈ t)
  bound : ∀ p, (s.heap p).isSome = true → p < s.next_id
  hdr_len : (lnode s s.header).forward.length = s.max_level + 1
  hdr_level : (lnode s s.header).node_level = s.max_level
  hdr_marked : (lnode s s.header).marked = false
  tl_level : (lnode s s.tail).node_level = 0
  tl_marked : (lnode s s.tail).marked = false
  lvl_le : ∀ p ∈ t, (lnode s p).node_level ≤ s.max_level
  len_eq : ∀ p ∈ t, (lnode s p).forward.length = (lnode s p).node_level + 1
  linked : ∀ p ∈ t, (lnode s p).fully_linked = true
  unmarked : ∀ p ∈ t, (lnode s p).marked = false
  sorted : (t.map (lkey s)).Chain' (· < ·)
  chains : ∀ L, L ≤ s.max_level →
    List.Chain' (lstep s L) (s.header :: towerL s t L ++ [s.tail])

theorem LWF.pairwise_keys {s t} (h : LWF s t) :
    t.Pairwise fun a b => lkey s a < lkey s b := by
  have := List.chain'_iff_pairwise.mp h.sorted
  exact (List.pairwise_map.mp this)

/-- Distinct live nodes have distinct keys. -/
theorem LWF.key_inj {s t} (h : LWF s t) {p q : Nat} (hp : p ∈ t) (hq : q ∈ t)
    (hk : lkey s p = lkey s q) : p = q := by
  rcases List.getElem_of_mem hp with ⟨i, hi, rfl⟩
  rcases List.getElem_of_mem hq with ⟨j, hj, rfl⟩
  have hpw := List.pairwise_iff_getElem.mp h.pairwise_keys
  rcases Nat.lt_trichotomy i j with hij | rfl | hij
  · have := hpw i j hi hj hij
    omega
  · rfl
  · have := hpw j i hj hi hij
    omega

theorem LWF.length_le {s t} (h : LWF s t) : t.length ≤ s.next_id := by
  have hsub : t ⊆ List.range s.next_id := by
    intro p hp
    have : (s.heap p).isSome = true := (h.dom p).mpr (Or.inr (Or.inr hp))
    exact List.mem_range.mpr (h.bound p this)
  simpa using (h.nodup.subperm hsub).length_le

theorem towerL_sublist (s : LState) (t : List Nat) (L : Nat) :
    List.Sublist (towerL s t L) t :=
  List.filter_sublist t

theorem AL_sublist (s : LState) (t : List Nat) (key : Int) (L : Nat) :
    List.Sublist (AL s t key L) t :=
  (List.filter_sublist _).trans (towerL_sublist s t L)

theorem BL_sublist (s : LState) (t : List Nat) (key : Int) (L : Nat) :
    List.Sublist (BL s t key L) t :=
  (List.filter_sublist _).trans (towerL_sublist s t L)

theorem mem_AL {s t key L p} (hp : p ∈ AL s t key L) :
    p ∈ t ∧ L ≤ (lnode s p).node_level ∧ lkey s p < key := by
  have h1 := List.mem_filter.mp hp
  have h2 := List.mem_filter.mp h1.1
  exact ⟨h2.1, by simpa using h2.2, by simpa using h1.2⟩

theorem mem_BL {s t key L p} (hp : p ∈ BL s t key L) :
    p ∈ t ∧ L ≤ (lnode s p).node_level ∧ ¬ lkey s p < key := by
  have h1 := List.mem_filter.mp hp
  have h2 := List.mem_filter.mp h1.1
  exact ⟨h2.1, by simpa using h2.2, by simpa using h1.2⟩

theorem towerL_sorted {s t} (h : LWF s t) (L : Nat) :
    ((towerL s t L).map (lkey s)).Chain' (· < ·) := by
  rw [List.chain'_iff_pairwise, List.pairwise_map]
  exact h.pairwise_keys.sublist (towerL_sublist s t L)

/-- At each level the tower splits at `key` into `AL ++ BL`. -/
theorem towerL_split {s t} (h : LWF s t) (key : Int) (L : Nat) :
    towerL s t L = AL s t key L ++ BL s t key L :=
  sorted_filter_split (towerL_sorted h L)

/-- Above `max_level` no node occupies the level. -/
theorem towerL_high {s t} (h : LWF s t) {L : Nat} (hL : s.max_level < L) :
    towerL s t L = [] := by
  refine List.filter_eq_nil_iff.mpr fun p hp => ?_
  have := h.lvl_le p hp
  simpa using by omega

theorem towerL_zero {s t} (_ : LWF s t) : towerL s t 0 = t := by
  refine List.filter_eq_self.mpr fun p _ => by simp

theorem getLastD_mem_cons {α : Type} (l : List α) (a : α) : l.getLastD a ∈ a :: l := by
  rw [List.getLastD_eq_getLast?]
  rcases h : l.getLast? with _ | b
  · simp
  · simp only [Option.getD_some]
    exact List.mem_cons_of_mem a (List.mem_of_mem_getLast? h)

theorem predAt_mem_or {s t key L} :
    predAt s t key L = s.header ∨ predAt s t key L ∈ AL s t key L := by
  unfold predAt
  rcases h : AL s t key L with _ | ⟨a, l⟩
  · left; rfl
  · rcases List.mem_cons.mp (getLastD_mem_cons l a) with h1 | h1
    · right; rw [List.getLastD_cons, h1]; exact List.mem_cons_self a l
    · right; rw [List.getLastD_cons]; exact List.mem_cons_of_mem a h1

theorem succAt_mem_or {s t key L} :
    succAt s t key L = s.tail ∨ succAt s t key L ∈ BL s t key L := by
  unfold succAt
  rcases h : BL s t key L with _ | ⟨a, l⟩
  · left; rfl
  · right; simp

/-! ### The level walk of `find` -/

theorem chain'_head_link {s : LState} {L : Nat} {a : Nat} {l : List Nat}
    (h : List.Chain' (lstep s L) (a :: l)) (hl : l ≠ []) :
    lfwd s a L = some l.headI := by
  rcases l with _ | ⟨b, l'⟩
  · exact absurd rfl hl
  · exact (List.chain'_cons.mp h).1

theorem headI_append_singleton {α : Type} [Inhabited α] (l : List α) (a : α) :
    (l ++ [a]).headI = l.headD a := by
  cases l <;> simp

/-- The level-`L` walk started just past `pred` stops exactly at the boundary
between the keys below `key` (the block `m1`) and the rest (`m2`). -/
theorem ladvance_run (s : LState) (key : Int) (L : Nat) :
    ∀ (m1 : List Nat) (fuel : Nat) (pred : Nat) (m2 : List Nat),
      List.Chain' (lstep s L) (pred :: (m1 ++ m2 ++ [s.tail])) →
      (∀ x ∈ m1, x ≠ s.tail ∧ lkey s x < key) →
      (∀ y ∈ m2.head?, ¬ lkey s y < key) →
      m1.length ≤ fuel →
      ladvance s key L fuel pred ((m1 ++ m2 ++ [s.tail]).headI)
        = (m1.getLastD pred, (m2 ++ [s.tail]).headI)
  | [], fuel, pred, m2, _, _, hm2, _ => by
    rcases m2 with _ | ⟨y, m2'⟩
    · cases fuel with
      | zero => rfl
      | succ f =>
        simp only [List.nil_append, List.headI, List.getLastD]
        rw [ladvance, if_neg]
        simp
    · have hy : ¬ lkey s y < key := hm2 y (by simp)
      cases fuel with
      | zero => rfl
      | succ f =>
        simp only [List.nil_append, List.cons_append, List.headI, List.getLastD]
        rw [ladvance, if_neg]
        simp only [gt_iff_lt, not_and]
        intro _
        exact hy
  | a :: m1', fuel, pred, m2, hch, hm1, hm2, hfuel => by
    have ha := hm1 a (by simp)
    cases fuel with
    | zero => exact absurd hfuel (by simp)
    | succ f =>
      simp only [List.cons_append, List.headI]
      rw [ladvance, if_pos ⟨ha.1, ha.2⟩]
      have hch' : List.Chain' (lstep s L) (a :: (m1' ++ m2 ++ [s.tail])) :=
        (List.chain'_cons.mp (by simpa using hch)).2
      have hlink : lfwd s a L = some (m1' ++ m2 ++ [s.tail]).headI :=
        chain'_head_link hch' (by simp)
      rw [hlink]
      simp only [Option.getD_some]
      rw [List.getLastD_cons]
      exact ladvance_run s key L m1' f a m2 hch' (fun x hx => hm1 x (by simp [hx]))
        hm2 (by simpa using Nat.le_of_succ_le_succ hfuel)

/-- The cross link of the level-`L` chain: the computed predecessor points at
the computed successor. -/
theorem lfwd_predAt {s t} (h : LWF s t) (key : Int) {L : Nat} (hL : L ≤ s.max_level) :
    lfwd s (predAt s t key L) L = some (succAt s t key L) := by
  have hchain := h.chains L hL
  rw [towerL_split h key L] at hchain
  have hshape : List.Chain' (lstep s L)
      ((s.header :: AL s t key L) ++ (BL s t key L ++ [s.tail])) := by
    simpa [List.append_assoc] using hchain
  obtain ⟨-, -, hlink⟩ := List.chain'_append.mp hshape
  refine hlink (predAt s t key L) ?_ (succAt s t key L) ?_
  · exact Option.mem_def.mpr (getLast?_cons_getLastD _ _)
  · rcases hB : BL s t key L with _ | ⟨b, l⟩ <;> simp [succAt, hB]

/-- Processing level `L` of the descent: from the level-`L + 1` predecessor
the walk computes the level-`L` predecessor and successor. -/
theorem lfind_level {s t} (h : LWF s t) (key : Int) {L : Nat} (hL : L ≤ s.max_level) :
    ladvance s key L s.next_id (predAt s t key (L + 1))
        ((lfwd s (predAt s t key (L + 1)) L).getD 0)
      = (predAt s t key L, succAt s t key L) := by
  have hchain := h.chains L hL
  rw [towerL_split h key L] at hchain
  have hm1cond : ∀ x ∈ AL s t key L, x ≠ s.tail ∧ lkey s x < key := by
    intro x hx
    obtain ⟨hxt, -, hxk⟩ := mem_AL hx
    exact ⟨fun hxe => h.tmem (hxe ▸ hxt), hxk⟩
  have hm2cond : ∀ y ∈ (BL s t key L).head?, ¬ lkey s y < key := by
    intro y hy
    exact (mem_BL (List.mem_of_mem_head? hy)).2.2
  rcases @predAt_mem_or s t key (L + 1) with hp | hp
  · rw [hp]
    have hch : List.Chain' (lstep s L)
        (s.header :: (AL s t key L ++ BL s t key L ++ [s.tail])) := by
      simpa [List.append_assoc] using hchain
    have hstart : lfwd s s.header L =
        some (AL s t key L ++ BL s t key L ++ [s.tail]).headI :=
      chain'_head_link hch (by simp)
    rw [hstart]
    simp only [Option.getD_some]
    rw [ladvance_run s key L _ _ _ _ hch hm1cond hm2cond
      (le_trans (List.Sublist.length_le (AL_sublist s t key L)) h.length_le)]
    rw [headI_append_singleton]
    rfl
  · have hpal : predAt s t key (L + 1) ∈ AL s t key L := by
    -- a level-(L+1) predecessor also belongs to the level-L below-key block
      obtain ⟨hxt, hxl, hxk⟩ := mem_AL hp
      refine List.mem_filter.mpr ⟨List.mem_filter.mpr ⟨hxt, ?_⟩, ?_⟩
      · simpa using Nat.le_of_succ_le hxl
      · simpa using hxk
    obtain ⟨u, v, huv⟩ := List.append_of_mem hpal
    have hsuffix : List.Chain' (lstep s L)
        (predAt s t key (L + 1) :: (v ++ BL s t key L ++ [s.tail])) := by
      refine List.Chain'.suffix hchain ⟨s.header :: u, ?_⟩
      rw [huv]
      simp [List.append_assoc]
    have hstart : lfwd s (predAt s t key (L + 1)) L =
        some (v ++ BL s t key L ++ [s.tail]).headI :=
      chain'_head_link hsuffix (by simp)
    rw [hstart]
    simp only [Option.getD_some]
    have hvlen : v.length ≤ s.next_id := by
      have h1 : (AL s t key L).length ≤ t.length :=
        List.Sublist.length_le (AL_sublist s t key L)
      have h2 := h.length_le
      have h3 : (AL s t key L).length = u.length + 1 + v.length := by
        rw [huv]; simp [Nat.add_comm, Nat.add_assoc, Nat.add_left_comm]
      omega
    rw [ladvance_run s key L v _ _ _ hsuffix
      (fun x hx => hm1cond x (by rw [huv]; exact List.mem_append_right u (List.mem_cons_of_mem _ hx)))
      hm2cond hvlen]
    rw [headI_append_singleton]
    unfold predAt
    rw [huv, getLastD_append_cons]
    rfl

/-! ### Full specification of `find` -/

/-- The `found` value after the descent has processed all levels down to `l`. -/
def foundAbove (s : LState) (t : List Nat) (key : Int) (l : Nat) : Option Nat :=
  match lfound s t key with
  | some X => if l ≤ (lnode s X).node_level then some (lnode s X).node_level else none
  | none => none

theorem lfound_mem {s t key X} (hX : lfound s t key = some X) :
    X ∈ t ∧ lkey s X = key := by
  refine ⟨List.mem_of_find?_eq_some hX, ?_⟩
  have := List.find?_some hX
  simpa using this

theorem lfound_of_mem {s t} (h : LWF s t) {key : Int} {y : Nat} (hy : y ∈ t)
    (hk : lkey s y = key) : lfound s t key = some y := by
  have hsome : (lfound s t key).isSome = true := by
    unfold lfound
    rw [List.find?_isSome]
    exact ⟨y, hy, by simpa using hk⟩
  rcases Option.isSome_iff_exists.mp hsome with ⟨Z, hZ⟩
  obtain ⟨hZt, hZk⟩ := lfound_mem hZ
  rw [hZ, h.key_inj hZt hy (hZk.trans hk.symm)]

theorem headD_eq_of_head? {α : Type} {l : List α} {a : α} (h : l.head? = some a)
    (d : α) : l.headD d = a := by
  cases l
  · exact absurd h (by simp)
  · simpa using h

theorem succAt_found {s t} (h : LWF s t) {key : Int} {X : Nat}
    (hX : lfound s t key = some X) {L : Nat} (hL : L ≤ (lnode s X).node_level) :
    succAt s t key L = X := by
  obtain ⟨hXt, hXk⟩ := lfound_mem hX
  have hmem : X ∈ towerL s t L :=
    List.mem_filter.mpr ⟨hXt, by simpa using hL⟩
  have hhd := head_filter_ge (f := lkey s) (k := key) (towerL_sorted h L) hmem hXk
  unfold succAt BL
  exact headD_eq_of_head? hhd _

theorem succAt_no_key {s t} (h : LWF s t) {key : Int} {L : Nat}
    (hnone : ∀ X, lfound s t key = some X → ¬ L ≤ (lnode s X).node_level) :
    ¬ (succAt s t key L ≠ s.tail ∧ lkey s (succAt s t key L) = key) := by
  rintro ⟨hne, hkey⟩
  rcases @succAt_mem_or s t key L with hs | hs
  · exact hne hs
  · obtain ⟨hyt, hyl, -⟩ := mem_BL hs
    have := lfound_of_mem h hyt hkey
    exact hnone _ this hyl

theorem foundAbove_step {s t} (h : LWF s t) (key : Int) {l : Nat} (hl : l ≤ s.max_level) :
    (if foundAbove s t key (l + 1) = none ∧ succAt s t key l ≠ s.tail ∧
          lkey s (succAt s t key l) = key
      then some l else foundAbove s t key (l + 1)) = foundAbove s t key l := by
  unfold foundAbove
  rcases hX : lfound s t key with _ | X
  · simp only [hX]
    rw [if_neg]
    rintro ⟨-, hcond⟩
    exact succAt_no_key h (fun X hX' => by rw [hX] at hX'; exact absurd hX' (by simp)) hcond
  · simp only [hX]
    obtain ⟨hXt, hXk⟩ := lfound_mem hX
    by_cases h1 : l + 1 ≤ (lnode s X).node_level
    · rw [if_pos h1, if_neg (by simp), if_pos (Nat.le_of_succ_le h1)]
    · by_cases h2 : l ≤ (lnode s X).node_level
      · have hXl : (lnode s X).node_level = l := by omega
        rw [if_neg h1, if_pos]
        · rw [if_pos h2, hXl]
        · refine ⟨rfl, ?_, ?_⟩
          · rw [succAt_found h hX h2]
            exact fun he => h.tmem (he ▸ hXt)
          · rw [succAt_found h hX h2]
            exact hXk
      · rw [if_neg h1, if_neg, if_neg h2]
        rintro ⟨-, hcond⟩
        refine succAt_no_key h (fun Y hY => ?_) hcond
        rw [hX] at hY
        injection hY with hY
        rw [← hY]
        exact h2

theorem lfindAux_run {s t} (h : LWF s t) (key : Int) :
    ∀ l : Nat, l ≤ s.max_level + 1 →
    ∀ preds succs : List Nat,
      preds.length = s.max_level + 1 → succs.length = s.max_level + 1 →
      (lfindAux s key l (predAt s t key l) preds succs (foundAbove s t key l)).2.2
          = foundAbove s t key 0
        ∧ (∀ L : Nat,
            (lfindAux s key l (predAt s t key l) preds succs (foundAbove s t key l)).1.getD L 0
              = if L < l then predAt s t key L else preds.getD L 0)
        ∧ (∀ L : Nat,
            (lfindAux s key l (predAt s t key l) preds succs
                (foundAbove s t key l)).2.1.getD L 0
              = if L < l then succAt s t key L else succs.getD L 0)
  | 0, _, preds, succs, _, _ => by
    rw [lfindAux]
    refine ⟨rfl, fun L => ?_, fun L => ?_⟩ <;> simp
  | l + 1, _hl, preds, succs, hplen, hslen => by
    have hlmax : l ≤ s.max_level := by omega
    have hpc := lfind_level h key (L := l) hlmax
    have hstep := foundAbove_step h key (l := l) hlmax
    rw [lfindAux]
    simp only [hpc]
    rw [hstep]
    have ih := lfindAux_run h key l (by omega) (preds.set l (predAt s t key l))
      (succs.set l (succAt s t key l)) (by simpa using hplen) (by simpa using hslen)
    refine ⟨ih.1, fun L => ?_, fun L => ?_⟩
    · rw [ih.2.1 L]
      rcases Nat.lt_trichotomy L l with hL | rfl | hL
      · rw [if_pos hL, if_pos (by omega)]
      · rw [if_neg (by omega), if_pos (by omega)]
        exact getD_set_self _ _ (by omega) _ _
      · rw [if_neg (by omega), if_neg (by omega)]
        exact getD_set_ne _ (by omega) _ _
    · rw [ih.2.2 L]
      rcases Nat.lt_trichotomy L l with hL | rfl | hL
      · rw [if_pos hL, if_pos (by omega)]
      · rw [if_neg (by omega), if_pos (by omega)]
        exact getD_set_self _ _ (by omega) _ _
      · rw [if_neg (by omega), if_neg (by omega)]
        exact getD_set_ne _ (by omega) _ _

theorem foundAbove_zero (s : LState) (t : List Nat) (key : Int) :
    foundAbove s t key 0 = (lfound s t key).map fun X => (lnode s X).node_level := by
  unfold foundAbove
  rcases hX : lfound s t key with _ | X <;> simp [hX]

/-- Complete characterisation of `LockedSkipList::find` on a well-formed
state: the returned level is the tower height of the node carrying `key`,
and the two output vectors hold the per-level predecessors and successors. -/
theorem lfind_run {s t} (h : LWF s t) (key : Int) :
    (lfind s key).2.2 = (lfound s t key).map (fun X => (lnode s X).node_level)
      ∧ (∀ L, L ≤ s.max_level → (lfind s key).1.getD L 0 = predAt s t key L)
      ∧ (∀ L, L ≤ s.max_level → (lfind s key).2.1.getD L 0 = succAt s t key L) := by
  have hsp : predAt s t key (s.max_level + 1) = s.header := by
    unfold predAt AL
    rw [towerL_high h (by omega)]
    rfl
  have hsf : foundAbove s t key (s.max_level + 1) = none := by
    unfold foundAbove
    rcases hX : lfound s t key with _ | X
    · simp only [hX]
    · simp only [hX]
      rw [if_neg]
      have := h.lvl_le X (lfound_mem hX).1
      omega
  have hrun := lfindAux_run h key (s.max_level + 1) le_rfl
    (List.replicate (s.max_level + 1) 0) (List.replicate (s.max_level + 1) 0)
    (by simp) (by simp)
  rw [hsp, hsf] at hrun
  unfold lfind
  refine ⟨hrun.1.trans (foundAbove_zero s t key), fun L hL => ?_, fun L hL => ?_⟩
  · rw [hrun.2.1 L, if_pos (by omega)]
  · rw [hrun.2.2 L, if_pos (by omega)]

/-! ### Behaviour of `search` -/

/-- `LockedSkipList::search` computes the abstract lookup. -/
theorem lsearch_run {s t} (h : LWF s t) (key : Int) :
    lsearch s key = match lookupV s t key with
      | some v => (true, v)
      | none => (false, 0) := by
  obtain ⟨hfound, -, hsuccs⟩ := lfind_run h key
  simp only [lsearch, lookupV]
  rcases hX : lfound s t key with _ | X
  · rw [hX, Option.map_none'] at hfound
    rw [hfound]
    simp
  · rw [hX, Option.map_some'] at hfound
    obtain ⟨hXt, hXk⟩ := lfound_mem hX
    have hlvl := h.lvl_le X hXt
    have hnd : (lfind s key).2.1.getD (lnode s X).node_level 0 = X := by
      rw [hsuccs _ hlvl]
      exact succAt_found h hX le_rfl
    rw [hfound]
    simp only [hnd, Option.map_some']
    rw [if_pos]
    exact ⟨fun he => h.tmem (he ▸ hXt), hXk, h.linked X hXt, h.unmarked X hXt⟩

/-! ### State-update toolkit -/

theorem lnode_lsetFwd (s : LState) (p : Nat) (L : Nat) (tgt : Option Nat) (q : Nat) :
    lnode (lsetFwd s p L tgt) q =
      if q = p then { lnode s q with forward := (lnode s q).forward.set L tgt }
      else lnode s q := by
  unfold lnode lsetFwd
  by_cases hq : q = p
  · subst hq
    rcases s.heap q with _ | n
    · simp only [if_pos rfl, Option.map_none', Option.getD_none]
      rfl
    · simp
  · simp [hq]

theorem lfwd_lsetFwd (s : LState) (p : Nat) (L : Nat) (tgt : Option Nat) (q : Nat)
    (L' : Nat) :
    lfwd (lsetFwd s p L tgt) q L' =
      if q = p ∧ L' = L ∧ L < (lnode s p).forward.length then tgt
      else lfwd s q L' := by
  unfold lfwd
  rw [lnode_lsetFwd]
  by_cases hq : q = p
  · subst hq
    rw [if_pos rfl]
    by_cases hL : L' = L
    · subst hL
      by_cases hlen : L' < (lnode s q).forward.length
      · rw [if_pos ⟨rfl, rfl, hlen⟩]
        exact getD_set_self _ _ hlen _ _
      · rw [if_neg (fun hc => hlen hc.2.2)]
        show ((lnode s q).forward.set L' tgt).getD L' none = (lnode s q).forward.getD L' none
        rw [List.set_eq_of_length_le (by omega)]
    · rw [if_neg (fun hc => hL hc.2.1)]
      show ((lnode s q).forward.set L tgt).getD L' none = (lnode s q).forward.getD L' none
      exact getD_set_ne _ (fun he => hL he.symm) _ _
  · rw [if_neg hq, if_neg (fun hc => hq hc.1)]

theorem lnode_lsetMarked (s : LState) {p : Nat} (hp : (s.heap p).isSome = true) (q : Nat) :
    lnode (lsetMarked s p) q =
      if q = p then { lnode s q with marked := true } else lnode s q := by
  obtain ⟨n, hn⟩ := Option.isSome_iff_exists.mp hp
  unfold lnode lsetMarked
  by_cases hq : q = p
  · subst hq
    simp [hn]
  · simp [hq]

theorem lnode_lsetLinked (s : LState) {p : Nat} (hp : (s.heap p).isSome = true) (q : Nat) :
    lnode (lsetLinked s p) q =
      if q = p then { lnode s q with fully_linked := true } else lnode s q := by
  obtain ⟨n, hn⟩ := Option.isSome_iff_exists.mp hp
  unfold lnode lsetLinked
  by_cases hq : q = p
  · subst hq
    simp [hn]
  · simp [hq]

theorem lnode_ldelete_ne (s : LState) (p : Nat) {q : Nat} (h : q ≠ p) :
    lnode (ldelete s p) q = lnode s q := by
  unfold lnode ldelete
  simp [h]

/-- The metadata of a node: everything except its forward pointers. -/
def lmeta (s : LState) (q : Nat) : Int × Int × Bool × Bool × Nat × Nat × Bool :=
  (lkey s q, (lnode s q).value, (lnode s q).marked, (lnode s q).fully_linked,
    (lnode s q).node_level, (lnode s q).forward.length, (s.heap q).isSome)

theorem lsetFwd_isSome (s : LState) (p : Nat) (L : Nat) (tgt : Option Nat) (q : Nat) :
    ((lsetFwd s p L tgt).heap q).isSome = (s.heap q).isSome := by
  unfold lsetFwd
  by_cases hq : q = p
  · subst hq
    rcases s.heap q with _ | n <;> simp
  · simp [hq]

theorem lmeta_lsetFwd (s : LState) (p : Nat) (L : Nat) (tgt : Option Nat) (q : Nat) :
    lmeta (lsetFwd s p L tgt) q = lmeta s q := by
  unfold lmeta lkey
  rw [lnode_lsetFwd, lsetFwd_isSome]
  by_cases hq : q = p
  · subst hq
    rw [if_pos rfl]
    simp
  · rw [if_neg hq]

theorem lsetFwd_header (s : LState) (p : Nat) (L : Nat) (tgt : Option Nat) :
    (lsetFwd s p L tgt).header = s.header := rfl

theorem lmeta_eq_elim {s s' : LState} {q : Nat} (h : lmeta s' q = lmeta s q) :
    lkey s' q = lkey s q ∧ (lnode s' q).value = (lnode s q).value ∧
      (lnode s' q).marked = (lnode s q).marked ∧
      (lnode s' q).fully_linked = (lnode s q).fully_linked ∧
      (lnode s' q).node_level = (lnode s q).node_level ∧
      (lnode s' q).forward.length = (lnode s q).forward.length ∧
      ((s'.heap q).isSome = (s.heap q).isSome) := by
  unfold lmeta at h
  exact ⟨congrArg (fun x => x.1) h, congrArg (fun x => x.2.1) h,
    congrArg (fun x => x.2.2.1) h, congrArg (fun x => x.2.2.2.1) h,
    congrArg (fun x => x.2.2.2.2.1) h, congrArg (fun x => x.2.2.2.2.2.1) h,
    congrArg (fun x => x.2.2.2.2.2.2) h⟩

/-! ### The insert splice -/

theorem lfwd_lspliceLevel (preds succs : List Nat) (newId : Nat) (s1 : LState) (L0 : Nat)
    (hne : preds.getD L0 0 ≠ newId)
    (hlenp : L0 < (lnode s1 (preds.getD L0 0)).forward.length)
    (hlenn : L0 < (lnode s1 newId).forward.length) :
    (∀ q L', lfwd (lspliceLevel preds succs newId s1 L0) q L' =
      if L' = L0 ∧ q = newId then some (succs.getD L0 0)
      else if L' = L0 ∧ preds.getD L0 0 = q then some newId
      else lfwd s1 q L')
    ∧ ∀ q, lmeta (lspliceLevel preds succs newId s1 L0) q = lmeta s1 q := by
  constructor
  · intro q L'
    unfold lspliceLevel
    rw [lfwd_lsetFwd, lfwd_lsetFwd]
    have hlen1 : (lnode (lsetFwd s1 newId L0 (some (succs.getD L0 0)))
        (preds.getD L0 0)).forward.length = (lnode s1 (preds.getD L0 0)).forward.length :=
      (lmeta_eq_elim (lmeta_lsetFwd s1 newId L0 _ _)).2.2.2.2.2.1
    by_cases h1 : L' = L0 ∧ q = newId
    · obtain ⟨rfl, rfl⟩ := h1
      rw [if_neg (fun hc => hne hc.1.symm), if_pos ⟨rfl, rfl, hlenn⟩, if_pos ⟨rfl, rfl⟩]
    · rw [if_neg h1]
      by_cases h2 : L' = L0 ∧ preds.getD L0 0 = q
      · obtain ⟨rfl, h2⟩ := h2
        rw [if_pos ⟨h2.symm, rfl, by rw [hlen1]; exact hlenp⟩, if_pos ⟨rfl, h2⟩]
      · rw [if_neg h2, if_neg (fun hc => h2 ⟨hc.2.1, hc.1.symm⟩),
          if_neg (fun hc => h1 ⟨hc.2.1, hc.1⟩)]
  · intro q
    unfold lspliceLevel
    rw [lmeta_lsetFwd, lmeta_lsetFwd]

/-- Effect of the whole splice loop of `LockedSkipList::insert`. -/
theorem lsplice_fold (preds succs : List Nat) (newId : Nat) :
    ∀ (ls : List Nat) (s1 : LState),
      ls.Nodup →
      (∀ L ∈ ls, preds.getD L 0 ≠ newId) →
      (∀ L ∈ ls, L < (lnode s1 (preds.getD L 0)).forward.length) →
      (∀ L ∈ ls, L < (lnode s1 newId).forward.length) →
      (∀ q L',
          lfwd (ls.foldl (lspliceLevel preds succs newId) s1) q L' =
            if L' ∈ ls ∧ q = newId then some (succs.getD L' 0)
            else if L' ∈ ls ∧ preds.getD L' 0 = q then some newId
            else lfwd s1 q L')
        ∧ ∀ q, lmeta (ls.foldl (lspliceLevel preds succs newId) s1) q = lmeta s1 q
  | [], s1, _, _, _, _ => by
    refine ⟨fun q L' => ?_, fun q => rfl⟩
    simp
  | L0 :: ls, s1, hnd, hne, hlenp, hlenn => by
    have hstep := lfwd_lspliceLevel preds succs newId s1 L0 (hne L0 (by simp))
      (hlenp L0 (by simp)) (hlenn L0 (by simp))
    have hmeta := hstep.2
    have ih := lsplice_fold preds succs newId ls (lspliceLevel preds succs newId s1 L0)
      (List.Nodup.of_cons hnd) (fun L hL => hne L (by simp [hL]))
      (fun L hL => by
        rw [(lmeta_eq_elim (hmeta _)).2.2.2.2.2.1]
        exact hlenp L (by simp [hL]))
      (fun L hL => by
        rw [(lmeta_eq_elim (hmeta _)).2.2.2.2.2.1]
        exact hlenn L (by simp [hL]))
    rw [List.foldl_cons]
    refine ⟨fun q L' => ?_, fun q => (ih.2 q).trans (hmeta q)⟩
    rw [ih.1 q L', hstep.1 q L']
    have hL0ls : L0 ∉ ls := (List.nodup_cons.mp hnd).1
    have hne0 : preds.getD L0 0 ≠ newId := hne L0 (by simp)
    clear ih hstep hmeta hnd hne hlenp hlenn
    by_cases hq1 : q = newId <;> by_cases hL : L' = L0 <;> by_cases hm : L' ∈ ls <;>
      by_cases hp : preds.getD L' 0 = q <;>
      simp_all [List.mem_cons]

/-! ### The state produced by a fresh insert -/

/-- The freshly allocated node state inside `LockedSkipList::insert`. -/
def linsAlloc (s : LState) (key value : Int) (nl : Nat) : LState :=
  { s with
    heap := fun q =>
      if q = s.next_id then
        some ⟨key, value, List.replicate (nl + 1) none, false, false, nl⟩
      else s.heap q,
    next_id := s.next_id + 1 }

/-- The final state of a successful `LockedSkipList::insert`. -/
def linsResult (s : LState) (key value : Int) (nl : Nat) : LState :=
  lsetLinked
    ((List.range (nl + 1)).foldl
      (lspliceLevel (lfind s key).1 (lfind s key).2.1 s.next_id)
      (linsAlloc s key value nl))
    s.next_id

theorem linsertLoop_new_eq {s : LState} {key : Int}
    (hfound : (lfind s key).2.2 = none)
    (hvalid : linsertValid s (lfind s key).1 (lfind s key).2.1 nl = true)
    (value : Int) (fuel : Nat) :
    linsertLoop s key value nl (fuel + 1) = some (linsResult s key value nl, true) := by
  simp only [linsertLoop, hfound]
  rw [if_pos hvalid]
  rfl

theorem lnode_linsAlloc (s : LState) (key value : Int) (nl : Nat) (q : Nat) :
    lnode (linsAlloc s key value nl) q =
      if q = s.next_id then ⟨key, value, List.replicate (nl + 1) none, false, false, nl⟩
      else lnode s q := by
  unfold lnode linsAlloc
  by_cases hq : q = s.next_id <;> simp [hq]

theorem isSome_linsAlloc (s : LState) (key value : Int) (nl : Nat) (q : Nat) :
    (((linsAlloc s key value nl).heap q).isSome = true) ↔
      (q = s.next_id ∨ (s.heap q).isSome = true) := by
  unfold linsAlloc
  by_cases hq : q = s.next_id <;> simp [hq]

theorem lfwd_linsAlloc_old (s : LState) (key value : Int) (nl : Nat) {q : Nat}
    (hq : q ≠ s.next_id) (L : Nat) :
    lfwd (linsAlloc s key value nl) q L = lfwd s q L := by
  unfold lfwd
  rw [lnode_linsAlloc, if_neg hq]

theorem lfwd_linsAlloc_new (s : LState) (key value : Int) (nl : Nat) (L : Nat) :
    lfwd (linsAlloc s key value nl) s.next_id L = none := by
  unfold lfwd
  rw [lnode_linsAlloc, if_pos rfl]
  simp [List.getD_eq_getElem?_getD]

theorem lfwd_lsetLinked (s : LState) (p q : Nat) (L : Nat) :
    lfwd (lsetLinked s p) q L = lfwd s q L := by
  unfold lfwd lnode lsetLinked
  by_cases hq : q = p
  · subst hq
    rcases s.heap q with _ | n <;> simp
  · simp [hq]

theorem lmeta_lsetLinked_ne (s : LState) (p : Nat) {q : Nat} (hq : q ≠ p) :
    lmeta (lsetLinked s p) q = lmeta s q := by
  unfold lmeta lkey lnode lsetLinked
  simp [hq]

theorem lmeta_linsAlloc_ne (s : LState) (key value : Int) (nl : Nat) {q : Nat}
    (hq : q ≠ s.next_id) : lmeta (linsAlloc s key value nl) q = lmeta s q := by
  unfold lmeta lkey lnode linsAlloc
  simp [hq]

theorem predAt_lt_next {s t} (h : LWF s t) (key : Int) (L : Nat) :
    predAt s t key L < s.next_id := by
  rcases @predAt_mem_or s t key L with hp | hp
  · rw [hp]
    exact h.bound _ ((h.dom _).mpr (Or.inl rfl))
  · exact h.bound _ ((h.dom _).mpr (Or.inr (Or.inr (mem_AL hp).1)))

theorem predAt_len {s t} (h : LWF s t) (key : Int) {L : Nat} (hL : L ≤ s.max_level) :
    L < (lnode s (predAt s t key L)).forward.length := by
  rcases @predAt_mem_or s t key L with hp | hp
  · rw [hp, h.hdr_len]
    omega
  · obtain ⟨hpt, hpl, -⟩ := mem_AL hp
    rw [h.len_eq _ hpt]
    omega

/-- Complete pointer/metadata characterisation of the state after a fresh
insert of `key` with tower height `nl`. -/
theorem linsResult_facts {s t} (h : LWF s t) (key value : Int) {nl : Nat}
    (hnl : nl ≤ s.max_level) :
    (∀ q L', q ≠ s.next_id →
        lfwd (linsResult s key value nl) q L' =
          if L' ≤ nl ∧ predAt s t key L' = q then some s.next_id else lfwd s q L')
      ∧ (∀ L', lfwd (linsResult s key value nl) s.next_id L' =
          if L' ≤ nl then some (succAt s t key L') else none)
      ∧ (∀ q, q ≠ s.next_id → lmeta (linsResult s key value nl) q = lmeta s q)
      ∧ (lkey (linsResult s key value nl) s.next_id = key
          ∧ (lnode (linsResult s key value nl) s.next_id).value = value
          ∧ (lnode (linsResult s key value nl) s.next_id).marked = false
          ∧ (lnode (linsResult s key value nl) s.next_id).fully_linked = true
          ∧ (lnode (linsResult s key value nl) s.next_id).node_level = nl
          ∧ (lnode (linsResult s key value nl) s.next_id).forward.length = nl + 1
          ∧ (((linsResult s key value nl).heap s.next_id).isSome = true)) := by
  obtain ⟨-, hpreds, hsuccs⟩ := lfind_run h key
  have hnewnode : lnode (linsAlloc s key value nl) s.next_id =
      ⟨key, value, List.replicate (nl + 1) none, false, false, nl⟩ := by
    rw [lnode_linsAlloc, if_pos rfl]
  have hfold := lsplice_fold (lfind s key).1 (lfind s key).2.1 s.next_id
    (List.range (nl + 1)) (linsAlloc s key value nl) (List.nodup_range _)
    (fun L hL => by
      have hLr := List.mem_range.mp hL
      rw [hpreds L (by omega)]
      exact Nat.ne_of_lt (predAt_lt_next h key L))
    (fun L hL => by
      have hLr := List.mem_range.mp hL
      rw [hpreds L (by omega), lnode_linsAlloc,
        if_neg (Nat.ne_of_lt (predAt_lt_next h key L))]
      exact predAt_len h key (by omega))
    (fun L hL => by
      have hLr := List.mem_range.mp hL
      rw [hnewnode]
      simpa using hLr)
  have hsome2 : (((List.range (nl + 1)).foldl
      (lspliceLevel (lfind s key).1 (lfind s key).2.1 s.next_id)
      (linsAlloc s key value nl)).heap s.next_id).isSome = true := by
    have := (lmeta_eq_elim (hfold.2 s.next_id)).2.2.2.2.2.2
    rw [this]
    exact (isSome_linsAlloc s key value nl s.next_id).mpr (Or.inl rfl)
  refine ⟨fun q L' hq => ?_, fun L' => ?_, fun q hq => ?_, ?_⟩
  · unfold linsResult
    rw [lfwd_lsetLinked, hfold.1 q L', if_neg (fun hc => hq hc.2)]
    have hiff : (L' ∈ List.range (nl + 1) ∧ (lfind s key).1.getD L' 0 = q)
        ↔ (L' ≤ nl ∧ predAt s t key L' = q) := by
      constructor
      · rintro ⟨hm, hp⟩
        have hLr := List.mem_range.mp hm
        rw [hpreds L' (by omega)] at hp
        exact ⟨by omega, hp⟩
      · rintro ⟨hm, hp⟩
        refine ⟨List.mem_range.mpr (by omega), ?_⟩
        rw [hpreds L' (by omega)]
        exact hp
    rw [if_congr hiff rfl rfl, lfwd_linsAlloc_old s key value nl hq L']
  · unfold linsResult
    rw [lfwd_lsetLinked, hfold.1 _ L']
    by_cases hc : L' ≤ nl
    · rw [if_pos ⟨List.mem_range.mpr (by omega), rfl⟩, hsuccs L' (by omega), if_pos hc]
    · rw [if_neg (fun hcc => hc (by
          have := List.mem_range.mp hcc.1
          omega)),
        if_neg (fun hcc => hc (by
          have := List.mem_range.mp hcc.1
          omega)),
        if_neg hc]
      exact lfwd_linsAlloc_new s key value nl L'
  · unfold linsResult
    rw [lmeta_lsetLinked_ne _ _ hq, hfold.2 q, lmeta_linsAlloc_ne s key value nl hq]
  · have hm2 := lmeta_eq_elim (hfold.2 s.next_id)
    have hnode : lnode (linsResult s key value nl) s.next_id =
        { lnode ((List.range (nl + 1)).foldl
            (lspliceLevel (lfind s key).1 (lfind s key).2.1 s.next_id)
            (linsAlloc s key value nl)) s.next_id with fully_linked := true } := by
      unfold linsResult
      rw [lnode_lsetLinked _ hsome2, if_pos rfl]
    have hisome : ((linsResult s key value nl).heap s.next_id).isSome = true := by
      rcases hx : (((List.range (nl + 1)).foldl
          (lspliceLevel (lfind s key).1 (lfind s key).2.1 s.next_id)
          (linsAlloc s key value nl)).heap s.next_id) with _ | n
      · rw [hx] at hsome2
        simp at hsome2
      · unfold linsResult lsetLinked
        simp only [if_pos rfl]
        rw [hx]
        rfl
    have hk1 : lkey (linsAlloc s key value nl) s.next_id = key := by
      unfold lkey
      rw [hnewnode]
    refine ⟨?_, ?_, ?_, ?_, ?_, ?_, hisome⟩
    · unfold lkey
      rw [hnode]
      show (lnode _ s.next_id).key = key
      rw [show (lnode ((List.range (nl + 1)).foldl
          (lspliceLevel (lfind s key).1 (lfind s key).2.1 s.next_id)
          (linsAlloc s key value nl)) s.next_id).key = lkey (linsAlloc s key value nl)
          s.next_id from hm2.1, hk1]
    · rw [hnode]
      show (lnode _ s.next_id).value = value
      rw [hm2.2.1, hnewnode]
    · rw [hnode]
      show (lnode _ s.next_id).marked = false
      rw [hm2.2.2.1, hnewnode]
    · rw [hnode]
    · rw [hnode]
      show (lnode _ s.next_id).node_level = nl
      rw [hm2.2.2.2.2.1, hnewnode]
    · rw [hnode]
      show (lnode _ s.next_id).forward.length = nl + 1
      rw [hm2.2.2.2.2.2.1, hnewnode]
      simp

/-! ### Well-formedness of the insert result -/

theorem chain'_lstep_congr {s s' : LState} {L : Nat} :
    ∀ {l : List Nat}, (∀ a ∈ l.dropLast, lfwd s' a L = lfwd s a L) →
      List.Chain' (lstep s L) l → List.Chain' (lstep s' L) l
  | [], _, _ => List.chain'_nil
  | [_], _, _ => List.chain'_singleton _
  | a :: b :: l, hfw, hch => by
    rw [List.chain'_cons] at hch ⊢
    refine ⟨?_, chain'_lstep_congr (fun x hx => hfw x (by
      rw [List.dropLast_cons₂]
      exact List.mem_cons_of_mem a hx)) hch.2⟩
    unfold lstep
    rw [hfw a (by
      rw [List.dropLast_cons₂]
      exact List.mem_cons_self _ _)]
    exact hch.1

theorem getLast_cons_eq_getLastD {α : Type} (d : α) (l : List α) :
    (d :: l).getLast (by simp) = l.getLastD d := by
  have h1 := List.getLast?_eq_getLast (d :: l) (by simp)
  rw [getLast?_cons_getLastD] at h1
  injection h1 with h1
  exact h1.symm

theorem dropLast_ne_getLastD {α : Type} {l : List α} {d : α} (hnd : (d :: l).Nodup) :
    ∀ a ∈ (d :: l).dropLast, a ≠ l.getLastD d := by
  intro a ha he
  have hsplit := List.dropLast_concat_getLast (l := d :: l) (by simp)
  rw [getLast_cons_eq_getLastD] at hsplit
  rw [← hsplit] at hnd
  have hdisj := List.disjoint_of_nodup_append hnd
  exact hdisj ha (by simp [he])

theorem t_split {s t} (h : LWF s t) (key : Int) :
    t = AL s t key 0 ++ BL s t key 0 := by
  have := towerL_split h key 0
  rwa [towerL_zero h] at this

theorem nodup_header_AL {s t} (h : LWF s t) (key : Int) (L : Nat) :
    (s.header :: AL s t key L).Nodup := by
  rw [List.nodup_cons]
  exact ⟨fun hm => h.hmem ((AL_sublist s t key L).subset hm),
    h.nodup.sublist (AL_sublist s t key L)⟩

/-- Keys of live nodes and key order transfer to the new state. -/
theorem lkey_linsResult_old {s t} (h : LWF s t) (key value : Int) {nl : Nat}
    (hnl : nl ≤ s.max_level) {q : Nat} (hq : q ∈ t) :
    lkey (linsResult s key value nl) q = lkey s q := by
  have hqlt := h.bound q ((h.dom q).mpr (Or.inr (Or.inr hq)))
  exact (lmeta_eq_elim ((linsResult_facts h key value hnl).2.2.1 q
    (Nat.ne_of_lt hqlt))).1

theorem lvl_linsResult_old {s t} (h : LWF s t) (key value : Int) {nl : Nat}
    (hnl : nl ≤ s.max_level) {q : Nat} (hq : q ∈ t) :
    (lnode (linsResult s key value nl) q).node_level = (lnode s q).node_level := by
  have hqlt := h.bound q ((h.dom q).mpr (Or.inr (Or.inr hq)))
  exact (lmeta_eq_elim ((linsResult_facts h key value hnl).2.2.1 q
    (Nat.ne_of_lt hqlt))).2.2.2.2.1

/-- The tower of the new state at each level. -/
theorem towerL_linsResult {s t} (h : LWF s t) (key value : Int) {nl : Nat}
    (hnl : nl ≤ s.max_level) (L : Nat) :
    towerL (linsResult s key value nl) (AL s t key 0 ++ s.next_id :: BL s t key 0) L
      = if L ≤ nl then AL s t key L ++ s.next_id :: BL s t key L
        else towerL s t L := by
  have hnew_lvl : (lnode (linsResult s key value nl) s.next_id).node_level = nl :=
    (linsResult_facts h key value hnl).2.2.2.2.2.2.2.1
  unfold towerL
  rw [List.filter_append, List.filter_cons]
  have hAL : (AL s t key 0).filter
      (fun p => decide (L ≤ (lnode (linsResult s key value nl) p).node_level))
      = AL s t key L := by
    rw [List.filter_congr (fun p hp => by
      rw [lvl_linsResult_old h key value hnl ((AL_sublist s t key 0).subset hp)])]
    show ((towerL s t 0).filter _).filter _ = _
    rw [towerL_zero h]
    unfold AL towerL
    rw [List.filter_filter, List.filter_filter]
    exact List.filter_congr fun p hp => Bool.and_comm _ _
  have hBL : (BL s t key 0).filter
      (fun p => decide (L ≤ (lnode (linsResult s key value nl) p).node_level))
      = BL s t key L := by
    rw [List.filter_congr (fun p hp => by
      rw [lvl_linsResult_old h key value hnl ((BL_sublist s t key 0).subset hp)])]
    show ((towerL s t 0).filter _).filter _ = _
    rw [towerL_zero h]
    unfold BL towerL
    rw [List.filter_filter, List.filter_filter]
    exact List.filter_congr fun p hp => Bool.and_comm _ _
  rw [hAL, hBL, hnew_lvl]
  by_cases hc : L ≤ nl
  · rw [if_pos hc, decide_eq_true hc]
    rfl
  · rw [if_neg hc, decide_eq_false hc]
    show AL s t key L ++ BL s t key L = towerL s t L
    exact (towerL_split h key L).symm

theorem head?_append_singleton {α : Type} (l : List α) (a : α) :
    (l ++ [a]).head? = some (l.headD a) := by
  cases l <;> simp

theorem splice_foldl_rec (preds succs : List Nat) (newId : Nat) :
    ∀ (ls : List Nat) (s1 : LState),
      (ls.foldl (lspliceLevel preds succs newId) s1).header = s1.header
        ∧ (ls.foldl (lspliceLevel preds succs newId) s1).tail = s1.tail
        ∧ (ls.foldl (lspliceLevel preds succs newId) s1).max_level = s1.max_level
        ∧ (ls.foldl (lspliceLevel preds succs newId) s1).probability = s1.probability
        ∧ (ls.foldl (lspliceLevel preds succs newId) s1).next_id = s1.next_id
  | [], s1 => ⟨rfl, rfl, rfl, rfl, rfl⟩
  | L0 :: ls, s1 => by
    rw [List.foldl_cons]
    exact splice_foldl_rec preds succs newId ls _

theorem linsResult_rec (s : LState) (key value : Int) (nl : Nat) :
    (linsResult s key value nl).header = s.header
      ∧ (linsResult s key value nl).tail = s.tail
      ∧ (linsResult s key value nl).max_level = s.max_level
      ∧ (linsResult s key value nl).probability = s.probability
      ∧ (linsResult s key value nl).next_id = s.next_id + 1 := by
  unfold linsResult lsetLinked
  have := splice_foldl_rec (lfind s key).1 (lfind s key).2.1 s.next_id
    (List.range (nl + 1)) (linsAlloc s key value nl)
  exact ⟨this.1, this.2.1, this.2.2.1, this.2.2.2.1, this.2.2.2.2⟩

theorem ne_next_of_isSome {s t} (h : LWF s t) {a : Nat}
    (ha : (s.heap a).isSome = true) : a ≠ s.next_id :=
  Nat.ne_of_lt (h.bound a ha)

theorem mem_t'_iff {s t} (h : LWF s t) (key : Int) (q : Nat) :
    q ∈ AL s t key 0 ++ s.next_id :: BL s t key 0 ↔ (q = s.next_id ∨ q ∈ t) := by
  rw [List.mem_append, List.mem_cons]
  constructor
  · rintro (hq | hq | hq)
    · exact Or.inr ((AL_sublist s t key 0).subset hq)
    · exact Or.inl hq
    · exact Or.inr ((BL_sublist s t key 0).subset hq)
  · rintro (rfl | hq)
    · exact Or.inr (Or.inl rfl)
    · rw [t_split h key, List.mem_append] at hq
      rcases hq with hq | hq
      · exact Or.inl hq
      · exact Or.inr (Or.inr hq)

/-- The state after a fresh insert satisfies the invariant with the new node
spliced into the live list at its key position. -/
theorem linsResult_wf {s t} (h : LWF s t) {key : Int} (hX : lfound s t key = none)
    (value : Int) {nl : Nat} (hnl : nl ≤ s.max_level) :
    LWF (linsResult s key value nl) (AL s t key 0 ++ s.next_id :: BL s t key 0) := by
  have hfacts := linsResult_facts h key value hnl
  have hfwd_old := hfacts.1
  have hfwd_new := hfacts.2.1
  have hmeta_old := hfacts.2.2.1
  obtain ⟨hknew, hvnew, hmnew, hflnew, hlvnew, hlennew, hsnew⟩ := hfacts.2.2.2
  obtain ⟨hrh, hrt, hrm, hrp, hrn⟩ := linsResult_rec s key value nl
  have hhne : s.header ≠ s.next_id :=
    ne_next_of_isSome h ((h.dom _).mpr (Or.inl rfl))
  have htne : s.tail ≠ s.next_id :=
    ne_next_of_isSome h ((h.dom _).mpr (Or.inr (Or.inl rfl)))
  have htmem : ∀ q ∈ t, q ≠ s.next_id :=
    fun q hq => ne_next_of_isSome h ((h.dom _).mpr (Or.inr (Or.inr hq)))
  have hmeta_t : ∀ q ∈ t, lmeta (linsResult s key value nl) q = lmeta s q :=
    fun q hq => hmeta_old q (htmem q hq)
  have hkey_t : ∀ q ∈ t, lkey (linsResult s key value nl) q = lkey s q :=
    fun q hq => (lmeta_eq_elim (hmeta_t q hq)).1
  have hBL_gt : ∀ b ∈ BL s t key 0, key < lkey s b := by
    intro b hb
    obtain ⟨hbt, -, hbk⟩ := mem_BL hb
    rcases lt_or_eq_of_le (not_lt.mp hbk) with hlt | heq
    · exact hlt
    · rw [lfound_of_mem h hbt heq.symm] at hX
      exact absurd hX (by simp)
  refine ⟨?_, ?_, ?_, ?_, ?_, ?_, ?_, ?_, ?_, ?_, ?_, ?_, ?_, ?_, ?_, ?_, ?_⟩
  · rw [hrh, hrt]
    exact h.hne
  · rw [hrh, mem_t'_iff h key]
    rintro (he | he)
    · exact hhne he
    · exact h.hmem he
  · rw [hrt, mem_t'_iff h key]
    rintro (he | he)
    · exact htne he
    · exact h.tmem he
  · have hnotin : s.next_id ∉ AL s t key 0 ++ BL s t key 0 := by
      rw [← t_split h key]
      intro hm
      exact htmem _ hm rfl
    have := h.nodup
    rw [t_split h key] at this
    exact List.nodup_middle.mpr (List.nodup_cons.mpr ⟨hnotin, this⟩)
  · intro p
    rw [hrh, hrt, mem_t'_iff h key]
    by_cases hp : p = s.next_id
    · subst hp
      rw [hsnew]
      simp
    · rw [(lmeta_eq_elim (hmeta_old p hp)).2.2.2.2.2.2, h.dom p]
      constructor
      · rintro (he | he | he)
        · exact Or.inl he
        · exact Or.inr (Or.inl he)
        · exact Or.inr (Or.inr (Or.inr he))
      · rintro (he | he | rfl | he)
        · exact Or.inl he
        · exact Or.inr (Or.inl he)
        · exact absurd rfl hp
        · exact Or.inr (Or.inr he)
  · intro p hp
    rw [hrn]
    by_cases hpe : p = s.next_id
    · exact hpe ▸ Nat.lt_succ_self _
    · rw [(lmeta_eq_elim (hmeta_old p hpe)).2.2.2.2.2.2] at hp
      exact Nat.lt_succ_of_lt (h.bound p hp)
  · rw [hrh, hrm, (lmeta_eq_elim (hmeta_old _ hhne)).2.2.2.2.2.1]
    exact h.hdr_len
  · rw [hrh, hrm, (lmeta_eq_elim (hmeta_old _ hhne)).2.2.2.2.1]
    exact h.hdr_level
  · rw [hrh, (lmeta_eq_elim (hmeta_old _ hhne)).2.2.1]
    exact h.hdr_marked
  · rw [hrt, (lmeta_eq_elim (hmeta_old _ htne)).2.2.2.2.1]
    exact h.tl_level
  · rw [hrt, (lmeta_eq_elim (hmeta_old _ htne)).2.2.1]
    exact h.tl_marked
  · intro p hp
    rw [hrm]
    rcases (mem_t'_iff h key p).mp hp with rfl | hp
    · rw [hlvnew]
      exact hnl
    · rw [(lmeta_eq_elim (hmeta_t p hp)).2.2.2.2.1]
      exact h.lvl_le p hp
  · intro p hp
    rcases (mem_t'_iff h key p).mp hp with rfl | hp
    · rw [hlennew, hlvnew]
    · rw [(lmeta_eq_elim (hmeta_t p hp)).2.2.2.2.2.1,
        (lmeta_eq_elim (hmeta_t p hp)).2.2.2.2.1]
      exact h.len_eq p hp
  · intro p hp
    rcases (mem_t'_iff h key p).mp hp with rfl | hp
    · exact hflnew
    · rw [(lmeta_eq_elim (hmeta_t p hp)).2.2.2.1]
      exact h.linked p hp
  · intro p hp
    rcases (mem_t'_iff h key p).mp hp with rfl | hp
    · exact hmnew
    · rw [(lmeta_eq_elim (hmeta_t p hp)).2.2.1]
      exact h.unmarked p hp
  · rw [List.chain'_iff_pairwise, List.pairwise_map]
    have hpw := h.pairwise_keys
    rw [t_split h key] at hpw
    rw [List.pairwise_append] at hpw
    rw [List.pairwise_append]
    refine ⟨?_, ?_, ?_⟩
    · refine hpw.1.imp_of_mem fun {a b} ha hb hab => ?_
      rw [hkey_t a ((AL_sublist s t key 0).subset ha),
        hkey_t b ((AL_sublist s t key 0).subset hb)]
      exact hab
    · rw [List.pairwise_cons]
      refine ⟨fun b hb => ?_, ?_⟩
      · rw [hknew, hkey_t b ((BL_sublist s t key 0).subset hb)]
        exact hBL_gt b hb
      · refine hpw.2.1.imp_of_mem fun {a b} ha hb hab => ?_
        rw [hkey_t a ((BL_sublist s t key 0).subset ha),
          hkey_t b ((BL_sublist s t key 0).subset hb)]
        exact hab
    · intro a ha b hb
      rw [List.mem_cons] at hb
      have hak : lkey s a < key := (mem_AL ha).2.2
      rcases hb with rfl | hb
      · rw [hkey_t a ((AL_sublist s t key 0).subset ha), hknew]
        exact hak
      · rw [hkey_t a ((AL_sublist s t key 0).subset ha),
          hkey_t b ((BL_sublist s t key 0).subset hb)]
        exact lt_trans hak (hBL_gt b hb)
  · intro L hL
    rw [hrm] at hL
    rw [hrh, hrt, towerL_linsResult h key value hnl L]
    by_cases hc : L ≤ nl
    · rw [if_pos hc]
      have hshape : s.header :: (AL s t key L ++ s.next_id :: BL s t key L) ++ [s.tail]
          = (s.header :: AL s t key L) ++ (s.next_id :: (BL s t key L ++ [s.tail])) := by
        simp
      rw [hshape, List.chain'_append]
      have hbase := h.chains L hL
      rw [towerL_split h key L] at hbase
      have hbase' : List.Chain' (lstep s L)
          ((s.header :: AL s t key L) ++ (BL s t key L ++ [s.tail])) := by
        simpa [List.append_assoc] using hbase
      refine ⟨?_, ?_, ?_⟩
      · refine chain'_lstep_congr (fun a ha => ?_) hbase'.left_of_append
        have hamem : a ∈ s.header :: AL s t key L :=
          (List.dropLast_sublist _).subset ha
        have hane : a ≠ s.next_id := by
          rcases List.mem_cons.mp hamem with rfl | hmm
          · exact hhne
          · exact htmem _ ((AL_sublist s t key L).subset hmm) 
        rw [hfwd_old a L hane, if_neg]
        rintro ⟨-, hpa⟩
        exact dropLast_ne_getLastD (nodup_header_AL h key L) a ha hpa.symm
      · rw [List.chain'_cons']
        refine ⟨fun y hy => ?_, ?_⟩
        · rw [head?_append_singleton] at hy
          injection hy with hy
          unfold lstep
          rw [hfwd_new L, if_pos hc, ← hy]
          rfl
        · refine chain'_lstep_congr (fun b hb => ?_) (hbase'.suffix ⟨_, rfl⟩)
          rw [List.dropLast_concat] at hb
          have hbne : b ≠ s.next_id := htmem _ ((BL_sublist s t key L).subset hb)
          rw [hfwd_old b L hbne, if_neg]
          rintro ⟨-, hpb⟩
          rcases @predAt_mem_or s t key L with hp | hp
          · rw [hpb] at hp
            exact h.hmem (hp ▸ (BL_sublist s t key L).subset hb)
          · rw [hpb] at hp
            exact absurd (mem_AL hp).2.2 (mem_BL hb).2.2
      · intro x hx y hy
        rw [Option.mem_def, getLast?_cons_getLastD] at hx
        injection hx with hx
        rw [Option.mem_def, List.head?_cons] at hy
        injection hy with hy
        have hx' : x = predAt s t key L := hx.symm
        unfold lstep
        rw [hx', ← hy, hfwd_old _ L (Nat.ne_of_lt (predAt_lt_next h key L)),
          if_pos ⟨hc, rfl⟩]
    · rw [if_neg hc]
      refine chain'_lstep_congr (fun a ha => ?_) (h.chains L hL)
      have hamem : a ∈ s.header :: towerL s t L ++ [s.tail] :=
        (List.dropLast_sublist _).subset ha
      have hane : a ≠ s.next_id := by
        rcases List.mem_cons.mp hamem with rfl | hmm
        · exact hhne
        · rcases List.mem_append.mp hmm with hmm | hmm
          · exact htmem _ ((towerL_sublist s t L).subset hmm)
          · rw [List.mem_singleton.mp hmm]
            exact htne
      rw [hfwd_old a L hane, if_neg (fun hcc => hc hcc.1)]

/-! ### The two outcomes of `insert` -/

/-- A duplicate live key makes `LockedSkipList::insert` return `false` with
the state untouched (first loop iteration, any remaining fuel). -/
theorem linsert_dup {s t} (h : LWF s t) {key : Int} {X : Nat}
    (hX : lfound s t key = some X) (value : Int) (nl fuel : Nat) :
    linsertLoop s key value nl (fuel + 1) = some (s, false) := by
  obtain ⟨hfound, -, hsuccs⟩ := lfind_run h key
  rw [hX, Option.map_some'] at hfound
  obtain ⟨hXt, hXk⟩ := lfound_mem hX
  have hnd : (lfind s key).2.1.getD (lnode s X).node_level 0 = X := by
    rw [hsuccs _ (h.lvl_le X hXt)]
    exact succAt_found h hX le_rfl
  simp only [linsertLoop, hfound, hnd]
  rw [if_pos (h.unmarked X hXt), if_pos (h.linked X hXt)]

/-- The validation of a fresh insert succeeds on a quiescent well-formed
state. -/
theorem linsertValid_true {s t} (h : LWF s t) (key : Int) {nl : Nat}
    (hnl : nl ≤ s.max_level) :
    linsertValid s (lfind s key).1 (lfind s key).2.1 nl = true := by
  obtain ⟨-, hpreds, hsuccs⟩ := lfind_run h key
  unfold linsertValid
  rw [List.all_eq_true]
  intro L hL
  have hLr := List.mem_range.mp hL
  have hLm : L ≤ s.max_level := by omega
  rw [hpreds L hLm, hsuccs L hLm, decide_eq_true_eq]
  refine ⟨?_, ?_, lfwd_predAt h key hLm⟩
  · rcases @predAt_mem_or s t key L with hp | hp
    · rw [hp]
      exact h.hdr_marked
    · exact h.unmarked _ ((AL_sublist s t key L).subset hp)
  · rcases @succAt_mem_or s t key L with hp | hp
    · rw [hp]
      exact h.tl_marked
    · exact h.unmarked _ ((BL_sublist s t key L).subset hp)

/-- A fresh insert returns `true` on the first iteration and produces a
well-formed state in which `key` maps to `value` and every other key is
untouched. -/
theorem linsert_new {s t} (h : LWF s t) {key : Int} (hX : lfound s t key = none)
    (value : Int) {nl : Nat} (hnl : nl ≤ s.max_level) (fuel : Nat) :
    linsertLoop s key value nl (fuel + 1) = some (linsResult s key value nl, true)
      ∧ LWF (linsResult s key value nl) (AL s t key 0 ++ s.next_id :: BL s t key 0)
      ∧ lookupV (linsResult s key value nl)
          (AL s t key 0 ++ s.next_id :: BL s t key 0) key = some value
      ∧ ∀ k', k' ≠ key →
          lookupV (linsResult s key value nl)
            (AL s t key 0 ++ s.next_id :: BL s t key 0) k' = lookupV s t k' := by
  have hfound : (lfind s key).2.2 = none := by
    rw [(lfind_run h key).1, hX, Option.map_none']
  have hwf' := linsResult_wf h hX value hnl
  have hfacts := linsResult_facts h key value hnl
  have hknew := hfacts.2.2.2.1
  have hvnew := hfacts.2.2.2.2.1
  have hmeta_old := hfacts.2.2.1
  have hfd' : lfound (linsResult s key value nl)
      (AL s t key 0 ++ s.next_id :: BL s t key 0) key = some s.next_id :=
    lfound_of_mem hwf' ((mem_t'_iff h key s.next_id).mpr (Or.inl rfl)) hknew
  refine ⟨linsertLoop_new_eq hfound (linsertValid_true h key hnl) value fuel, hwf', ?_, ?_⟩
  · unfold lookupV
    rw [hfd', Option.map_some', hvnew]
  · intro k' hk'
    unfold lookupV
    rcases hY : lfound s t k' with _ | Y
    · rw [show lfound (linsResult s key value nl)
          (AL s t key 0 ++ s.next_id :: BL s t key 0) k' = none from ?_]
      · rfl
      · unfold lfound
        rw [List.find?_eq_none]
        intro y hy
        rcases (mem_t'_iff h key y).mp hy with rfl | hyt
        · simp only [decide_eq_true_eq, hknew]
          exact fun he => hk' he.symm
        · simp only [decide_eq_true_eq,
            (lmeta_eq_elim (hmeta_old y (ne_next_of_isSome h
              ((h.dom y).mpr (Or.inr (Or.inr hyt)))))).1]
          unfold lfound at hY
          have := List.find?_eq_none.mp hY y hyt
          simpa using this
    · obtain ⟨hYt, hYk⟩ := lfound_mem hY
      have hYne := ne_next_of_isSome h ((h.dom Y).mpr (Or.inr (Or.inr hYt)))
      have hkeq : lkey (linsResult s key value nl) Y = k' := by
        rw [(lmeta_eq_elim (hmeta_old Y hYne)).1]
        exact hYk
      rw [lfound_of_mem hwf' ((mem_t'_iff h key Y).mpr (Or.inr hYt)) hkeq,
        Option.map_some', Option.map_some',
        (lmeta_eq_elim (hmeta_old Y hYne)).2.1]

/-! ### The two outcomes of `remove` -/

/-- An absent key makes `LockedSkipList::remove` return `false` immediately. -/
theorem lremove_absent {s t} (h : LWF s t) {key : Int} (hX : lfound s t key = none)
    (fuel nl0 : Nat) (b0 : Bool) :
    lremoveLoop key (fuel + 1) s b0 nl0 = some (s, false) := by
  have hfound : (lfind s key).2.2 = none := by
    rw [(lfind_run h key).1, hX, Option.map_none']
  simp only [lremoveLoop, hfound]

/-- The final state of a successful `LockedSkipList::remove` of the node `X`. -/
def lremResult (s : LState) (key : Int) (X : Nat) : LState :=
  ldelete
    (((List.range ((lnode s X).node_level + 1)).reverse).foldl
      (fun st level => lsetFwd st ((lfind s key).1.getD level 0) level (lfwd st X level))
      (lsetMarked s X))
    X

/-- On a quiescent well-formed state, a present key is removed on the first
iteration of the outer loop. -/
theorem lremoveLoop_present_eq {s t} (h : LWF s t) {key : Int} {X : Nat}
    (hX : lfound s t key = some X) (fuel : Nat) :
    lremoveLoop key (fuel + 1) s false 0 = some (lremResult s key X, true) := by
  obtain ⟨hfound, -, hsuccs⟩ := lfind_run h key
  rw [hX, Option.map_some'] at hfound
  obtain ⟨hXt, hXk⟩ := lfound_mem hX
  have hnd : (lfind s key).2.1.getD (lnode s X).node_level 0 = X := by
    rw [hsuccs _ (h.lvl_le X hXt)]
    exact succAt_found h hX le_rfl
  simp only [lremoveLoop, hfound, hnd]
  rw [if_pos (by
      refine Or.inr ?_
      simp [h.linked X hXt, h.unmarked X hXt]),
    if_neg (by simp [h.unmarked X hXt])]
  rfl

theorem lfwd_lsetMarked (s : LState) (p q : Nat) (L : Nat) :
    lfwd (lsetMarked s p) q L = lfwd s q L := by
  unfold lfwd lnode lsetMarked
  by_cases hq : q = p
  · subst hq
    rcases s.heap q with _ | n <;> simp
  · simp [hq]

theorem lmeta_lsetMarked_ne (s : LState) (p : Nat) {q : Nat} (hq : q ≠ p) :
    lmeta (lsetMarked s p) q = lmeta s q := by
  unfold lmeta lkey lnode lsetMarked
  simp [hq]

theorem lmeta_ldelete_ne (s : LState) (p : Nat) {q : Nat} (hq : q ≠ p) :
    lmeta (ldelete s p) q = lmeta s q := by
  unfold lmeta lkey lnode ldelete
  simp [hq]

theorem lfwd_ldelete_ne (s : LState) (p : Nat) {q : Nat} (hq : q ≠ p) (L : Nat) :
    lfwd (ldelete s p) q L = lfwd s q L := by
  unfold lfwd lnode ldelete
  simp [hq]

/-- Effect of the unlink loop of `LockedSkipList::remove`: each recorded
predecessor adopts the victim's forward pointer at that level; the victim's
own row is never written. -/
theorem lunlink_fold (preds : List Nat) (X : Nat) :
    ∀ (ls : List Nat) (s1 : LState),
      ls.Nodup →
      (∀ L ∈ ls, preds.getD L 0 ≠ X) →
      (∀ L ∈ ls, L < (lnode s1 (preds.getD L 0)).forward.length) →
      (∀ q L',
          lfwd (ls.foldl
              (fun st level => lsetFwd st (preds.getD level 0) level (lfwd st X level)) s1)
            q L' =
            if L' ∈ ls ∧ preds.getD L' 0 = q then lfwd s1 X L' else lfwd s1 q L')
        ∧ ∀ q, lmeta (ls.foldl
            (fun st level => lsetFwd st (preds.getD level 0) level (lfwd st X level)) s1) q
            = lmeta s1 q
  | [], s1, _, _, _ => by
    refine ⟨fun q L' => ?_, fun q => rfl⟩
    simp
  | L0 :: ls, s1, hnd, hneX, hlenp => by
    have hL0X : preds.getD L0 0 ≠ X := hneX L0 (by simp)
    have hstep : ∀ q L',
        lfwd (lsetFwd s1 (preds.getD L0 0) L0 (lfwd s1 X L0)) q L' =
          if L' = L0 ∧ preds.getD L0 0 = q then lfwd s1 X L' else lfwd s1 q L' := by
      intro q L'
      rw [lfwd_lsetFwd]
      by_cases hc : L' = L0 ∧ preds.getD L0 0 = q
      · obtain ⟨rfl, hc2⟩ := hc
        rw [if_pos ⟨hc2.symm, rfl, hlenp L' (by simp)⟩, if_pos ⟨rfl, hc2⟩]
      · rw [if_neg (fun hcc => hc ⟨hcc.2.1, hcc.1.symm⟩), if_neg hc]
    have hXrow : ∀ L', lfwd (lsetFwd s1 (preds.getD L0 0) L0 (lfwd s1 X L0)) X L'
        = lfwd s1 X L' := by
      intro L'
      rw [hstep X L', if_neg (fun hc => hL0X hc.2)]
    have ih := lunlink_fold preds X ls
      (lsetFwd s1 (preds.getD L0 0) L0 (lfwd s1 X L0))
      (List.Nodup.of_cons hnd) (fun L hL => hneX L (by simp [hL]))
      (fun L hL => by
        rw [(lmeta_eq_elim (lmeta_lsetFwd s1 (preds.getD L0 0) L0 _ _)).2.2.2.2.2.1]
        exact hlenp L (by simp [hL]))
    rw [List.foldl_cons]
    refine ⟨fun q L' => ?_, fun q =>
      (ih.2 q).trans (lmeta_lsetFwd s1 (preds.getD L0 0) L0 _ q)⟩
    rw [ih.1 q L', hstep q L']
    have hL0ls : L0 ∉ ls := (List.nodup_cons.mp hnd).1
    by_cases hq1 : preds.getD L' 0 = q <;> by_cases hL : L' = L0 <;>
      by_cases hm : L' ∈ ls <;>
      simp_all [List.mem_cons, hXrow]

theorem predAt_ne_found {s t} (h : LWF s t) {key : Int} {X : Nat}
    (hX : lfound s t key = some X) (L : Nat) : predAt s t key L ≠ X := by
  obtain ⟨hXt, hXk⟩ := lfound_mem hX
  rcases @predAt_mem_or s t key L with hp | hp
  · rw [hp]
    exact fun he => h.hmem (he ▸ hXt)
  · intro he
    have := (mem_AL hp).2.2
    rw [he, hXk] at this
    exact lt_irrefl key this

theorem lunlink_foldl_rec (preds : List Nat) (X : Nat) :
    ∀ (ls : List Nat) (s1 : LState),
      ((ls.foldl (fun st level => lsetFwd st (preds.getD level 0) level (lfwd st X level))
          s1).header = s1.header)
        ∧ ((ls.foldl (fun st level =>
            lsetFwd st (preds.getD level 0) level (lfwd st X level)) s1).tail = s1.tail)
        ∧ ((ls.foldl (fun st level =>
            lsetFwd st (preds.getD level 0) level (lfwd st X level)) s1).max_level
              = s1.max_level)
        ∧ ((ls.foldl (fun st level =>
            lsetFwd st (preds.getD level 0) level (lfwd st X level)) s1).probability
              = s1.probability)
        ∧ ((ls.foldl (fun st level =>
            lsetFwd st (preds.getD level 0) level (lfwd st X level)) s1).next_id
              = s1.next_id)
  | [], s1 => ⟨rfl, rfl, rfl, rfl, rfl⟩
  | L0 :: ls, s1 => by
    rw [List.foldl_cons]
    exact lunlink_foldl_rec preds X ls _

theorem lremResult_rec (s : LState) (key : Int) (X : Nat) :
    (lremResult s key X).header = s.header
      ∧ (lremResult s key X).tail = s.tail
      ∧ (lremResult s key X).max_level = s.max_level
      ∧ (lremResult s key X).probability = s.probability
      ∧ (lremResult s key X).next_id = s.next_id := by
  unfold lremResult ldelete
  have := lunlink_foldl_rec (lfind s key).1 X
    ((List.range ((lnode s X).node_level + 1)).reverse) (lsetMarked s X)
  exact ⟨this.1, this.2.1, this.2.2.1, this.2.2.2.1, this.2.2.2.2⟩

/-- Pointer/metadata characterisation of the state after removing `X`. -/
theorem lremResult_facts {s t} (h : LWF s t) {key : Int} {X : Nat}
    (hX : lfound s t key = some X) :
    (∀ q L', q ≠ X →
        lfwd (lremResult s key X) q L' =
          if L' ≤ (lnode s X).node_level ∧ predAt s t key L' = q then lfwd s X L'
          else lfwd s q L')
      ∧ (∀ q, q ≠ X → lmeta (lremResult s key X) q = lmeta s q)
      ∧ ((lremResult s key X).heap X = none) := by
  obtain ⟨-, hpreds, -⟩ := lfind_run h key
  obtain ⟨hXt, hXk⟩ := lfound_mem hX
  have hlvl := h.lvl_le X hXt
  have hfold := lunlink_fold (lfind s key).1 X
    ((List.range ((lnode s X).node_level + 1)).reverse) (lsetMarked s X)
    (List.nodup_reverse.mpr (List.nodup_range _))
    (fun L hL => by
      have hLr := List.mem_range.mp (List.mem_reverse.mp hL)
      rw [hpreds L (by omega)]
      exact predAt_ne_found h hX L)
    (fun L hL => by
      have hLr := List.mem_range.mp (List.mem_reverse.mp hL)
      rw [hpreds L (by omega),
        (lmeta_eq_elim (lmeta_lsetMarked_ne s X
          (predAt_ne_found h hX L))).2.2.2.2.2.1]
      exact predAt_len h key (by omega))
  refine ⟨fun q L' hq => ?_, fun q hq => ?_, ?_⟩
  · unfold lremResult
    rw [lfwd_ldelete_ne _ _ hq, hfold.1 q L']
    have hiff : (L' ∈ (List.range ((lnode s X).node_level + 1)).reverse
          ∧ (lfind s key).1.getD L' 0 = q)
        ↔ (L' ≤ (lnode s X).node_level ∧ predAt s t key L' = q) := by
      constructor
      · rintro ⟨hm, hp⟩
        have hLr := List.mem_range.mp (List.mem_reverse.mp hm)
        rw [hpreds L' (by omega)] at hp
        exact ⟨by omega, hp⟩
      · rintro ⟨hm, hp⟩
        refine ⟨List.mem_reverse.mpr (List.mem_range.mpr (by omega)), ?_⟩
        rw [hpreds L' (by omega)]
        exact hp
    rw [if_congr hiff (lfwd_lsetMarked s X X L') (lfwd_lsetMarked s X q L')]
  · unfold lremResult
    rw [lmeta_ldelete_ne _ _ hq, hfold.2 q, lmeta_lsetMarked_ne s X hq]
  · unfold lremResult ldelete
    simp

theorem BL_cons_found {s t} (h : LWF s t) {key : Int} {X : Nat}
    (hX : lfound s t key = some X) {L : Nat} (hL : L ≤ (lnode s X).node_level) :
    BL s t key L = X :: (BL s t key L).tail := by
  obtain ⟨hXt, hXk⟩ := lfound_mem hX
  have hmem : X ∈ towerL s t L := List.mem_filter.mpr ⟨hXt, by simpa using hL⟩
  have hhd := head_filter_ge (f := lkey s) (k := key) (towerL_sorted h L) hmem hXk
  rcases hB : BL s t key L with _ | ⟨y, tl⟩
  · unfold BL at hB
    rw [hB] at hhd
    exact absurd hhd (by simp)
  · unfold BL at hB
    rw [hB] at hhd
    injection hhd with hhd
    rw [hhd]
    rfl

theorem lfwd_found_next {s t} (h : LWF s t) {key : Int} {X : Nat}
    (hX : lfound s t key = some X) {L : Nat} (hL : L ≤ (lnode s X).node_level) :
    lfwd s X L = some (((BL s t key L).tail).headD s.tail) := by
  obtain ⟨hXt, -⟩ := lfound_mem hX
  have hLm : L ≤ s.max_level := le_trans hL (h.lvl_le X hXt)
  have hbase := h.chains L hLm
  rw [towerL_split h key L, BL_cons_found h hX hL] at hbase
  have hsuffix : List.Chain' (lstep s L)
      (X :: ((BL s t key L).tail ++ [s.tail])) := by
    refine List.Chain'.suffix hbase ⟨s.header :: AL s t key L, ?_⟩
    simp
  have := chain'_head_link hsuffix (by simp)
  rw [this, headI_append_singleton]

theorem mem_t''_iff {s t} (h : LWF s t) {key : Int} {X : Nat}
    (hX : lfound s t key = some X) (q : Nat) :
    q ∈ AL s t key 0 ++ (BL s t key 0).tail ↔ (q ∈ t ∧ q ≠ X) := by
  obtain ⟨hXt, hXk⟩ := lfound_mem hX
  have hts : t = AL s t key 0 ++ X :: (BL s t key 0).tail := by
    conv_lhs => rw [t_split h key, BL_cons_found h hX (Nat.zero_le _)]
  have hnd := h.nodup
  rw [hts] at hnd
  have hXnot : X ∉ AL s t key 0 ++ (BL s t key 0).tail :=
    (List.nodup_cons.mp (List.nodup_middle.mp hnd)).1
  constructor
  · intro hq
    refine ⟨?_, fun he => hXnot (he ▸ hq)⟩
    rw [hts]
    rcases List.mem_append.mp hq with hq | hq
    · exact List.mem_append_left _ hq
    · exact List.mem_append_right _ (List.mem_cons_of_mem _ hq)
  · rintro ⟨hq, hqX⟩
    rw [hts] at hq
    rcases List.mem_append.mp hq with hq | hq
    · exact List.mem_append_left _ hq
    · rcases List.mem_cons.mp hq with rfl | hq
      · exact absurd rfl hqX
      · exact List.mem_append_right _ hq

/-- The tower of the state after removing `X`, level by level. -/
theorem towerL_lremResult {s t} (h : LWF s t) {key : Int} {X : Nat}
    (hX : lfound s t key = some X) (L : Nat) :
    towerL (lremResult s key X) (AL s t key 0 ++ (BL s t key 0).tail) L
      = if L ≤ (lnode s X).node_level then AL s t key L ++ (BL s t key L).tail
        else towerL s t L := by
  obtain ⟨hXt, hXk⟩ := lfound_mem hX
  have hmeta := (lremResult_facts h hX).2.1
  have hlvl_pres : ∀ q ∈ AL s t key 0 ++ (BL s t key 0).tail,
      (lnode (lremResult s key X) q).node_level = (lnode s q).node_level := by
    intro q hq
    exact (lmeta_eq_elim (hmeta q ((mem_t''_iff h hX q).mp hq).2)).2.2.2.2.1
  unfold towerL
  rw [List.filter_append]
  have h1 : (AL s t key 0).filter
      (fun p => decide (L ≤ (lnode (lremResult s key X) p).node_level))
      = (AL s t key 0).filter (fun p => decide (L ≤ (lnode s p).node_level)) :=
    List.filter_congr fun p hp => by rw [hlvl_pres p (List.mem_append_left _ hp)]
  have h2 : ((BL s t key 0).tail).filter
      (fun p => decide (L ≤ (lnode (lremResult s key X) p).node_level))
      = ((BL s t key 0).tail).filter (fun p => decide (L ≤ (lnode s p).node_level)) :=
    List.filter_congr fun p hp => by rw [hlvl_pres p (List.mem_append_right _ hp)]
  rw [h1, h2]
  have hAL : (AL s t key 0).filter (fun p => decide (L ≤ (lnode s p).node_level))
      = AL s t key L := by
    show ((towerL s t 0).filter _).filter _ = _
    rw [towerL_zero h]
    unfold AL towerL
    rw [List.filter_filter, List.filter_filter]
    exact List.filter_congr fun p hp => Bool.and_comm _ _
  have hBL0 : (BL s t key 0).filter (fun p => decide (L ≤ (lnode s p).node_level))
      = BL s t key L := by
    show ((towerL s t 0).filter _).filter _ = _
    rw [towerL_zero h]
    unfold BL towerL
    rw [List.filter_filter, List.filter_filter]
    exact List.filter_congr fun p hp => Bool.and_comm _ _
  rw [BL_cons_found h hX (Nat.zero_le _), List.filter_cons] at hBL0
  by_cases hc : L ≤ (lnode s X).node_level
  · rw [if_pos hc]
    rw [if_pos (by simpa using hc)] at hBL0
    rw [BL_cons_found h hX hc] at hBL0
    injection hBL0 with hheq hBL0
    rw [hAL, hBL0]
  · rw [if_neg hc]
    rw [if_neg (by simpa using hc)] at hBL0
    rw [hAL, hBL0]
    exact (towerL_split h key L).symm

/-- The state after a successful remove satisfies the invariant with the
victim deleted from the live list. -/
theorem lremResult_wf {s t} (h : LWF s t) {key : Int} {X : Nat}
    (hX : lfound s t key = some X) :
    LWF (lremResult s key X) (AL s t key 0 ++ (BL s t key 0).tail) := by
  obtain ⟨hXt, hXk⟩ := lfound_mem hX
  have hfacts := lremResult_facts h hX
  have hfwd := hfacts.1
  have hmeta := hfacts.2.1
  have hheapX := hfacts.2.2
  obtain ⟨hrh, hrt, hrm, hrp, hrn⟩ := lremResult_rec s key X
  have hXh : X ≠ s.header := fun he => h.hmem (he ▸ hXt)
  have hXtl : X ≠ s.tail := fun he => h.tmem (he ▸ hXt)
  have hALneX : ∀ {L : Nat} {a : Nat}, a ∈ AL s t key L → a ≠ X := by
    intro L a ha he
    have := (mem_AL ha).2.2
    rw [he, hXk] at this
    exact lt_irrefl key this
  have hBLtlneX : ∀ {L : Nat} {b : Nat}, L ≤ (lnode s X).node_level →
      b ∈ (BL s t key L).tail → b ≠ X := by
    intro L b hL hb he
    have hnd : (BL s t key L).Nodup := h.nodup.sublist (BL_sublist s t key L)
    rw [BL_cons_found h hX hL] at hnd
    exact (List.nodup_cons.mp hnd).1 (he ▸ hb)
  have hBLtl_ne_pred : ∀ {L L' : Nat}, L ≤ (lnode s X).node_level →
      ∀ {b : Nat}, b ∈ (BL s t key L).tail → predAt s t key L' ≠ b := by
    intro L L' hL b hb he
    have hbB : b ∈ BL s t key L := by
      rw [BL_cons_found h hX hL]
      exact List.mem_cons_of_mem _ hb
    rcases @predAt_mem_or s t key L' with hp | hp
    · rw [he] at hp
      exact h.hmem (hp ▸ (BL_sublist s t key L).subset hbB)
    · rw [he] at hp
      have hblt := (mem_AL hp).2.2
      exact absurd hblt (mem_BL hbB).2.2
  refine ⟨?_, ?_, ?_, ?_, ?_, ?_, ?_, ?_, ?_, ?_, ?_, ?_, ?_, ?_, ?_, ?_, ?_⟩
  · rw [hrh, hrt]
    exact h.hne
  · rw [hrh]
    intro hm
    exact h.hmem ((mem_t''_iff h hX _).mp hm).1
  · rw [hrt]
    intro hm
    exact h.tmem ((mem_t''_iff h hX _).mp hm).1
  · have hnd := h.nodup
    conv at hnd => rw [t_split h key, BL_cons_found h hX (Nat.zero_le _)]
    exact (List.nodup_cons.mp (List.nodup_middle.mp hnd)).2
  · intro p
    rw [hrh, hrt, mem_t''_iff h hX p]
    by_cases hp : p = X
    · subst hp
      rw [hheapX]
      simp only [Option.isSome_none, Bool.false_eq_true, false_iff]
      rintro (he | he | ⟨-, he⟩)
      · exact hXh he
      · exact hXtl he
      · exact he rfl
    · rw [(lmeta_eq_elim (hmeta p hp)).2.2.2.2.2.2, h.dom p]
      constructor
      · rintro (he | he | he)
        · exact Or.inl he
        · exact Or.inr (Or.inl he)
        · exact Or.inr (Or.inr ⟨he, hp⟩)
      · rintro (he | he | ⟨he, -⟩)
        · exact Or.inl he
        · exact Or.inr (Or.inl he)
        · exact Or.inr (Or.inr he)
  · intro p hp
    rw [hrn]
    by_cases hpe : p = X
    · rw [hpe, hheapX] at hp
      exact absurd hp (by simp)
    · rw [(lmeta_eq_elim (hmeta p hpe)).2.2.2.2.2.2] at hp
      exact h.bound p hp
  · rw [hrh, hrm, (lmeta_eq_elim (hmeta _ (fun he => hXh he.symm))).2.2.2.2.2.1]
    exact h.hdr_len
  · rw [hrh, hrm, (lmeta_eq_elim (hmeta _ (fun he => hXh he.symm))).2.2.2.2.1]
    exact h.hdr_level
  · rw [hrh, (lmeta_eq_elim (hmeta _ (fun he => hXh he.symm))).2.2.1]
    exact h.hdr_marked
  · rw [hrt, (lmeta_eq_elim (hmeta _ (fun he => hXtl he.symm))).2.2.2.2.1]
    exact h.tl_level
  · rw [hrt, (lmeta_eq_elim (hmeta _ (fun he => hXtl he.symm))).2.2.1]
    exact h.tl_marked
  · intro p hp
    obtain ⟨hpt, hpX⟩ := (mem_t''_iff h hX p).mp hp
    rw [hrm, (lmeta_eq_elim (hmeta p hpX)).2.2.2.2.1]
    exact h.lvl_le p hpt
  · intro p hp
    obtain ⟨hpt, hpX⟩ := (mem_t''_iff h hX p).mp hp
    rw [(lmeta_eq_elim (hmeta p hpX)).2.2.2.2.2.1, (lmeta_eq_elim (hmeta p hpX)).2.2.2.2.1]
    exact h.len_eq p hpt
  · intro p hp
    obtain ⟨hpt, hpX⟩ := (mem_t''_iff h hX p).mp hp
    rw [(lmeta_eq_elim (hmeta p hpX)).2.2.2.1]
    exact h.linked p hpt
  · intro p hp
    obtain ⟨hpt, hpX⟩ := (mem_t''_iff h hX p).mp hp
    rw [(lmeta_eq_elim (hmeta p hpX)).2.2.1]
    exact h.unmarked p hpt
  · rw [List.chain'_iff_pairwise, List.pairwise_map]
    have hsub : List.Sublist (AL s t key 0 ++ (BL s t key 0).tail) t := by
      conv_rhs => rw [t_split h key]
      exact (List.tail_sublist _).append_left _
    refine (h.pairwise_keys.sublist hsub).imp_of_mem fun {a b} ha hb hab => ?_
    rw [(lmeta_eq_elim (hmeta a ((mem_t''_iff h hX a).mp ha).2)).1,
      (lmeta_eq_elim (hmeta b ((mem_t''_iff h hX b).mp hb).2)).1]
    exact hab
  · intro L hL
    rw [hrm] at hL
    rw [hrh, hrt, towerL_lremResult h hX L]
    by_cases hc : L ≤ (lnode s X).node_level
    · rw [if_pos hc]
      have hshape : s.header :: (AL s t key L ++ (BL s t key L).tail) ++ [s.tail]
          = (s.header :: AL s t key L) ++ ((BL s t key L).tail ++ [s.tail]) := by
        simp
      rw [hshape, List.chain'_append]
      have hbase := h.chains L hL
      rw [towerL_split h key L, BL_cons_found h hX hc] at hbase
      have hbase1 : List.Chain' (lstep s L)
          ((s.header :: AL s t key L) ++ ((X :: (BL s t key L).tail) ++ [s.tail])) := by
        simpa [List.append_assoc] using hbase
      have hbase2 : List.Chain' (lstep s L)
          ((s.header :: AL s t key L ++ [X]) ++ ((BL s t key L).tail ++ [s.tail])) := by
        simpa [List.append_assoc] using hbase
      refine ⟨?_, ?_, ?_⟩
      · refine chain'_lstep_congr (fun a ha => ?_) hbase1.left_of_append
        have hamem : a ∈ s.header :: AL s t key L :=
          (List.dropLast_sublist _).subset ha
        have haX : a ≠ X := by
          rcases List.mem_cons.mp hamem with rfl | hmm
          · exact fun he => hXh he.symm
          · exact hALneX hmm
        rw [hfwd a L haX, if_neg]
        rintro ⟨-, hpa⟩
        exact dropLast_ne_getLastD (nodup_header_AL h key L) a ha hpa.symm
      · refine chain'_lstep_congr (fun b hb => ?_) (hbase2.suffix ⟨_, rfl⟩)
        rw [List.dropLast_concat] at hb
        rw [hfwd b L (hBLtlneX hc hb), if_neg]
        rintro ⟨-, hpb⟩
        exact hBLtl_ne_pred hc hb hpb
      · intro x hx y hy
        rw [Option.mem_def, getLast?_cons_getLastD] at hx
        injection hx with hx
        rw [Option.mem_def, head?_append_singleton] at hy
        injection hy with hy
        have hx' : x = predAt s t key L := hx.symm
        unfold lstep
        rw [hx', ← hy, hfwd _ L (predAt_ne_found h hX L), if_pos ⟨hc, rfl⟩]
        exact lfwd_found_next h hX hc
    · rw [if_neg hc]
      refine chain'_lstep_congr (fun a ha => ?_) (h.chains L hL)
      have hamem : a ∈ s.header :: towerL s t L ++ [s.tail] :=
        (List.dropLast_sublist _).subset ha
      have haX : a ≠ X := by
        rcases List.mem_cons.mp hamem with rfl | hmm
        · exact fun he => hXh he.symm
        · rcases List.mem_append.mp hmm with hmm | hmm
          · intro he
            have := List.mem_filter.mp (he ▸ hmm)
            rw [decide_eq_true_eq] at this
            exact hc this.2
          · rw [List.mem_singleton.mp hmm]
            exact fun he => hXtl he.symm
      rw [hfwd a L haX, if_neg (fun hcc => hc hcc.1)]

/-- A present key is removed: `true` is returned, the key is gone, all other
keys are untouched. -/
theorem lremove_present {s t} (h : LWF s t) {key : Int} {X : Nat}
    (hX : lfound s t key = some X) (fuel : Nat) :
    lremoveLoop key (fuel + 1) s false 0 = some (lremResult s key X, true)
      ∧ LWF (lremResult s key X) (AL s t key 0 ++ (BL s t key 0).tail)
      ∧ lookupV (lremResult s key X) (AL s t key 0 ++ (BL s t key 0).tail) key = none
      ∧ ∀ k', k' ≠ key →
          lookupV (lremResult s key X) (AL s t key 0 ++ (BL s t key 0).tail) k'
            = lookupV s t k' := by
  obtain ⟨hXt, hXk⟩ := lfound_mem hX
  have hwf'' := lremResult_wf h hX
  have hmeta := (lremResult_facts h hX).2.1
  refine ⟨lremoveLoop_present_eq h hX fuel, hwf'', ?_, ?_⟩
  · unfold lookupV lfound
    rw [List.find?_eq_none.mpr, Option.map_none']
    intro y hy
    obtain ⟨hyt, hyX⟩ := (mem_t''_iff h hX y).mp hy
    simp only [decide_eq_true_eq, (lmeta_eq_elim (hmeta y hyX)).1]
    intro he
    exact hyX (h.key_inj hyt hXt (he.trans hXk.symm))
  · intro k' hk'
    rcases hY : lfound s t k' with _ | Y
    · have h2 : lfound (lremResult s key X)
          (AL s t key 0 ++ (BL s t key 0).tail) k' = none := by
        unfold lfound
        rw [List.find?_eq_none]
        intro y hy
        obtain ⟨hyt, hyX⟩ := (mem_t''_iff h hX y).mp hy
        simp only [decide_eq_true_eq, (lmeta_eq_elim (hmeta y hyX)).1]
        unfold lfound at hY
        have := List.find?_eq_none.mp hY y hyt
        simpa using this
      unfold lookupV
      rw [h2, hY]
      rfl
    · obtain ⟨hYt, hYk⟩ := lfound_mem hY
      have hYX : Y ≠ X := fun he => hk' (by rw [← hYk, he, hXk])
      have hkeq : lkey (lremResult s key X) Y = k' := by
        rw [(lmeta_eq_elim (hmeta Y hYX)).1]
        exact hYk
      unfold lookupV
      rw [lfound_of_mem hwf'' ((mem_t''_iff h hX Y).mpr ⟨hYt, hYX⟩) hkeq, hY,
        Option.map_some', Option.map_some', (lmeta_eq_elim (hmeta Y hYX)).2.1]

/-! ### `for_each`, construction, and operation sequences -/

theorem lforEachAux_run {s t} (h : LWF s t) :
    ∀ (l : List Nat) (fuel : Nat),
      List.Chain' (lstep s 0) (l ++ [s.tail]) → (∀ x ∈ l, x ≠ s.tail) →
      l.length ≤ fuel →
      lforEachAux s fuel ((l ++ [s.tail]).headI)
        = l.map fun p => ((lnode s p).key, (lnode s p).value)
  | [], fuel, _, _, _ => by
    cases fuel with
    | zero => rfl
    | succ f =>
      simp only [List.nil_append, List.headI, List.map_nil]
      rw [lforEachAux, if_pos rfl]
  | a :: l, fuel, hch, hne, hlen => by
    cases fuel with
    | zero => exact absurd hlen (by simp)
    | succ f =>
      simp only [List.cons_append, List.headI, List.map_cons]
      rw [lforEachAux, if_neg (hne a (by simp))]
      have hch' : List.Chain' (lstep s 0) (l ++ [s.tail]) :=
        (by simpa using hch : List.Chain' (lstep s 0) (a :: (l ++ [s.tail]))).tail
      have hlink : lfwd s a 0 = some ((l ++ [s.tail]).headI) :=
        chain'_head_link (by simpa using hch) (by simp)
      rw [hlink]
      simp only [Option.getD_some]
      rw [lforEachAux_run h l f hch' (fun x hx => hne x (by simp [hx]))
        (by simpa using Nat.le_of_succ_le_succ hlen)]

/-- `LockedSkipList::for_each` yields exactly the live pairs in key order. -/
theorem lforEach_run {s t} (h : LWF s t) :
    lforEach s = t.map fun p => ((lnode s p).key, (lnode s p).value) := by
  have hchain := h.chains 0 (Nat.zero_le _)
  rw [towerL_zero h] at hchain
  have hstart : lfwd s s.header 0 = some ((t ++ [s.tail]).headI) :=
    chain'_head_link hchain (by simp)
  unfold lforEach
  rw [hstart]
  simp only [Option.getD_some]
  exact lforEachAux_run h t s.next_id hchain.tail
    (fun x hx he => h.tmem (he ▸ hx)) h.length_le

/-- The constructor establishes the invariant with no live nodes. -/
theorem linit_wf (max_level : Nat) (p : ℚ) : LWF (linit max_level p) [] := by
  refine ⟨?_, ?_, ?_, ?_, ?_, ?_, ?_, ?_, ?_, ?_, ?_, ?_, ?_, ?_, ?_, ?_, ?_⟩
  · simp [linit]
  · simp
  · simp
  · exact List.nodup_nil
  · intro q
    show ((linit max_level p).heap q).isSome = true ↔ q = 0 ∨ q = 1 ∨ q ∈ ([] : List Nat)
    unfold linit
    by_cases h0 : q = 0
    · simp [h0]
    · by_cases h1 : q = 1 <;> simp [h0, h1]
  · intro q hq
    show q < 2
    unfold linit at hq
    by_cases h0 : q = 0
    · omega
    · by_cases h1 : q = 1
      · omega
      · simp [h0, h1] at hq
  · show (lnode (linit max_level p) 0).forward.length = max_level + 1
    unfold lnode linit
    simp
  · show (lnode (linit max_level p) 0).node_level = max_level
    unfold lnode linit
    simp
  · show (lnode (linit max_level p) 0).marked = false
    unfold lnode linit
    simp
  · show (lnode (linit max_level p) 1).node_level = 0
    unfold lnode linit
    simp
  · show (lnode (linit max_level p) 1).marked = false
    unfold lnode linit
    simp
  · intro q hq
    exact absurd hq (List.not_mem_nil q)
  · intro q hq
    exact absurd hq (List.not_mem_nil q)
  · intro q hq
    exact absurd hq (List.not_mem_nil q)
  · intro q hq
    exact absurd hq (List.not_mem_nil q)
  · simp [towerL]
  · intro L hL
    show List.Chain' (lstep (linit max_level p) L) (0 :: towerL (linit max_level p) [] L ++ [1])
    have htow : towerL (linit max_level p) [] L = [] := rfl
    rw [htow]
    refine List.chain'_cons.mpr ⟨?_, List.chain'_singleton _⟩
    show lfwd (linit max_level p) 0 L = some 1
    have hlt : L < max_level + 1 := Nat.lt_succ_of_le hL
    unfold lfwd lnode linit
    simp [List.getD_eq_getElem?_getD, List.getElem?_replicate, hlt]

/-! ### The level sampler -/

theorem grlAux_spec (p : ℚ) (max_level : Nat) (draws : Nat → ℚ) :
    ∀ (fuel i level : Nat), max_level + 1 ≤ fuel + level → level ≤ max_level →
      (level ≤ grlAux p max_level draws fuel i level
        ∧ grlAux p max_level draws fuel i level ≤ max_level
        ∧ (∀ j, level ≤ j → j < grlAux p max_level draws fuel i level →
            draws (i + j - level) < p)
        ∧ (grlAux p max_level draws fuel i level < max_level →
            ¬ draws (i + grlAux p max_level draws fuel i level - level) < p))
  | 0, i, level, hfuel, hlev => by omega
  | fuel + 1, i, level, hfuel, hlev => by
    rw [grlAux]
    by_cases hc : draws i < p ∧ level < max_level
    · rw [if_pos hc]
      obtain ⟨ih1, ih2, ih3, ih4⟩ := grlAux_spec p max_level draws fuel (i + 1) (level + 1)
        (by omega) (by omega)
      refine ⟨by omega, ih2, fun j hj1 hj2 => ?_, fun hlt => ?_⟩
      · rcases Nat.eq_or_lt_of_le hj1 with he | hj1'
        · rw [show i + j - level = i by omega]
          exact hc.1
        · rw [show i + j - level = i + 1 + j - (level + 1) by omega]
          exact ih3 j (by omega) hj2
      · rw [show i + grlAux p max_level draws fuel (i + 1) (level + 1) - level
            = i + 1 + grlAux p max_level draws fuel (i + 1) (level + 1) - (level + 1)
          by omega]
        exact ih4 hlt
    · rw [if_neg hc]
      refine ⟨le_rfl, hlev, fun j hj1 hj2 => by omega, fun hlt => ?_⟩
      rw [show i + level - level = i by omega]
      exact fun hd => hc ⟨hd, hlt⟩

/-- `get_rand_level` counts an initial run of draws below `p`, capped at
`max_level`. -/
theorem get_rand_level_spec (p : ℚ) (max_level : Nat) (draws : Nat → ℚ) :
    get_rand_level p max_level draws ≤ max_level
      ∧ (∀ j, j < get_rand_level p max_level draws → draws j < p)
      ∧ (get_rand_level p max_level draws < max_level →
          ¬ draws (get_rand_level p max_level draws) < p) := by
  have hdef : get_rand_level p max_level draws
      = grlAux p max_level draws (max_level + 1) 0 0 := rfl
  obtain ⟨h1, h2, h3, h4⟩ := grlAux_spec p max_level draws (max_level + 1) 0 0
    (by omega) (Nat.zero_le _)
  rw [hdef]
  refine ⟨h2, fun j hj => ?_, fun hlt => ?_⟩
  · have := h3 j (Nat.zero_le _) hj
    rwa [show 0 + j - 0 = j by omega] at this
  · have := h4 hlt
    rwa [show 0 + grlAux p max_level draws (max_level + 1) 0 0 - 0
        = grlAux p max_level draws (max_level + 1) 0 0 by omega] at this

theorem get_rand_level_le (p : ℚ) (max_level : Nat) (draws : Nat → ℚ) :
    get_rand_level p max_level draws ≤ max_level :=
  (get_rand_level_spec p max_level draws).1

/-! ### Sequences of operations on the concurrent list -/

/-- A mutating client call on a `LockedSkipList`. -/
inductive LOp where
  | ins (key value : Int)
  | del (key : Int)
deriving DecidableEq

/-- `LDoes op s s'` holds when the call `op`, run on state `s` with some draw
stream and enough fuel, returns and leaves state `s'`. -/
def LDoes : LOp → LState → LState → Prop
  | .ins key value, s, s' => ∃ draws fuel b, linsertR s key value draws fuel = some (s', b)
  | .del key, s, s' => ∃ fuel b, lremove s key fuel = some (s', b)

/-- A sequence of client calls executed left to right. -/
inductive LExec : List LOp → LState → LState → Prop
  | nil (s : LState) : LExec [] s s
  | cons {op : LOp} {ops : List LOp} {s s1 s2 : LState} :
      LDoes op s s1 → LExec ops s1 s2 → LExec (op :: ops) s s2

/-- Effect of one call: well-formedness is preserved, a key whose deletion
was not requested keeps its value, and a key whose insertion was not
requested stays absent. -/
theorem LDoes_preserve {op : LOp} {s s' : LState} {t : List Nat} (h : LWF s t)
    (hdo : LDoes op s s') :
    ∃ t', LWF s' t'
      ∧ (∀ k' v, lookupV s t k' = some v → op ≠ LOp.del k' →
          lookupV s' t' k' = some v)
      ∧ (∀ k', lookupV s t k' = none → (∀ v, op ≠ LOp.ins k' v) →
          lookupV s' t' k' = none) := by
  rcases op with ⟨key, value⟩ | key
  · obtain ⟨draws, fuel, b, heq⟩ := hdo
    unfold linsertR at heq
    rcases fuel with _ | fuel
    · exact absurd heq (by simp [linsertLoop])
    · rcases hY : lfound s t key with _ | Y
      · have hnew := linsert_new h hY value
          (get_rand_level_le s.probability s.max_level draws) fuel
        rw [hnew.1] at heq
        injection heq with heq
        injection heq with heq1 heq2
        subst heq1
        refine ⟨_, hnew.2.1, fun k' v hv hne => ?_, fun k' hv hne => ?_⟩
        · have hk' : k' ≠ key := by
            intro he
            rw [he] at hv
            unfold lookupV at hv
            rw [hY] at hv
            exact absurd hv (by simp)
          rw [hnew.2.2.2 k' hk']
          exact hv
        · by_cases hk' : k' = key
          · exact absurd (hk' ▸ rfl) (hne value)
          · rw [hnew.2.2.2 k' hk']
            exact hv
      · rw [linsert_dup h hY value _ fuel] at heq
        injection heq with heq
        injection heq with heq1 heq2
        subst heq1
        exact ⟨t, h, fun k' v hv _ => hv, fun k' hv _ => hv⟩
  · obtain ⟨fuel, b, heq⟩ := hdo
    unfold lremove at heq
    rcases fuel with _ | fuel
    · exact absurd heq (by simp [lremoveLoop])
    · rcases hY : lfound s t key with _ | Y
      · rw [lremove_absent h hY fuel 0 false] at heq
        injection heq with heq
        injection heq with heq1 heq2
        subst heq1
        exact ⟨t, h, fun k' v hv _ => hv, fun k' hv _ => hv⟩
      · have hrem := lremove_present h hY fuel
        rw [hrem.1] at heq
        injection heq with heq
        injection heq with heq1 heq2
        subst heq1
        refine ⟨_, hrem.2.1, fun k' v hv hne => ?_, fun k' hv hne => ?_⟩
        · have hk' : k' ≠ key := fun he => hne (he ▸ rfl)
          rw [hrem.2.2.2 k' hk']
          exact hv
        · by_cases hk' : k' = key
          · rw [hk']
            exact hrem.2.2.1
          · rw [hrem.2.2.2 k' hk']
            exact hv

theorem LExec_keep {ops : List LOp} {s s2 : LState} (hex : LExec ops s s2) :
    ∀ {t : List Nat}, LWF s t → ∀ {k : Int} {v : Int}, lookupV s t k = some v →
      (∀ op ∈ ops, op ≠ LOp.del k) →
      ∃ t2, LWF s2 t2 ∧ lookupV s2 t2 k = some v := by
  induction hex with
  | nil s =>
    intro t h k v hv _
    exact ⟨t, h, hv⟩
  | cons hdo hex ih =>
    intro t h k v hv hops
    obtain ⟨t1, h1, hkeep, -⟩ := LDoes_preserve h hdo
    exact ih h1 (hkeep k v hv (hops _ (by simp))) (fun op hop => hops op (by simp [hop]))

theorem LExec_keep_none {ops : List LOp} {s s2 : LState} (hex : LExec ops s s2) :
    ∀ {t : List Nat}, LWF s t → ∀ {k : Int}, lookupV s t k = none →
      (∀ op ∈ ops, ∀ v, op ≠ LOp.ins k v) →
      ∃ t2, LWF s2 t2 ∧ lookupV s2 t2 k = none := by
  induction hex with
  | nil s =>
    intro t h k hv _
    exact ⟨t, h, hv⟩
  | cons hdo hex ih =>
    intro t h k hv hops
    obtain ⟨t1, h1, -, hnone⟩ := LDoes_preserve h hdo
    exact ih h1 (hnone k hv (hops _ (by simp))) (fun op hop => hops op (by simp [hop]))

theorem LExec_wf {ops : List LOp} {s s2 : LState} (hex : LExec ops s s2) :
    ∀ {t : List Nat}, LWF s t → ∃ t2, LWF s2 t2 := by
  induction hex with
  | nil s =>
    intro t h
    exact ⟨t, h⟩
  | cons hdo hex ih =>
    intro t h
    obtain ⟨t1, h1, -, -⟩ := LDoes_preserve h hdo
    exact ih h1

/-! ### Representation invariant and toolkit for the coarse-locked variant -/

/-- One step of a Fat level-`L` chain. -/
def fstep (s : FState) (L : Nat) (a b : Nat) : Prop := ffwd s a L = some b

/-- The ids of `t` whose tower reaches level `L` (Fat nodes carry their
height as `forward.length - 1`). -/
def towerF (s : FState) (t : List Nat) (L : Nat) : List Nat :=
  t.filter fun p => decide (L < (fnode s p).forward.length)

/-- The level-`L` nodes with key strictly below `key`. -/
def ALF (s : FState) (t : List Nat) (key : Int) (L : Nat) : List Nat :=
  (towerF s t L).filter fun p => decide (fkey s p < key)

/-- The level-`L` nodes with key at least `key`. -/
def BLF (s : FState) (t : List Nat) (key : Int) (L : Nat) : List Nat :=
  (towerF s t L).filter fun p => !decide (fkey s p < key)

/-- The predecessor `find_node` records at level `L`. -/
def predAtF (s : FState) (t : List Nat) (key : Int) (L : Nat) : Nat :=
  (ALF s t key L).getLastD s.header

/-- The (unique) node of `t` carrying `key`, if any. -/
def ffound (s : FState) (t : List Nat) (key : Int) : Option Nat :=
  t.find? fun p => decide (fkey s p = key)

/-- Abstract lookup for the Fat variant. -/
def lookupVF (s : FState) (t : List Nat) (key : Int) : Option Int :=
  (ffound s t key).map fun p => (fnode s p).value

/-- Representation invariant of a `FatSkipList` state. -/
structure FWF (s : FState) (t : List Nat) : Prop where
  hmem : s.header ∉ t
  nodup : t.Nodup
  dom : ∀ p, (s.heap p).isSome = true ↔ (p = s.header ∨ p ∈ t)
  bound : ∀ p, (s.heap p).isSome = true → p < s.next_id
  hdr_len : (fnode s s.header).forward.length = s.max_level + 1
  cur_le : s.cur_level ≤ s.max_level
  flen_pos : ∀ p ∈ t, 1 ≤ (fnode s p).forward.length
  flen_le : ∀ p ∈ t, (fnode s p).forward.length ≤ s.cur_level + 1
  sorted : (t.map (fkey s)).Chain' (· < ·)
  chains : ∀ L, L ≤ s.cur_level →
    List.Chain' (fstep s L) (s.header :: towerF s t L)
  ends : ∀ L, L ≤ s.cur_level →
    ffwd s ((towerF s t L).getLastD s.header) L = none
  high_empty : ∀ L, s.cur_level < L → ffwd s s.header L = none

theorem FWF.pairwise_keysF {s t} (h : FWF s t) :
    t.Pairwise fun a b => fkey s a < fkey s b :=
  List.pairwise_map.mp (List.chain'_iff_pairwise.mp h.sorted)

theorem FWF.key_injF {s t} (h : FWF s t) {p q : Nat} (hp : p ∈ t) (hq : q ∈ t)
    (hk : fkey s p = fkey s q) : p = q := by
  rcases List.getElem_of_mem hp with ⟨i, hi, rfl⟩
  rcases List.getElem_of_mem hq with ⟨j, hj, rfl⟩
  have hpw := List.pairwise_iff_getElem.mp h.pairwise_keysF
  rcases Nat.lt_trichotomy i j with hij | rfl | hij
  · have := hpw i j hi hj hij
    omega
  · rfl
  · have := hpw j i hj hi hij
    omega

theorem FWF.length_leF {s t} (h : FWF s t) : t.length ≤ s.next_id := by
  have hsub : t ⊆ List.range s.next_id := by
    intro p hp
    exact List.mem_range.mpr (h.bound p ((h.dom p).mpr (Or.inr hp)))
  simpa using (h.nodup.subperm hsub).length_le

theorem towerF_sublist (s : FState) (t : List Nat) (L : Nat) :
    List.Sublist (towerF s t L) t :=
  List.filter_sublist t

theorem ALF_sublist (s : FState) (t : List Nat) (key : Int) (L : Nat) :
    List.Sublist (ALF s t key L) t :=
  (List.filter_sublist _).trans (towerF_sublist s t L)

theorem BLF_sublist (s : FState) (t : List Nat) (key : Int) (L : Nat) :
    List.Sublist (BLF s t key L) t :=
  (List.filter_sublist _).trans (towerF_sublist s t L)

theorem mem_ALF {s t key L p} (hp : p ∈ ALF s t key L) :
    p ∈ t ∧ L < (fnode s p).forward.length ∧ fkey s p < key := by
  have h1 := List.mem_filter.mp hp
  have h2 := List.mem_filter.mp h1.1
  exact ⟨h2.1, by simpa using h2.2, by simpa using h1.2⟩

theorem mem_BLF {s t key L p} (hp : p ∈ BLF s t key L) :
    p ∈ t ∧ L < (fnode s p).forward.length ∧ ¬ fkey s p < key := by
  have h1 := List.mem_filter.mp hp
  have h2 := List.mem_filter.mp h1.1
  exact ⟨h2.1, by simpa using h2.2, by simpa using h1.2⟩

theorem towerF_sorted {s t} (h : FWF s t) (L : Nat) :
    ((towerF s t L).map (fkey s)).Chain' (· < ·) := by
  rw [List.chain'_iff_pairwise, List.pairwise_map]
  exact h.pairwise_keysF.sublist (towerF_sublist s t L)

theorem towerF_split {s t} (h : FWF s t) (key : Int) (L : Nat) :
    towerF s t L = ALF s t key L ++ BLF s t key L :=
  sorted_filter_split (towerF_sorted h L)

theorem towerF_high {s t} (h : FWF s t) {L : Nat} (hL : s.cur_level < L) :
    towerF s t L = [] := by
  refine List.filter_eq_nil_iff.mpr fun p hp => ?_
  have := h.flen_le p hp
  simpa using by omega

theorem towerF_zero {s t} (h : FWF s t) : towerF s t 0 = t := by
  refine List.filter_eq_self.mpr fun p hp => ?_
  have := h.flen_pos p hp
  simpa using by omega

theorem predAtF_mem_or {s t key L} :
    predAtF s t key L = s.header ∨ predAtF s t key L ∈ ALF s t key L := by
  unfold predAtF
  rcases hA : ALF s t key L with _ | ⟨a, l⟩
  · left
    rfl
  · rcases List.mem_cons.mp (getLastD_mem_cons l a) with h1 | h1
    · right
      rw [List.getLastD_cons, h1]
      exact List.mem_cons_self a l
    · right
      rw [List.getLastD_cons]
      exact List.mem_cons_of_mem a h1

theorem ffound_mem {s t key X} (hX : ffound s t key = some X) :
    X ∈ t ∧ fkey s X = key := by
  refine ⟨List.mem_of_find?_eq_some hX, ?_⟩
  have := List.find?_some hX
  simpa using this

theorem ffound_of_mem {s t} (h : FWF s t) {key : Int} {y : Nat} (hy : y ∈ t)
    (hk : fkey s y = key) : ffound s t key = some y := by
  have hsome : (ffound s t key).isSome = true := by
    unfold ffound
    rw [List.find?_isSome]
    exact ⟨y, hy, by simpa using hk⟩
  rcases Option.isSome_iff_exists.mp hsome with ⟨Z, hZ⟩
  obtain ⟨hZt, hZk⟩ := ffound_mem hZ
  rw [hZ, h.key_injF hZt hy (hZk.trans hk.symm)]

/-! ### The Fat level walk and `find_node` -/

theorem fchain'_head_link {s : FState} {L : Nat} {a : Nat} {l : List Nat}
    (h : List.Chain' (fstep s L) (a :: l)) (hl : l ≠ []) :
    ffwd s a L = some l.headI := by
  rcases l with _ | ⟨b, l'⟩
  · exact absurd rfl hl
  · exact (List.chain'_cons.mp h).1

/-- The Fat level walk stops at the last node with key below `key`. -/
theorem fadvance_run (s : FState) (key : Int) (L : Nat) :
    ∀ (m1 : List Nat) (fuel : Nat) (x : Nat) (m2 : List Nat),
      List.Chain' (fstep s L) (x :: (m1 ++ m2)) →
      ffwd s ((m1 ++ m2).getLastD x) L = none →
      (∀ y ∈ m1, fkey s y < key) →
      (∀ y ∈ m2.head?, ¬ fkey s y < key) →
      m1.length ≤ fuel →
      fadvance s key L fuel x = m1.getLastD x
  | [], fuel, x, m2, hch, hend, _, hm2, _ => by
    rcases m2 with _ | ⟨y, m2'⟩
    · cases fuel with
      | zero => rfl
      | succ f =>
        simp only [List.nil_append, List.getLastD] at hend ⊢
        rw [fadvance, hend]
    · have hy : ¬ fkey s y < key := hm2 y (by simp)
      have hch' : List.Chain' (fstep s L) (x :: y :: m2') := by
        rw [List.nil_append] at hch
        exact hch
      have hlink : ffwd s x L = some y := (List.chain'_cons.mp hch').1
      cases fuel with
      | zero => rfl
      | succ f =>
        simp only [List.getLastD]
        rw [fadvance, hlink]
        show (if fkey s y < key then fadvance s key L f y else x) = x
        rw [if_neg hy]
  | a :: m1', fuel, x, m2, hch, hend, hm1, hm2, hfuel => by
    have ha := hm1 a (by simp)
    cases fuel with
    | zero => exact absurd hfuel (by simp)
    | succ f =>
      have hch' : List.Chain' (fstep s L) (x :: a :: (m1' ++ m2)) := by
        rw [List.cons_append] at hch
        exact hch
      have hlink : ffwd s x L = some a := (List.chain'_cons.mp hch').1
      rw [fadvance, hlink]
      show (if fkey s a < key then fadvance s key L f a else x) = (a :: m1').getLastD x
      rw [if_pos ha, List.getLastD_cons]
      have hend2 : ffwd s ((m1' ++ m2).getLastD a) L = none := by
        rw [List.cons_append, List.getLastD_cons] at hend
        exact hend
      exact fadvance_run s key L m1' f a m2 (List.chain'_cons.mp hch').2 hend2
        (fun y hy => hm1 y (by simp [hy])) hm2
        (by simpa using Nat.le_of_succ_le_succ hfuel)

/-- The cross link at level `L`: the recorded predecessor points at the head
of the at-least-`key` block (or at nothing). -/
theorem ffwd_predAtF {s t} (h : FWF s t) (key : Int) {L : Nat} (hL : L ≤ s.cur_level) :
    ffwd s (predAtF s t key L) L = (BLF s t key L).head? := by
  have hchain := h.chains L hL
  have hend := h.ends L hL
  rw [towerF_split h key L] at hchain hend
  rcases hB : BLF s t key L with _ | ⟨b, lb⟩
  · rw [hB, List.append_nil] at hend
    simp only [List.head?_nil]
    have hpa : (ALF s t key L).getLastD s.header = predAtF s t key L := rfl
    rw [← hpa]
    exact hend
  · rw [hB] at hchain
    have hshape : List.Chain' (fstep s L)
        ((s.header :: ALF s t key L) ++ (b :: lb)) := by
      simpa using hchain
    obtain ⟨-, -, hlink⟩ := List.chain'_append.mp hshape
    rw [List.head?_cons]
    exact hlink _ (Option.mem_def.mpr (getLast?_cons_getLastD _ _)) b (by simp)

/-- Processing one level of the Fat descent. -/
theorem ffind_level {s t} (h : FWF s t) (key : Int) {L : Nat} (hL : L ≤ s.cur_level) :
    fadvance s key L s.next_id (predAtF s t key (L + 1)) = predAtF s t key L := by
  have hchain := h.chains L hL
  have hend := h.ends L hL
  rw [towerF_split h key L] at hchain hend
  have hm1cond : ∀ x ∈ ALF s t key L, fkey s x < key := fun x hx => (mem_ALF hx).2.2
  have hm2cond : ∀ y ∈ (BLF s t key L).head?, ¬ fkey s y < key :=
    fun y hy => (mem_BLF (List.mem_of_mem_head? hy)).2.2
  have hendw : ffwd s ((ALF s t key L ++ BLF s t key L).getLastD s.header) L = none := by
    rcases hB : BLF s t key L with _ | ⟨b, lb⟩
    · rw [List.append_nil]
      rw [hB, List.append_nil] at hend
      exact hend
    · rw [hB] at hend
      exact hend
  rcases @predAtF_mem_or s t key (L + 1) with hp | hp
  · rw [hp]
    rw [fadvance_run s key L (ALF s t key L) _ _ (BLF s t key L) hchain hendw hm1cond
      hm2cond (le_trans (List.Sublist.length_le (ALF_sublist s t key L)) h.length_leF)]
    rfl
  · have hpal : predAtF s t key (L + 1) ∈ ALF s t key L := by
      obtain ⟨hxt, hxl, hxk⟩ := mem_ALF hp
      refine List.mem_filter.mpr ⟨List.mem_filter.mpr ⟨hxt, ?_⟩, ?_⟩
      · simpa using by omega
      · simpa using hxk
    obtain ⟨u, v, huv⟩ := List.append_of_mem hpal
    have hsuffix : List.Chain' (fstep s L)
        (predAtF s t key (L + 1) :: (v ++ BLF s t key L)) := by
      refine List.Chain'.suffix hchain ⟨s.header :: u, ?_⟩
      rw [huv]
      simp
    have hvlen : v.length ≤ s.next_id := by
      have h1 : (ALF s t key L).length ≤ t.length :=
        List.Sublist.length_le (ALF_sublist s t key L)
      have h2 := h.length_leF
      have h3 : (ALF s t key L).length = u.length + 1 + v.length := by
        rw [huv]
        simp [Nat.add_comm, Nat.add_assoc, Nat.add_left_comm]
      omega
    have hendv : ffwd s ((v ++ BLF s t key L).getLastD (predAtF s t key (L + 1))) L
        = none := by
      rw [huv, List.append_assoc, List.cons_append, getLastD_append_cons] at hendw
      exact hendw
    rw [fadvance_run s key L v _ _ (BLF s t key L) hsuffix hendv
      (fun x hx => hm1cond x (by
        rw [huv]
        exact List.mem_append_right u (List.mem_cons_of_mem _ hx)))
      hm2cond hvlen]
    show v.getLastD (predAtF s t key (L + 1)) = (ALF s t key L).getLastD s.header
    rw [huv, getLastD_append_cons]

/-- The full Fat descent: starting from the level-`l` predecessor, the
remaining levels compute all lower predecessors into `to_be_updated`. -/
theorem ffindAux_run {s t} (h : FWF s t) (key : Int) :
    ∀ l : Nat, l ≤ s.cur_level + 1 →
    ∀ upds : List (Option Nat), s.cur_level < upds.length →
      (ffindAux s key l (predAtF s t key l) upds).1 = predAtF s t key 0
        ∧ ∀ L : Nat,
            (ffindAux s key l (predAtF s t key l) upds).2.getD L none
              = if L < l then some (predAtF s t key L) else upds.getD L none
  | 0, _, upds, _ => by
    rw [ffindAux]
    exact ⟨rfl, fun L => by simp⟩
  | l + 1, hl, upds, hlen => by
    have hlmax : l ≤ s.cur_level := by omega
    have hpc := ffind_level h key (L := l) hlmax
    simp only [ffindAux, hpc]
    have ih := ffindAux_run h key l (by omega)
      (upds.set l (some (predAtF s t key l))) (by simpa using hlen)
    refine ⟨ih.1, fun L => ?_⟩
    rw [ih.2 L]
    rcases Nat.lt_trichotomy L l with hL | rfl | hL
    · rw [if_pos hL, if_pos (by omega)]
    · rw [if_neg (by omega), if_pos (by omega)]
      exact getD_set_self _ _ (by omega) _ _
    · rw [if_neg (by omega), if_neg (by omega)]
      exact getD_set_ne _ (by omega) _ _

/-- Complete characterisation of `FatSkipList::find_node` on a well-formed
state: the candidate is the head of the at-least-`key` block at level 0 and
`to_be_updated` records the per-level predecessors. -/
theorem ffind_run {s t} (h : FWF s t) (key : Int) :
    (ffind s key).1 = (BLF s t key 0).head?
      ∧ ∀ L, L ≤ s.cur_level → (ffind s key).2.getD L none = some (predAtF s t key L) := by
  have hsp : predAtF s t key (s.cur_level + 1) = s.header := by
    unfold predAtF ALF
    rw [towerF_high h (by omega)]
    rfl
  have hrun := ffindAux_run h key (s.cur_level + 1) le_rfl
    (List.replicate (s.max_level + 1) none)
    (by simpa using Nat.lt_succ_of_le h.cur_le)
  rw [hsp] at hrun
  simp only [ffind]
  refine ⟨?_, fun L hL => ?_⟩
  · rw [hrun.1]
    exact ffwd_predAtF h key (Nat.zero_le _)
  · rw [hrun.2 L, if_pos (by omega)]

/-- `FatSkipList::search` computes the abstract lookup. -/
theorem fsearch_run {s t} (h : FWF s t) (key : Int) :
    fsearch s key = match lookupVF s t key with
      | some v => (true, v)
      | none => (false, 0) := by
  obtain ⟨hcand, -⟩ := ffind_run h key
  simp only [fsearch, lookupVF]
  rcases hX : ffound s t key with _ | X
  · simp only [hX, Option.map_none']
    rw [hcand]
    rcases hB : (BLF s t key 0).head? with _ | b
    · rfl
    · show (if fkey s b = key then ((true, (fnode s b).value) : Bool × Int)
          else (false, 0)) = (false, 0)
      rw [if_neg]
      intro hbk
      have hmem := mem_BLF (List.mem_of_mem_head? hB)
      have hfb := ffound_of_mem h hmem.1 hbk
      rw [hX] at hfb
      exact absurd hfb (by simp)
  · simp only [hX, Option.map_some']
    obtain ⟨hXt, hXk⟩ := ffound_mem hX
    have hmem : X ∈ towerF s t 0 := by
      rw [towerF_zero h]
      exact hXt
    have hhd : (BLF s t key 0).head? = some X := by
      unfold BLF
      exact head_filter_ge (towerF_sorted h 0) hmem hXk
    rw [hcand, hhd]
    show (if fkey s X = key then ((true, (fnode s X).value) : Bool × Int)
        else (false, 0)) = (true, (fnode s X).value)
    rw [if_pos hXk]

/-! ### Fat state-update toolkit -/

theorem fnode_fsetFwd (s : FState) (p : Nat) (L : Nat) (tgt : Option Nat) (q : Nat) :
    fnode (fsetFwd s p L tgt) q =
      if q = p then { fnode s q with forward := (fnode s q).forward.set L tgt }
      else fnode s q := by
  unfold fnode fsetFwd
  by_cases hq : q = p
  · subst hq
    rcases s.heap q with _ | n
    · simp only [if_pos rfl, Option.map_none', Option.getD_none]
      rfl
    · simp
  · simp [hq]

theorem ffwd_fsetFwd (s : FState) (p : Nat) (L : Nat) (tgt : Option Nat) (q : Nat)
    (L' : Nat) :
    ffwd (fsetFwd s p L tgt) q L' =
      if q = p ∧ L' = L ∧ L < (fnode s p).forward.length then tgt
      else ffwd s q L' := by
  unfold ffwd
  rw [fnode_fsetFwd]
  by_cases hq : q = p
  · subst hq
    rw [if_pos rfl]
    by_cases hL : L' = L
    · subst hL
      by_cases hlen : L' < (fnode s q).forward.length
      · rw [if_pos ⟨rfl, rfl, hlen⟩]
        exact getD_set_self _ _ hlen _ _
      · rw [if_neg (fun hc => hlen hc.2.2)]
        show ((fnode s q).forward.set L' tgt).getD L' none = (fnode s q).forward.getD L' none
        rw [List.set_eq_of_length_le (by omega)]
    · rw [if_neg (fun hc => hL hc.2.1)]
      show ((fnode s q).forward.set L tgt).getD L' none = (fnode s q).forward.getD L' none
      exact getD_set_ne _ (fun he => hL he.symm) _ _
  · rw [if_neg hq, if_neg (fun hc => hq hc.1)]

/-- The metadata of a Fat node: everything except its forward pointers. -/
def fmeta (s : FState) (q : Nat) : Int × Int × Nat × Bool :=
  (fkey s q, (fnode s q).value, (fnode s q).forward.length, (s.heap q).isSome)

theorem fsetFwd_isSome (s : FState) (p : Nat) (L : Nat) (tgt : Option Nat) (q : Nat) :
    ((fsetFwd s p L tgt).heap q).isSome = (s.heap q).isSome := by
  unfold fsetFwd
  by_cases hq : q = p
  · subst hq
    rcases s.heap q with _ | n <;> simp
  · simp [hq]

theorem fmeta_fsetFwd (s : FState) (p : Nat) (L : Nat) (tgt : Option Nat) (q : Nat) :
    fmeta (fsetFwd s p L tgt) q = fmeta s q := by
  unfold fmeta fkey
  rw [fnode_fsetFwd, fsetFwd_isSome]
  by_cases hq : q = p
  · subst hq
    rw [if_pos rfl]
    simp
  · rw [if_neg hq]

theorem fmeta_eq_elim {s s' : FState} {q : Nat} (h : fmeta s' q = fmeta s q) :
    fkey s' q = fkey s q ∧ (fnode s' q).value = (fnode s q).value ∧
      (fnode s' q).forward.length = (fnode s q).forward.length ∧
      ((s'.heap q).isSome = (s.heap q).isSome) := by
  unfold fmeta at h
  exact ⟨congrArg (fun x => x.1) h, congrArg (fun x => x.2.1) h,
    congrArg (fun x => x.2.2.1) h, congrArg (fun x => x.2.2.2) h⟩

theorem ffwd_fsetValue (s : FState) (p : Nat) (v : Int) (q L : Nat) :
    ffwd (fsetValue s p v) q L = ffwd s q L := by
  unfold ffwd fnode fsetValue
  by_cases hq : q = p
  · subst hq
    rcases s.heap q with _ | n <;> simp
  · simp [hq]

theorem fkey_fsetValue (s : FState) (p : Nat) (v : Int) (q : Nat) :
    fkey (fsetValue s p v) q = fkey s q := by
  unfold fkey fnode fsetValue
  by_cases hq : q = p
  · subst hq
    rcases s.heap q with _ | n <;> simp
  · simp [hq]

theorem flen_fsetValue (s : FState) (p : Nat) (v : Int) (q : Nat) :
    (fnode (fsetValue s p v) q).forward.length = (fnode s q).forward.length := by
  unfold fnode fsetValue
  by_cases hq : q = p
  · subst hq
    rcases s.heap q with _ | n <;> simp
  · simp [hq]

theorem fsetValue_isSome (s : FState) (p : Nat) (v : Int) (q : Nat) :
    ((fsetValue s p v).heap q).isSome = (s.heap q).isSome := by
  unfold fsetValue
  by_cases hq : q = p
  · subst hq
    rcases s.heap q with _ | n <;> simp
  · simp [hq]

theorem fvalue_fsetValue (s : FState) {p : Nat} (hp : (s.heap p).isSome = true) (v : Int) :
    (fnode (fsetValue s p v) p).value = v := by
  obtain ⟨n, hn⟩ := Option.isSome_iff_exists.mp hp
  unfold fnode fsetValue
  simp [hn]

theorem fvalue_fsetValue_ne (s : FState) (p : Nat) (v : Int) {q : Nat} (hq : q ≠ p) :
    (fnode (fsetValue s p v) q).value = (fnode s q).value := by
  unfold fnode fsetValue
  simp [hq]

theorem fmeta_fdelete_ne (s : FState) (p : Nat) {q : Nat} (hq : q ≠ p) :
    fmeta (fdelete s p) q = fmeta s q := by
  unfold fmeta fkey fnode fdelete
  simp [hq]

theorem ffwd_fdelete_ne (s : FState) (p : Nat) {q : Nat} (hq : q ≠ p) (L : Nat) :
    ffwd (fdelete s p) q L = ffwd s q L := by
  unfold ffwd fnode fdelete
  simp [hq]

/-- Writing a fold of `set`s over a contiguous index range, read back. -/
theorem foldl_set_getD {α : Type} (x d : α) :
    ∀ (n a : Nat) (u : List α) (L : Nat),
      ((List.range' a n).foldl (fun w i => w.set i x) u).getD L d
        = if a ≤ L ∧ L < a + n ∧ L < u.length then x else u.getD L d
  | 0, a, u, L => by
    rw [List.range'_zero, List.foldl_nil, if_neg (by omega)]
  | n + 1, a, u, L => by
    rw [List.range', List.foldl_cons, foldl_set_getD x d n (a + 1) (u.set a x) L]
    by_cases h1 : a + 1 ≤ L ∧ L < a + 1 + n ∧ L < (u.set a x).length
    · rw [if_pos h1, if_pos (by simp at h1; omega)]
    · rw [if_neg h1]
      simp only [List.length_set] at h1
      by_cases hL : L = a
      · subst hL
        by_cases hlen : L < u.length
        · rw [if_pos (by omega), getD_set_self _ _ hlen]
        · rw [if_neg (by omega), List.set_eq_of_length_le (by omega)]
      · rw [getD_set_ne _ (fun he => hL he.symm), if_neg (by omega)]

/-! ### The Fat insert splice -/

theorem fchain'_congr {s s' : FState} {L : Nat} :
    ∀ {l : List Nat}, (∀ a ∈ l.dropLast, ffwd s' a L = ffwd s a L) →
      List.Chain' (fstep s L) l → List.Chain' (fstep s' L) l
  | [], _, _ => List.chain'_nil
  | [_], _, _ => List.chain'_singleton _
  | a :: b :: l, hfw, hch => by
    rw [List.chain'_cons] at hch ⊢
    refine ⟨?_, fchain'_congr (fun x hx => hfw x (by
      rw [List.dropLast_cons₂]
      exact List.mem_cons_of_mem a hx)) hch.2⟩
    unfold fstep
    rw [hfw a (by
      rw [List.dropLast_cons₂]
      exact List.mem_cons_self _ _)]
    exact hch.1

theorem predAtF_high {s t} (h : FWF s t) (key : Int) {L : Nat}
    (hL : s.cur_level < L) : predAtF s t key L = s.header := by
  unfold predAtF ALF
  rw [towerF_high h hL]
  rfl

theorem predAtF_lt_next {s t} (h : FWF s t) (key : Int) (L : Nat) :
    predAtF s t key L < s.next_id := by
  rcases @predAtF_mem_or s t key L with hp | hp
  · rw [hp]
    exact h.bound _ ((h.dom _).mpr (Or.inl rfl))
  · exact h.bound _ ((h.dom _).mpr (Or.inr ((ALF_sublist s t key L).subset hp)))

theorem predAtF_len {s t} (h : FWF s t) (key : Int) {L : Nat} (hL : L ≤ s.max_level) :
    L < (fnode s (predAtF s t key L)).forward.length := by
  rcases @predAtF_mem_or s t key L with hp | hp
  · rw [hp, h.hdr_len]
    omega
  · exact (mem_ALF hp).2.1

theorem ffindAux_len (s : FState) (key : Int) :
    ∀ (l : Nat) (node : Nat) (upds : List (Option Nat)),
      ((ffindAux s key l node upds).2).length = upds.length
  | 0, _, _ => rfl
  | l + 1, node, upds => by
    simp only [ffindAux]
    rw [ffindAux_len s key l]
    simp

theorem ffind_len (s : FState) (key : Int) :
    ((ffind s key).2).length = s.max_level + 1 := by
  simp only [ffind]
  rw [ffindAux_len]
  simp

/-- The `to_be_updated` vector after `FatSkipList::insert` extends it with the
header on the levels above `cur_level_`. -/
def fext (s : FState) (node_level : Nat) (upds : List (Option Nat)) :
    List (Option Nat) :=
  if node_level > s.cur_level then
    (List.range' (s.cur_level + 1) (node_level - s.cur_level)).foldl
      (fun u i => u.set i (some s.header)) upds
  else upds

/-- The freshly allocated state inside `FatSkipList::insert`, including the
`cur_level_` bump. -/
def finsAlloc (s : FState) (key value : Int) (nl : Nat) : FState :=
  { s with
    cur_level := if nl > s.cur_level then nl else s.cur_level,
    heap := fun q =>
      if q = s.next_id then some ⟨key, value, List.replicate (nl + 1) none⟩
      else s.heap q,
    next_id := s.next_id + 1 }

theorem finsertGo_eq (s : FState) (key value : Int) (nl : Nat)
    (upds : List (Option Nat)) :
    finsertGo s key value nl upds =
      ((List.range (nl + 1)).foldl
        (fun st level =>
          fsetFwd (fsetFwd st s.next_id level
              (ffwd st (((fext s nl upds).getD level none).getD 0) level))
            (((fext s nl upds).getD level none).getD 0) level (some s.next_id))
        (finsAlloc s key value nl), true) := rfl

theorem fext_getD (s : FState) (nl : Nat) (upds : List (Option Nat)) (L : Nat) :
    (fext s nl upds).getD L none =
      if s.cur_level < L ∧ L ≤ nl ∧ L < upds.length then some s.header
      else upds.getD L none := by
  unfold fext
  by_cases hgt : nl > s.cur_level
  · rw [if_pos hgt, foldl_set_getD]
    have hiff : (s.cur_level + 1 ≤ L ∧ L < s.cur_level + 1 + (nl - s.cur_level)
          ∧ L < upds.length)
        ↔ (s.cur_level < L ∧ L ≤ nl ∧ L < upds.length) := by
      omega
    rw [if_congr hiff rfl rfl]
  · rw [if_neg hgt, if_neg (by omega)]

theorem fnode_finsAlloc (s : FState) (key value : Int) (nl : Nat) (q : Nat) :
    fnode (finsAlloc s key value nl) q =
      if q = s.next_id then ⟨key, value, List.replicate (nl + 1) none⟩
      else fnode s q := by
  unfold fnode finsAlloc
  by_cases hq : q = s.next_id <;> simp [hq]

theorem isSome_finsAlloc (s : FState) (key value : Int) (nl : Nat) (q : Nat) :
    (((finsAlloc s key value nl).heap q).isSome = true) ↔
      (q = s.next_id ∨ (s.heap q).isSome = true) := by
  unfold finsAlloc
  by_cases hq : q = s.next_id <;> simp [hq]

theorem ffwd_finsAlloc_old (s : FState) (key value : Int) (nl : Nat) {q : Nat}
    (hq : q ≠ s.next_id) (L : Nat) :
    ffwd (finsAlloc s key value nl) q L = ffwd s q L := by
  unfold ffwd
  rw [fnode_finsAlloc, if_neg hq]

theorem ffwd_finsAlloc_new (s : FState) (key value : Int) (nl : Nat) (L : Nat) :
    ffwd (finsAlloc s key value nl) s.next_id L = none := by
  unfold ffwd
  rw [fnode_finsAlloc, if_pos rfl]
  simp [List.getD_eq_getElem?_getD]

theorem fmeta_finsAlloc_ne (s : FState) (key value : Int) (nl : Nat) {q : Nat}
    (hq : q ≠ s.next_id) : fmeta (finsAlloc s key value nl) q = fmeta s q := by
  unfold fmeta fkey fnode finsAlloc
  simp [hq]

theorem ffwd_fspliceStep (ext : List (Option Nat)) (newId : Nat) (s1 : FState)
    (L0 : Nat) (hne : (ext.getD L0 none).getD 0 ≠ newId)
    (hlenp : L0 < (fnode s1 ((ext.getD L0 none).getD 0)).forward.length)
    (hlenn : L0 < (fnode s1 newId).forward.length) :
    (∀ q L',
        ffwd (fsetFwd (fsetFwd s1 newId L0 (ffwd s1 ((ext.getD L0 none).getD 0) L0))
            ((ext.getD L0 none).getD 0) L0 (some newId)) q L' =
          if L' = L0 ∧ q = newId then ffwd s1 ((ext.getD L0 none).getD 0) L'
          else if L' = L0 ∧ (ext.getD L0 none).getD 0 = q then some newId
          else ffwd s1 q L')
      ∧ ∀ q,
        fmeta (fsetFwd (fsetFwd s1 newId L0 (ffwd s1 ((ext.getD L0 none).getD 0) L0))
            ((ext.getD L0 none).getD 0) L0 (some newId)) q = fmeta s1 q := by
  constructor
  · intro q L'
    rw [ffwd_fsetFwd, ffwd_fsetFwd]
    have hlen1 : (fnode (fsetFwd s1 newId L0 (ffwd s1 ((ext.getD L0 none).getD 0) L0))
        ((ext.getD L0 none).getD 0)).forward.length
          = (fnode s1 ((ext.getD L0 none).getD 0)).forward.length :=
      (fmeta_eq_elim (fmeta_fsetFwd s1 newId L0 _ _)).2.2.1
    by_cases h1 : L' = L0 ∧ q = newId
    · obtain ⟨rfl, rfl⟩ := h1
      rw [if_neg (fun hc => hne hc.1.symm), if_pos ⟨rfl, rfl, hlenn⟩, if_pos ⟨rfl, rfl⟩]
    · by_cases h2 : L' = L0 ∧ (ext.getD L0 none).getD 0 = q
      · obtain ⟨rfl, h2⟩ := h2
        rw [if_pos ⟨h2.symm, rfl, hlen1 ▸ hlenp⟩,
          if_neg (fun hc => hne (h2.trans hc.2)), if_pos ⟨rfl, h2⟩]
      · rw [if_neg (fun hc => h2 ⟨hc.2.1, hc.1.symm⟩),
          if_neg (fun hc => h1 ⟨hc.2.1, hc.1⟩), if_neg h1, if_neg h2]
  · intro q
    rw [fmeta_fsetFwd, fmeta_fsetFwd]

/-- Effect of the splice loop of `FatSkipList::insert`: the new node adopts
each recorded predecessor's old forward pointer and each recorded predecessor
adopts the new node. -/
theorem fsplice_fold (ext : List (Option Nat)) (newId : Nat) :
    ∀ (ls : List Nat) (s1 : FState),
      ls.Nodup →
      (∀ L ∈ ls, (ext.getD L none).getD 0 ≠ newId) →
      (∀ L ∈ ls, L < (fnode s1 ((ext.getD L none).getD 0)).forward.length) →
      (∀ L ∈ ls, L < (fnode s1 newId).forward.length) →
      (∀ q L',
          ffwd (ls.foldl
              (fun st level =>
                fsetFwd (fsetFwd st newId level
                    (ffwd st ((ext.getD level none).getD 0) level))
                  ((ext.getD level none).getD 0) level (some newId)) s1) q L' =
            if L' ∈ ls ∧ q = newId then ffwd s1 ((ext.getD L' none).getD 0) L'
            else if L' ∈ ls ∧ (ext.getD L' none).getD 0 = q then some newId
            else ffwd s1 q L')
        ∧ ∀ q, fmeta (ls.foldl
            (fun st level =>
              fsetFwd (fsetFwd st newId level
                  (ffwd st ((ext.getD level none).getD 0) level))
                ((ext.getD level none).getD 0) level (some newId)) s1) q = fmeta s1 q
  | [], s1, _, _, _, _ => by
    refine ⟨fun q L' => ?_, fun q => rfl⟩
    simp
  | L0 :: ls, s1, hnd, hne, hlenp, hlenn => by
    have hstep := ffwd_fspliceStep ext newId s1 L0 (hne L0 (by simp))
      (hlenp L0 (by simp)) (hlenn L0 (by simp))
    have hmeta := hstep.2
    have hrow : ∀ L', L' ≠ L0 →
        ffwd (fsetFwd (fsetFwd s1 newId L0 (ffwd s1 ((ext.getD L0 none).getD 0) L0))
            ((ext.getD L0 none).getD 0) L0 (some newId)) ((ext.getD L' none).getD 0) L'
          = ffwd s1 ((ext.getD L' none).getD 0) L' := by
      intro L' hL'
      rw [hstep.1, if_neg (fun hc => hL' hc.1), if_neg (fun hc => hL' hc.1)]
    have ih := fsplice_fold ext newId ls
      (fsetFwd (fsetFwd s1 newId L0 (ffwd s1 ((ext.getD L0 none).getD 0) L0))
        ((ext.getD L0 none).getD 0) L0 (some newId))
      (List.Nodup.of_cons hnd) (fun L hL => hne L (by simp [hL]))
      (fun L hL => by
        rw [(fmeta_eq_elim (hmeta _)).2.2.1]
        exact hlenp L (by simp [hL]))
      (fun L hL => by
        rw [(fmeta_eq_elim (hmeta _)).2.2.1]
        exact hlenn L (by simp [hL]))
    rw [List.foldl_cons]
    refine ⟨fun q L' => ?_, fun q => (ih.2 q).trans (hmeta q)⟩
    rw [ih.1 q L', hstep.1 q L']
    have hL0ls : L0 ∉ ls := (List.nodup_cons.mp hnd).1
    have hne0 : (ext.getD L0 none).getD 0 ≠ newId := hne L0 (by simp)
    have hnels : ∀ L ∈ ls, (ext.getD L none).getD 0 ≠ newId :=
      fun L hL => hne L (by simp [hL])
    clear ih hstep hmeta hnd hne hlenp hlenn
    by_cases hq1 : q = newId <;> by_cases hL : L' = L0 <;> by_cases hm : L' ∈ ls <;>
      by_cases hp : (ext.getD L' none).getD 0 = q <;>
      simp_all [List.mem_cons, hrow]

theorem fsplice_foldl_rec (ext : List (Option Nat)) (newId : Nat) :
    ∀ (ls : List Nat) (s1 : FState),
      ((ls.foldl (fun st level =>
          fsetFwd (fsetFwd st newId level (ffwd st ((ext.getD level none).getD 0) level))
            ((ext.getD level none).getD 0) level (some newId)) s1).header = s1.header)
        ∧ ((ls.foldl (fun st level =>
            fsetFwd (fsetFwd st newId level (ffwd st ((ext.getD level none).getD 0) level))
              ((ext.getD level none).getD 0) level (some newId)) s1).cur_level
                = s1.cur_level)
        ∧ ((ls.foldl (fun st level =>
            fsetFwd (fsetFwd st newId level (ffwd st ((ext.getD level none).getD 0) level))
              ((ext.getD level none).getD 0) level (some newId)) s1).max_level
                = s1.max_level)
        ∧ ((ls.foldl (fun st level =>
            fsetFwd (fsetFwd st newId level (ffwd st ((ext.getD level none).getD 0) level))
              ((ext.getD level none).getD 0) level (some newId)) s1).probability
                = s1.probability)
        ∧ ((ls.foldl (fun st level =>
            fsetFwd (fsetFwd st newId level (ffwd st ((ext.getD level none).getD 0) level))
              ((ext.getD level none).getD 0) level (some newId)) s1).next_id
                = s1.next_id)
  | [], s1 => ⟨rfl, rfl, rfl, rfl, rfl⟩
  | L0 :: ls, s1 => by
    rw [List.foldl_cons]
    exact fsplice_foldl_rec ext newId ls _

/-- The final state of a fresh `FatSkipList::insert`. -/
def finsResult (s : FState) (key value : Int) (nl : Nat) : FState :=
  (finsertGo s key value nl (ffind s key).2).1

theorem finsResult_rec (s : FState) (key value : Int) (nl : Nat) :
    (finsResult s key value nl).header = s.header
      ∧ (finsResult s key value nl).cur_level
          = (if nl > s.cur_level then nl else s.cur_level)
      ∧ (finsResult s key value nl).max_level = s.max_level
      ∧ (finsResult s key value nl).probability = s.probability
      ∧ (finsResult s key value nl).next_id = s.next_id + 1 := by
  unfold finsResult
  rw [finsertGo_eq]
  have := fsplice_foldl_rec (fext s nl (ffind s key).2) s.next_id
    (List.range (nl + 1)) (finsAlloc s key value nl)
  exact ⟨this.1, this.2.1, this.2.2.1, this.2.2.2.1, this.2.2.2.2⟩

/-- With the header extension, every level up to the sampled height reads the
abstract predecessor out of `to_be_updated`. -/
theorem fupd_eq {s t} (h : FWF s t) (key : Int) {nl : Nat} (hnl : nl ≤ s.max_level)
    {L : Nat} (hL : L ≤ nl) :
    ((fext s nl (ffind s key).2).getD L none).getD 0 = predAtF s t key L := by
  rw [fext_getD]
  by_cases hc : s.cur_level < L
  · rw [if_pos ⟨hc, hL, by rw [ffind_len]; omega⟩, predAtF_high h key hc]
    rfl
  · rw [if_neg (fun hcc => hc hcc.1), (ffind_run h key).2 L (by omega)]
    rfl

/-- The cross link at any level, also above `cur_level_`. -/
theorem ffwd_predAtF_all {s t} (h : FWF s t) (key : Int) (L : Nat) :
    ffwd s (predAtF s t key L) L = (BLF s t key L).head? := by
  by_cases hL : L ≤ s.cur_level
  · exact ffwd_predAtF h key hL
  · rw [predAtF_high h key (by omega), h.high_empty L (by omega)]
    unfold BLF
    rw [towerF_high h (by omega)]
    rfl

/-- Pointer/metadata characterisation of the state after a fresh Fat insert. -/
theorem finsResult_facts {s t} (h : FWF s t) (key value : Int) {nl : Nat}
    (hnl : nl ≤ s.max_level) :
    (∀ q L', q ≠ s.next_id →
        ffwd (finsResult s key value nl) q L' =
          if L' ≤ nl ∧ predAtF s t key L' = q then some s.next_id else ffwd s q L')
      ∧ (∀ L', ffwd (finsResult s key value nl) s.next_id L' =
          if L' ≤ nl then (BLF s t key L').head? else none)
      ∧ (∀ q, q ≠ s.next_id → fmeta (finsResult s key value nl) q = fmeta s q)
      ∧ (fkey (finsResult s key value nl) s.next_id = key
          ∧ (fnode (finsResult s key value nl) s.next_id).value = value
          ∧ (fnode (finsResult s key value nl) s.next_id).forward.length = nl + 1
          ∧ (((finsResult s key value nl).heap s.next_id).isSome = true)) := by
  have hres : finsResult s key value nl
      = (List.range (nl + 1)).foldl
        (fun st level =>
          fsetFwd (fsetFwd st s.next_id level
              (ffwd st (((fext s nl (ffind s key).2).getD level none).getD 0) level))
            (((fext s nl (ffind s key).2).getD level none).getD 0) level
            (some s.next_id))
        (finsAlloc s key value nl) := by
    unfold finsResult
    rw [finsertGo_eq]
  have hnewnode : fnode (finsAlloc s key value nl) s.next_id
      = ⟨key, value, List.replicate (nl + 1) none⟩ := by
    rw [fnode_finsAlloc, if_pos rfl]
  have hfold := fsplice_fold (fext s nl (ffind s key).2) s.next_id
    (List.range (nl + 1)) (finsAlloc s key value nl) (List.nodup_range _)
    (fun L hL => by
      have hLr := List.mem_range.mp hL
      rw [fupd_eq h key hnl (by omega)]
      exact Nat.ne_of_lt (predAtF_lt_next h key L))
    (fun L hL => by
      have hLr := List.mem_range.mp hL
      rw [fupd_eq h key hnl (by omega), fnode_finsAlloc,
        if_neg (Nat.ne_of_lt (predAtF_lt_next h key L))]
      exact predAtF_len h key (by omega))
    (fun L hL => by
      have hLr := List.mem_range.mp hL
      rw [hnewnode]
      simpa using hLr)
  refine ⟨fun q L' hq => ?_, fun L' => ?_, fun q hq => ?_, ?_⟩
  · rw [hres, hfold.1 q L', if_neg (fun hc => hq hc.2)]
    have hiff : (L' ∈ List.range (nl + 1)
          ∧ ((fext s nl (ffind s key).2).getD L' none).getD 0 = q)
        ↔ (L' ≤ nl ∧ predAtF s t key L' = q) := by
      constructor
      · rintro ⟨hm, hp⟩
        have hLr := List.mem_range.mp hm
        rw [fupd_eq h key hnl (by omega)] at hp
        exact ⟨by omega, hp⟩
      · rintro ⟨hm, hp⟩
        refine ⟨List.mem_range.mpr (by omega), ?_⟩
        rw [fupd_eq h key hnl (by omega)]
        exact hp
    rw [if_congr hiff rfl (ffwd_finsAlloc_old s key value nl hq L')]
  · rw [hres, hfold.1 s.next_id L']
    by_cases hc : L' ≤ nl
    · rw [if_pos ⟨List.mem_range.mpr (by omega), rfl⟩, fupd_eq h key hnl hc,
        ffwd_finsAlloc_old s key value nl
          (Nat.ne_of_lt (predAtF_lt_next h key L')) L',
        ffwd_predAtF_all h key L', if_pos hc]
    · rw [if_neg (fun hcc => hc (by
          have := List.mem_range.mp hcc.1
          omega)),
        if_neg (fun hcc => hc (by
          have := List.mem_range.mp hcc.1
          omega)),
        if_neg hc]
      exact ffwd_finsAlloc_new s key value nl L'
  · rw [hres, hfold.2 q, fmeta_finsAlloc_ne s key value nl hq]
  · have hm2 : fmeta (finsResult s key value nl) s.next_id
        = fmeta (finsAlloc s key value nl) s.next_id := by
      rw [hres]
      exact hfold.2 s.next_id
    have hm2e := fmeta_eq_elim hm2
    have hk1 : fkey (finsAlloc s key value nl) s.next_id = key := by
      unfold fkey
      rw [hnewnode]
    refine ⟨?_, ?_, ?_, ?_⟩
    · rw [hm2e.1, hk1]
    · rw [hm2e.2.1, hnewnode]
    · rw [hm2e.2.2.1, hnewnode]
      simp
    · rw [hm2e.2.2.2]
      exact (isSome_finsAlloc s key value nl s.next_id).mpr (Or.inl rfl)

/-! ### Well-formedness of the Fat insert result -/

theorem t_splitF {s t} (h : FWF s t) (key : Int) :
    t = ALF s t key 0 ++ BLF s t key 0 := by
  have := towerF_split h key 0
  rwa [towerF_zero h] at this

theorem nodup_header_ALF {s t} (h : FWF s t) (key : Int) (L : Nat) :
    (s.header :: ALF s t key L).Nodup := by
  rw [List.nodup_cons]
  exact ⟨fun hm => h.hmem ((ALF_sublist s t key L).subset hm),
    h.nodup.sublist (ALF_sublist s t key L)⟩

theorem BLF_ne_predAtF {s t} (h : FWF s t) {key : Int} {L L' : Nat} {b : Nat}
    (hb : b ∈ BLF s t key L) : predAtF s t key L' ≠ b := by
  intro he
  rcases @predAtF_mem_or s t key L' with hp | hp
  · rw [he] at hp
    exact h.hmem (hp ▸ (BLF_sublist s t key L).subset hb)
  · rw [he] at hp
    exact absurd (mem_ALF hp).2.2 (mem_BLF hb).2.2

theorem ALF_high {s t} (h : FWF s t) (key : Int) {L : Nat} (hL : s.cur_level < L) :
    ALF s t key L = [] := by
  unfold ALF
  rw [towerF_high h hL]
  rfl

theorem BLF_high {s t} (h : FWF s t) (key : Int) {L : Nat} (hL : s.cur_level < L) :
    BLF s t key L = [] := by
  unfold BLF
  rw [towerF_high h hL]
  rfl

theorem ne_nextF_of_isSome {s t} (h : FWF s t) {a : Nat}
    (ha : (s.heap a).isSome = true) : a ≠ s.next_id :=
  Nat.ne_of_lt (h.bound a ha)

theorem mem_tF'_iff {s t} (h : FWF s t) (key : Int) (q : Nat) :
    q ∈ ALF s t key 0 ++ s.next_id :: BLF s t key 0 ↔ (q = s.next_id ∨ q ∈ t) := by
  rw [List.mem_append, List.mem_cons]
  constructor
  · rintro (hq | hq | hq)
    · exact Or.inr ((ALF_sublist s t key 0).subset hq)
    · exact Or.inl hq
    · exact Or.inr ((BLF_sublist s t key 0).subset hq)
  · rintro (rfl | hq)
    · exact Or.inr (Or.inl rfl)
    · rw [t_splitF h key, List.mem_append] at hq
      rcases hq with hq | hq
      · exact Or.inl hq
      · exact Or.inr (Or.inr hq)

theorem fkey_finsResult_old {s t} (h : FWF s t) (key value : Int) {nl : Nat}
    (hnl : nl ≤ s.max_level) {q : Nat} (hq : q ∈ t) :
    fkey (finsResult s key value nl) q = fkey s q := by
  have hqlt := h.bound q ((h.dom q).mpr (Or.inr hq))
  exact (fmeta_eq_elim ((finsResult_facts h key value hnl).2.2.1 q
    (Nat.ne_of_lt hqlt))).1

theorem flen_finsResult_old {s t} (h : FWF s t) (key value : Int) {nl : Nat}
    (hnl : nl ≤ s.max_level) {q : Nat} (hq : q ∈ t) :
    (fnode (finsResult s key value nl) q).forward.length
      = (fnode s q).forward.length := by
  have hqlt := h.bound q ((h.dom q).mpr (Or.inr hq))
  exact (fmeta_eq_elim ((finsResult_facts h key value hnl).2.2.1 q
    (Nat.ne_of_lt hqlt))).2.2.1

/-- The tower of the new Fat state at each level. -/
theorem towerF_finsResult {s t} (h : FWF s t) (key value : Int) {nl : Nat}
    (hnl : nl ≤ s.max_level) (L : Nat) :
    towerF (finsResult s key value nl) (ALF s t key 0 ++ s.next_id :: BLF s t key 0) L
      = if L ≤ nl then ALF s t key L ++ s.next_id :: BLF s t key L
        else towerF s t L := by
  have hnew_len : (fnode (finsResult s key value nl) s.next_id).forward.length
      = nl + 1 := (finsResult_facts h key value hnl).2.2.2.2.2.1
  unfold towerF
  rw [List.filter_append, List.filter_cons]
  have hALF : (ALF s t key 0).filter
      (fun p => decide (L < (fnode (finsResult s key value nl) p).forward.length))
      = ALF s t key L := by
    rw [List.filter_congr (fun p hp => by
      rw [flen_finsResult_old h key value hnl ((ALF_sublist s t key 0).subset hp)])]
    show ((towerF s t 0).filter _).filter _ = _
    rw [towerF_zero h]
    unfold ALF towerF
    rw [List.filter_filter, List.filter_filter]
    exact List.filter_congr fun p hp => Bool.and_comm _ _
  have hBLF : (BLF s t key 0).filter
      (fun p => decide (L < (fnode (finsResult s key value nl) p).forward.length))
      = BLF s t key L := by
    rw [List.filter_congr (fun p hp => by
      rw [flen_finsResult_old h key value hnl ((BLF_sublist s t key 0).subset hp)])]
    show ((towerF s t 0).filter _).filter _ = _
    rw [towerF_zero h]
    unfold BLF towerF
    rw [List.filter_filter, List.filter_filter]
    exact List.filter_congr fun p hp => Bool.and_comm _ _
  rw [hALF, hBLF, hnew_len]
  by_cases hc : L ≤ nl
  · rw [if_pos hc, decide_eq_true (show L < nl + 1 by omega)]
    rfl
  · rw [if_neg hc, decide_eq_false (show ¬ L < nl + 1 by omega)]
    show ALF s t key L ++ BLF s t key L = towerF s t L
    exact (towerF_split h key L).symm

/-- The state after a fresh Fat insert satisfies the invariant with the new
node spliced into the live list at its key position. -/
theorem finsResult_wf {s t} (h : FWF s t) {key : Int} (hX : ffound s t key = none)
    (value : Int) {nl : Nat} (hnl : nl ≤ s.max_level) :
    FWF (finsResult s key value nl) (ALF s t key 0 ++ s.next_id :: BLF s t key 0) := by
  have hfacts := finsResult_facts h key value hnl
  have hfwd_old := hfacts.1
  have hfwd_new := hfacts.2.1
  have hmeta_old := hfacts.2.2.1
  obtain ⟨hknew, hvnew, hlennew, hsnew⟩ := hfacts.2.2.2
  obtain ⟨hrh, hrc, hrm, hrp, hrn⟩ := finsResult_rec s key value nl
  have hhne : s.header ≠ s.next_id :=
    ne_nextF_of_isSome h ((h.dom _).mpr (Or.inl rfl))
  have htmem : ∀ q ∈ t, q ≠ s.next_id :=
    fun q hq => ne_nextF_of_isSome h ((h.dom _).mpr (Or.inr hq))
  have hmeta_t : ∀ q ∈ t, fmeta (finsResult s key value nl) q = fmeta s q :=
    fun q hq => hmeta_old q (htmem q hq)
  have hkey_t : ∀ q ∈ t, fkey (finsResult s key value nl) q = fkey s q :=
    fun q hq => (fmeta_eq_elim (hmeta_t q hq)).1
  have hBLF_gt : ∀ b ∈ BLF s t key 0, key < fkey s b := by
    intro b hb
    obtain ⟨hbt, -, hbk⟩ := mem_BLF hb
    rcases lt_or_eq_of_le (not_lt.mp hbk) with hlt | heq
    · exact hlt
    · rw [ffound_of_mem h hbt heq.symm] at hX
      exact absurd hX (by simp)
  have hsplitL : ∀ L, L ≤ s.cur_level → List.Chain' (fstep s L)
      ((s.header :: ALF s t key L) ++ BLF s t key L) := by
    intro L hL
    have hbase := h.chains L hL
    rw [towerF_split h key L] at hbase
    simpa using hbase
  refine ⟨?_, ?_, ?_, ?_, ?_, ?_, ?_, ?_, ?_, ?_, ?_, ?_⟩
  · rw [hrh, mem_tF'_iff h key]
    rintro (he | he)
    · exact hhne he
    · exact h.hmem he
  · have hnotin : s.next_id ∉ ALF s t key 0 ++ BLF s t key 0 := by
      rw [← t_splitF h key]
      intro hm
      exact htmem _ hm rfl
    have := h.nodup
    rw [t_splitF h key] at this
    exact List.nodup_middle.mpr (List.nodup_cons.mpr ⟨hnotin, this⟩)
  · intro p
    rw [hrh, mem_tF'_iff h key]
    by_cases hp : p = s.next_id
    · subst hp
      rw [hsnew]
      simp
    · rw [(fmeta_eq_elim (hmeta_old p hp)).2.2.2, h.dom p]
      constructor
      · rintro (he | he)
        · exact Or.inl he
        · exact Or.inr (Or.inr he)
      · rintro (he | rfl | he)
        · exact Or.inl he
        · exact absurd rfl hp
        · exact Or.inr he
  · intro p hp
    rw [hrn]
    by_cases hpe : p = s.next_id
    · exact hpe ▸ Nat.lt_succ_self _
    · rw [(fmeta_eq_elim (hmeta_old p hpe)).2.2.2] at hp
      exact Nat.lt_succ_of_lt (h.bound p hp)
  · rw [hrh, hrm, (fmeta_eq_elim (hmeta_old _ hhne)).2.2.1]
    exact h.hdr_len
  · rw [hrc, hrm]
    by_cases hgt : nl > s.cur_level
    · rw [if_pos hgt]
      exact hnl
    · rw [if_neg hgt]
      exact h.cur_le
  · intro p hp
    rcases (mem_tF'_iff h key p).mp hp with rfl | hpt
    · rw [hlennew]
      omega
    · rw [(fmeta_eq_elim (hmeta_t p hpt)).2.2.1]
      exact h.flen_pos p hpt
  · intro p hp
    rw [hrc]
    rcases (mem_tF'_iff h key p).mp hp with rfl | hpt
    · rw [hlennew]
      by_cases hgt : nl > s.cur_level <;> simp [hgt] <;> omega
    · rw [(fmeta_eq_elim (hmeta_t p hpt)).2.2.1]
      have := h.flen_le p hpt
      by_cases hgt : nl > s.cur_level <;> simp [hgt] <;> omega
  · rw [List.chain'_iff_pairwise, List.pairwise_map]
    have hpw := h.pairwise_keysF
    rw [t_splitF h key] at hpw
    rw [List.pairwise_append] at hpw
    rw [List.pairwise_append]
    refine ⟨?_, ?_, ?_⟩
    · refine hpw.1.imp_of_mem fun {a b} ha hb hab => ?_
      rw [hkey_t a ((ALF_sublist s t key 0).subset ha),
        hkey_t b ((ALF_sublist s t key 0).subset hb)]
      exact hab
    · rw [List.pairwise_cons]
      refine ⟨fun b hb => ?_, ?_⟩
      · rw [hknew, hkey_t b ((BLF_sublist s t key 0).subset hb)]
        exact hBLF_gt b hb
      · refine hpw.2.1.imp_of_mem fun {a b} ha hb hab => ?_
        rw [hkey_t a ((BLF_sublist s t key 0).subset ha),
          hkey_t b ((BLF_sublist s t key 0).subset hb)]
        exact hab
    · intro a ha b hb
      rw [List.mem_cons] at hb
      have hak : fkey s a < key := (mem_ALF ha).2.2
      rcases hb with rfl | hb
      · rw [hkey_t a ((ALF_sublist s t key 0).subset ha), hknew]
        exact hak
      · rw [hkey_t a ((ALF_sublist s t key 0).subset ha),
          hkey_t b ((BLF_sublist s t key 0).subset hb)]
        exact lt_trans hak (hBLF_gt b hb)
  · intro L hL
    rw [hrc] at hL
    rw [hrh, towerF_finsResult h key value hnl L]
    by_cases hc : L ≤ nl
    · rw [if_pos hc]
      have hshape : s.header :: (ALF s t key L ++ s.next_id :: BLF s t key L)
          = (s.header :: ALF s t key L) ++ (s.next_id :: BLF s t key L) := by
        simp
      rw [hshape, List.chain'_append]
      refine ⟨?_, ?_, ?_⟩
      · by_cases hcur : L ≤ s.cur_level
        · refine fchain'_congr (fun a ha => ?_) (hsplitL L hcur).left_of_append
          have hamem : a ∈ s.header :: ALF s t key L :=
            (List.dropLast_sublist _).subset ha
          have hane : a ≠ s.next_id := by
            rcases List.mem_cons.mp hamem with rfl | hmm
            · exact hhne
            · exact htmem _ ((ALF_sublist s t key L).subset hmm)
          rw [hfwd_old a L hane, if_neg]
          rintro ⟨-, hpa⟩
          exact dropLast_ne_getLastD (nodup_header_ALF h key L) a ha hpa.symm
        · rw [ALF_high h key (by omega)]
          exact List.chain'_singleton _
      · rw [List.chain'_cons']
        refine ⟨fun y hy => ?_, ?_⟩
        · unfold fstep
          rw [hfwd_new L, if_pos hc]
          exact hy
        · by_cases hcur : L ≤ s.cur_level
          · refine fchain'_congr (fun b hb => ?_) ((hsplitL L hcur).suffix ⟨_, rfl⟩)
            have hbB : b ∈ BLF s t key L := (List.dropLast_sublist _).subset hb
            have hbne : b ≠ s.next_id := htmem _ ((BLF_sublist s t key L).subset hbB)
            rw [hfwd_old b L hbne, if_neg]
            rintro ⟨-, hpb⟩
            exact BLF_ne_predAtF h hbB hpb
          · rw [BLF_high h key (by omega)]
            exact List.chain'_nil
      · intro x hx y hy
        rw [Option.mem_def, getLast?_cons_getLastD] at hx
        injection hx with hx
        rw [Option.mem_def, List.head?_cons] at hy
        injection hy with hy
        have hx' : x = predAtF s t key L := hx.symm
        unfold fstep
        rw [hx', ← hy, hfwd_old _ L (Nat.ne_of_lt (predAtF_lt_next h key L)),
          if_pos ⟨hc, rfl⟩]
    · rw [if_neg hc]
      have hcur : L ≤ s.cur_level := by
        by_cases hgt : nl > s.cur_level
        · rw [if_pos hgt] at hL
          omega
        · rw [if_neg hgt] at hL
          exact hL
      refine fchain'_congr (fun a ha => ?_) (h.chains L hcur)
      have hamem : a ∈ s.header :: towerF s t L :=
        (List.dropLast_sublist _).subset ha
      have hane : a ≠ s.next_id := by
        rcases List.mem_cons.mp hamem with rfl | hmm
        · exact hhne
        · exact htmem _ ((towerF_sublist s t L).subset hmm)
      rw [hfwd_old a L hane, if_neg (fun hcc => hc hcc.1)]
  · intro L hL
    rw [hrc] at hL
    rw [hrh, towerF_finsResult h key value hnl L]
    by_cases hc : L ≤ nl
    · rw [if_pos hc, getLastD_append_cons]
      rcases hB : BLF s t key L with _ | ⟨b, lb⟩
      · show ffwd (finsResult s key value nl) s.next_id L = none
        rw [hfwd_new L, if_pos hc, hB]
        rfl
      · rw [List.getLastD_cons]
        have hzB : lb.getLastD b ∈ BLF s t key L := by
          rw [hB]
          exact getLastD_mem_cons lb b
        have hzt : lb.getLastD b ∈ t := (BLF_sublist s t key L).subset hzB
        have hcur : L ≤ s.cur_level := by
          by_contra hcc
          have he : BLF s t key L = [] := BLF_high h key (by omega)
          rw [hB] at he
          exact absurd he (by simp)
        have hends := h.ends L hcur
        rw [towerF_split h key L, hB, getLastD_append_cons] at hends
        rw [hfwd_old _ L (htmem _ hzt), if_neg]
        · exact hends
        · rintro ⟨-, hpz⟩
          exact BLF_ne_predAtF h hzB hpz
    · rw [if_neg hc]
      have hcur : L ≤ s.cur_level := by
        by_cases hgt : nl > s.cur_level
        · rw [if_pos hgt] at hL
          omega
        · rw [if_neg hgt] at hL
          exact hL
      have hends := h.ends L hcur
      have hzne : (towerF s t L).getLastD s.header ≠ s.next_id := by
        rcases hT : towerF s t L with _ | ⟨c, lc⟩
        · exact hhne
        · rw [List.getLastD_cons]
          refine htmem _ ((towerF_sublist s t L).subset ?_)
          rw [hT]
          exact getLastD_mem_cons lc c
      rw [hfwd_old _ L hzne, if_neg (fun hcc => hc hcc.1)]
      exact hends
  · intro L hL
    rw [hrc] at hL
    have hc : ¬ L ≤ nl ∧ s.cur_level < L := by
      by_cases hgt : nl > s.cur_level
      · rw [if_pos hgt] at hL
        omega
      · rw [if_neg hgt] at hL
        omega
    rw [hrh, hfwd_old s.header L hhne, if_neg (fun hcc => hc.1 hcc.1)]
    exact h.high_empty L hc.2

/-! ### The two outcomes of `FatSkipList::insert` -/

theorem find?_congr {α : Type} (p q : α → Bool) :
    ∀ l : List α, (∀ x ∈ l, p x = q x) → l.find? p = l.find? q
  | [], _ => rfl
  | a :: l, h => by
    rw [List.find?_cons, List.find?_cons, h a (by simp)]
    cases hq : q a
    · exact find?_congr p q l fun x hx => h x (by simp [hx])
    · rfl

theorem towerF_fsetValue (s : FState) (p : Nat) (v : Int) (t : List Nat) (L : Nat) :
    towerF (fsetValue s p v) t L = towerF s t L :=
  List.filter_congr fun q _ => by rw [flen_fsetValue]

theorem ffound_fsetValue (s : FState) (p : Nat) (v : Int) (t : List Nat) (k : Int) :
    ffound (fsetValue s p v) t k = ffound s t k :=
  find?_congr _ _ t fun q _ => by rw [fkey_fsetValue]

/-- Overwriting one value preserves the representation invariant. -/
theorem fsetValue_wf {s t} (h : FWF s t) (p : Nat) (v : Int) :
    FWF (fsetValue s p v) t := by
  refine ⟨h.hmem, h.nodup, ?_, ?_, ?_, h.cur_le, ?_, ?_, ?_, ?_, ?_, ?_⟩
  · intro q
    rw [fsetValue_isSome]
    exact h.dom q
  · intro q hq
    rw [fsetValue_isSome] at hq
    exact h.bound q hq
  · rw [flen_fsetValue]
    exact h.hdr_len
  · intro q hq
    rw [flen_fsetValue]
    exact h.flen_pos q hq
  · intro q hq
    rw [flen_fsetValue]
    exact h.flen_le q hq
  · rw [show t.map (fkey (fsetValue s p v)) = t.map (fkey s) from
      List.map_congr_left fun q _ => fkey_fsetValue s p v q]
    exact h.sorted
  · intro L hL
    rw [towerF_fsetValue]
    exact fchain'_congr (fun a _ => ffwd_fsetValue s p v a L) (h.chains L hL)
  · intro L hL
    rw [towerF_fsetValue, ffwd_fsetValue]
    exact h.ends L hL
  · intro L hL
    rw [ffwd_fsetValue]
    exact h.high_empty L hL

/-- A duplicate key makes `FatSkipList::insert` overwrite the stored value
and return `false`. -/
theorem finsert_dup {s t} (h : FWF s t) {key : Int} {X : Nat}
    (hX : ffound s t key = some X) (value : Int) (nl : Nat) :
    finsert s key value nl = (fsetValue s X value, false)
      ∧ FWF (fsetValue s X value) t
      ∧ lookupVF (fsetValue s X value) t key = some value
      ∧ ∀ k', k' ≠ key →
          lookupVF (fsetValue s X value) t k' = lookupVF s t k' := by
  obtain ⟨hXt, hXk⟩ := ffound_mem hX
  have hmem0 : X ∈ towerF s t 0 := by
    rw [towerF_zero h]
    exact hXt
  have hcand : (ffind s key).1 = some X := by
    rw [(ffind_run h key).1]
    unfold BLF
    exact head_filter_ge (towerF_sorted h 0) hmem0 hXk
  have hwf2 := fsetValue_wf h X value
  refine ⟨?_, hwf2, ?_, ?_⟩
  · simp only [finsert, hcand]
    rw [if_pos hXk]
  · unfold lookupVF
    rw [ffound_fsetValue, hX, Option.map_some',
      fvalue_fsetValue s ((h.dom X).mpr (Or.inr hXt)) value]
  · intro k' hk'
    unfold lookupVF
    rw [ffound_fsetValue]
    rcases hY : ffound s t k' with _ | Y
    · rfl
    · obtain ⟨hYt, hYk⟩ := ffound_mem hY
      have hYX : Y ≠ X := fun he => hk' (by rw [← hYk, he, hXk])
      rw [Option.map_some', Option.map_some', fvalue_fsetValue_ne s X value hYX]

/-- A fresh key makes `FatSkipList::insert` splice a new node and return
`true`; the new state is well formed, maps `key` to `value`, and keeps every
other key unchanged. -/
theorem finsert_new {s t} (h : FWF s t) {key : Int} (hX : ffound s t key = none)
    (value : Int) {nl : Nat} (hnl : nl ≤ s.max_level) :
    finsert s key value nl = (finsResult s key value nl, true)
      ∧ FWF (finsResult s key value nl) (ALF s t key 0 ++ s.next_id :: BLF s t key 0)
      ∧ lookupVF (finsResult s key value nl)
          (ALF s t key 0 ++ s.next_id :: BLF s t key 0) key = some value
      ∧ ∀ k', k' ≠ key →
          lookupVF (finsResult s key value nl)
            (ALF s t key 0 ++ s.next_id :: BLF s t key 0) k' = lookupVF s t k' := by
  have hpair : finsertGo s key value nl (ffind s key).2
      = (finsResult s key value nl, true) := by
    unfold finsResult
    rw [finsertGo_eq]
  have heq : finsert s key value nl = (finsResult s key value nl, true) := by
    rcases hc : (ffind s key).1 with _ | b
    · simp only [finsert, hc]
      exact hpair
    · have hbk : fkey s b ≠ key := by
        intro hbk
        have hcand := (ffind_run h key).1
        rw [hc] at hcand
        have hbB := mem_BLF (List.mem_of_mem_head? (Option.mem_def.mpr hcand.symm))
        rw [ffound_of_mem h hbB.1 hbk] at hX
        exact absurd hX (by simp)
      simp only [finsert, hc]
      rw [if_neg hbk]
      exact hpair
  have hwf' := finsResult_wf h hX value hnl
  have hfacts := finsResult_facts h key value hnl
  have hknew := hfacts.2.2.2.1
  have hvnew := hfacts.2.2.2.2.1
  have hmeta_old := hfacts.2.2.1
  have hfd' : ffound (finsResult s key value nl)
      (ALF s t key 0 ++ s.next_id :: BLF s t key 0) key = some s.next_id :=
    ffound_of_mem hwf' ((mem_tF'_iff h key s.next_id).mpr (Or.inl rfl)) hknew
  refine ⟨heq, hwf', ?_, ?_⟩
  · unfold lookupVF
    rw [hfd', Option.map_some', hvnew]
  · intro k' hk'
    unfold lookupVF
    rcases hY : ffound s t k' with _ | Y
    · rw [show ffound (finsResult s key value nl)
          (ALF s t key 0 ++ s.next_id :: BLF s t key 0) k' = none from ?_]
      · rfl
      · unfold ffound
        rw [List.find?_eq_none]
        intro y hy
        rcases (mem_tF'_iff h key y).mp hy with rfl | hyt
        · simp only [decide_eq_true_eq, hknew]
          exact fun he => hk' he.symm
        · simp only [decide_eq_true_eq,
            (fmeta_eq_elim (hmeta_old y (ne_nextF_of_isSome h
              ((h.dom y).mpr (Or.inr hyt))))).1]
          unfold ffound at hY
          have := List.find?_eq_none.mp hY y hyt
          simpa using this
    · obtain ⟨hYt, hYk⟩ := ffound_mem hY
      have hYne := ne_nextF_of_isSome h ((h.dom Y).mpr (Or.inr hYt))
      have hkeq : fkey (finsResult s key value nl) Y = k' := by
        rw [(fmeta_eq_elim (hmeta_old Y hYne)).1]
        exact hYk
      rw [ffound_of_mem hwf' ((mem_tF'_iff h key Y).mpr (Or.inr hYt)) hkeq,
        Option.map_some', Option.map_some',
        (fmeta_eq_elim (hmeta_old Y hYne)).2.1]

/-! ### The two outcomes of `FatSkipList::remove` -/

/-- An absent key makes `FatSkipList::remove` return `false` with the state
untouched. -/
theorem fremove_absent {s t} (h : FWF s t) {key : Int}
    (hX : ffound s t key = none) : fremove s key = (s, false) := by
  rcases hc : (ffind s key).1 with _ | b
  · simp only [fremove, hc]
  · have hbk : fkey s b ≠ key := by
      intro hbk
      have hcand := (ffind_run h key).1
      rw [hc] at hcand
      have hbB := mem_BLF (List.mem_of_mem_head? (Option.mem_def.mpr hcand.symm))
      rw [ffound_of_mem h hbB.1 hbk] at hX
      exact absurd hX (by simp)
    simp only [fremove, hc]
    rw [if_pos hbk]

/-- Effect of the unlink loop of `FatSkipList::remove` with its `break`:
exactly the levels below the victim's height are spliced. -/
theorem fremSplice_go (upds : List (Option Nat)) (X : Nat) (s : FState) (hX0 : Nat) :
    ∀ (n a : Nat) (s1 : FState),
      (∀ q L, ffwd s1 q L =
          if L < a ∧ L < hX0 ∧ (upds.getD L none).getD 0 = q then ffwd s X L
          else ffwd s q L) →
      (∀ q, fmeta s1 q = fmeta s q) →
      (∀ L, L < a + n → (upds.getD L none).getD 0 ≠ X) →
      (∀ L, L < a + n →
          (ffwd s ((upds.getD L none).getD 0) L = some X ↔ L < hX0)) →
      (∀ L, L < a + n → L < hX0 →
          L < (fnode s ((upds.getD L none).getD 0)).forward.length) →
      (∀ q L, ffwd (fremoveSplice upds X (List.range' a n) s1) q L =
          if L < a + n ∧ L < hX0 ∧ (upds.getD L none).getD 0 = q then ffwd s X L
          else ffwd s q L)
        ∧ ∀ q, fmeta (fremoveSplice upds X (List.range' a n) s1) q = fmeta s q
  | 0, a, s1, H1, H2, _, _, _ => by
    rw [List.range'_zero]
    exact ⟨fun q L => H1 q L, H2⟩
  | n + 1, a, s1, H1, H2, hne, hcond, hlen => by
    rw [List.range']
    have hXrow : ∀ L, ffwd s1 X L = ffwd s X L := by
      intro L
      rw [H1]
      by_cases hL : L < a
      · rw [if_neg]
        rintro ⟨-, -, hu⟩
        exact hne L (by omega) hu
      · rw [if_neg (fun hcc => hL hcc.1)]
    have hread : ffwd s1 ((upds.getD a none).getD 0) a
        = ffwd s ((upds.getD a none).getD 0) a := by
      rw [H1, if_neg (fun hcc => Nat.lt_irrefl a hcc.1)]
    by_cases hc : a < hX0
    · have hcs : ffwd s1 ((upds.getD a none).getD 0) a = some X := by
        rw [hread]
        exact (hcond a (by omega)).mpr hc
      simp only [fremoveSplice]
      rw [if_pos hcs]
      have hlen1 : a < (fnode s1 ((upds.getD a none).getD 0)).forward.length := by
        rw [(fmeta_eq_elim (H2 _)).2.2.1]
        exact hlen a (by omega) hc
      have H1q : ∀ q L,
          ffwd (fsetFwd s1 ((upds.getD a none).getD 0) a (ffwd s1 X a)) q L =
            if L < a + 1 ∧ L < hX0 ∧ (upds.getD L none).getD 0 = q then ffwd s X L
            else ffwd s q L := by
        intro q L
        rw [ffwd_fsetFwd]
        by_cases h1 : q = (upds.getD a none).getD 0 ∧ L = a
        · obtain ⟨rfl, rfl⟩ := h1
          rw [if_pos ⟨rfl, rfl, hlen1⟩, hXrow, if_pos ⟨by omega, hc, rfl⟩]
        · rw [if_neg (fun hcc => h1 ⟨hcc.1, hcc.2.1⟩), H1 q L]
          by_cases h2 : L < hX0 ∧ (upds.getD L none).getD 0 = q
          · by_cases h3 : L = a
            · subst h3
              exact absurd ⟨h2.2.symm, rfl⟩ h1
            · exact if_congr (by
                constructor <;> rintro ⟨g1, g2, g3⟩ <;> exact ⟨by omega, g2, g3⟩)
                rfl rfl
          · rw [if_neg (fun hcc => h2 ⟨hcc.2.1, hcc.2.2⟩),
              if_neg (fun hcc => h2 ⟨hcc.2.1, hcc.2.2⟩)]
      have hrec := fremSplice_go upds X s hX0 n (a + 1)
        (fsetFwd s1 ((upds.getD a none).getD 0) a (ffwd s1 X a))
        H1q (fun q => (fmeta_fsetFwd _ _ _ _ q).trans (H2 q))
        (fun L hL => hne L (by omega)) (fun L hL => hcond L (by omega))
        (fun L hL => hlen L (by omega))
      refine ⟨fun q L => ?_, hrec.2⟩
      rw [hrec.1 q L]
      exact if_congr (by
        constructor <;> rintro ⟨g1, g2, g3⟩ <;> exact ⟨by omega, g2, g3⟩) rfl rfl
    · have hcs : ¬ ffwd s1 ((upds.getD a none).getD 0) a = some X := by
        rw [hread]
        intro hcc
        exact hc ((hcond a (by omega)).mp hcc)
      simp only [fremoveSplice]
      rw [if_neg hcs]
      refine ⟨fun q L => ?_, H2⟩
      rw [H1 q L]
      exact if_congr (by
        constructor <;> rintro ⟨g1, g2, g3⟩ <;> exact ⟨by omega, g2, g3⟩) rfl rfl

theorem fremoveSplice_rec (upds : List (Option Nat)) (X : Nat) :
    ∀ (ls : List Nat) (st : FState),
      ((fremoveSplice upds X ls st).header = st.header)
        ∧ ((fremoveSplice upds X ls st).cur_level = st.cur_level)
        ∧ ((fremoveSplice upds X ls st).max_level = st.max_level)
        ∧ ((fremoveSplice upds X ls st).probability = st.probability)
        ∧ ((fremoveSplice upds X ls st).next_id = st.next_id)
  | [], st => ⟨rfl, rfl, rfl, rfl, rfl⟩
  | level :: rest, st => by
    simp only [fremoveSplice]
    by_cases hcond : ffwd st ((upds.getD level none).getD 0) level = some X
    · rw [if_pos hcond]
      exact fremoveSplice_rec upds X rest _
    · rw [if_neg hcond]
      exact ⟨rfl, rfl, rfl, rfl, rfl⟩

/-- The `cur_level_` shrink loop: it never grows the level and every skipped
level has an empty header pointer. -/
theorem fshrink_spec (s : FState) :
    ∀ c : Nat, fshrink s c ≤ c
      ∧ (∀ L, fshrink s c < L → L ≤ c → ffwd s s.header L = none)
  | 0 => ⟨le_rfl, fun L h1 h2 => absurd (lt_of_lt_of_le h1 h2) (lt_irrefl 0)⟩
  | c + 1 => by
    rw [fshrink]
    by_cases hc : ffwd s s.header (c + 1) = none
    · rw [if_pos hc]
      have ih := fshrink_spec s c
      refine ⟨le_trans ih.1 (by omega), fun L h1 h2 => ?_⟩
      by_cases hL : L ≤ c
      · exact ih.2 L h1 hL
      · rw [show L = c + 1 by omega]
        exact hc
    · rw [if_neg hc]
      exact ⟨le_rfl, fun L h1 h2 => by omega⟩

/-- The state of a successful `FatSkipList::remove` before the level shrink. -/
def fremPre (s : FState) (key : Int) (X : Nat) : FState :=
  fdelete (fremoveSplice (ffind s key).2 X (List.range (s.cur_level + 1)) s) X

/-- The final state of a successful `FatSkipList::remove`. -/
def fremResult (s : FState) (key : Int) (X : Nat) : FState :=
  { fremPre s key X with
    cur_level := fshrink (fremPre s key X) (fremPre s key X).cur_level }

theorem predAtF_ne_found {s t} (h : FWF s t) {key : Int} {X : Nat}
    (hX : ffound s t key = some X) (L : Nat) : predAtF s t key L ≠ X := by
  obtain ⟨hXt, hXk⟩ := ffound_mem hX
  rcases @predAtF_mem_or s t key L with hp | hp
  · rw [hp]
    exact fun he => h.hmem (he ▸ hXt)
  · intro he
    have := (mem_ALF hp).2.2
    rw [he, hXk] at this
    exact lt_irrefl key this

theorem BLF_cons_found {s t} (h : FWF s t) {key : Int} {X : Nat}
    (hX : ffound s t key = some X) {L : Nat} (hL : L < (fnode s X).forward.length) :
    BLF s t key L = X :: (BLF s t key L).tail := by
  obtain ⟨hXt, hXk⟩ := ffound_mem hX
  have hmem : X ∈ towerF s t L := List.mem_filter.mpr ⟨hXt, by simpa using hL⟩
  have hhd := head_filter_ge (f := fkey s) (k := key) (towerF_sorted h L) hmem hXk
  rcases hB : BLF s t key L with _ | ⟨y, tl⟩
  · unfold BLF at hB
    rw [hB] at hhd
    exact absurd hhd (by simp)
  · unfold BLF at hB
    rw [hB] at hhd
    injection hhd with hhd
    rw [hhd]
    rfl

theorem ffwd_found_nextF {s t} (h : FWF s t) {key : Int} {X : Nat}
    (hX : ffound s t key = some X) {L : Nat} (hL : L < (fnode s X).forward.length) :
    ffwd s X L = ((BLF s t key L).tail).head? := by
  obtain ⟨hXt, -⟩ := ffound_mem hX
  have hLcur : L ≤ s.cur_level := by
    have := h.flen_le X hXt
    omega
  have hbase := h.chains L hLcur
  rw [towerF_split h key L, BLF_cons_found h hX hL] at hbase
  rcases htl : (BLF s t key L).tail with _ | ⟨c, lc⟩
  · have hends := h.ends L hLcur
    rw [towerF_split h key L, BLF_cons_found h hX hL, htl,
      getLastD_append_cons] at hends
    simpa using hends
  · rw [htl] at hbase
    have hsuffix : List.Chain' (fstep s L) (X :: c :: lc) :=
      hbase.suffix ⟨s.header :: ALF s t key L, by simp⟩
    rw [List.head?_cons]
    exact (List.chain'_cons.mp hsuffix).1

theorem mem_tF''_iff {s t} (h : FWF s t) {key : Int} {X : Nat}
    (hX : ffound s t key = some X) (q : Nat) :
    q ∈ ALF s t key 0 ++ (BLF s t key 0).tail ↔ (q ∈ t ∧ q ≠ X) := by
  obtain ⟨hXt, hXk⟩ := ffound_mem hX
  have hX0 : 0 < (fnode s X).forward.length := h.flen_pos X hXt
  have hts : t = ALF s t key 0 ++ X :: (BLF s t key 0).tail := by
    conv_lhs => rw [t_splitF h key, BLF_cons_found h hX hX0]
  have hnd := h.nodup
  rw [hts] at hnd
  have hXnot : X ∉ ALF s t key 0 ++ (BLF s t key 0).tail :=
    (List.nodup_cons.mp (List.nodup_middle.mp hnd)).1
  constructor
  · intro hq
    refine ⟨?_, fun he => hXnot (he ▸ hq)⟩
    rw [hts]
    rcases List.mem_append.mp hq with hq | hq
    · exact List.mem_append_left _ hq
    · exact List.mem_append_right _ (List.mem_cons_of_mem _ hq)
  · rintro ⟨hq, hqX⟩
    rw [hts, List.mem_append, List.mem_cons] at hq
    rcases hq with hq | hq | hq
    · exact List.mem_append_left _ hq
    · exact absurd hq hqX
    · exact List.mem_append_right _ hq

theorem fremPre_rec (s : FState) (key : Int) (X : Nat) :
    (fremPre s key X).header = s.header
      ∧ (fremPre s key X).cur_level = s.cur_level
      ∧ (fremPre s key X).max_level = s.max_level
      ∧ (fremPre s key X).probability = s.probability
      ∧ (fremPre s key X).next_id = s.next_id := by
  unfold fremPre fdelete
  have := fremoveSplice_rec (ffind s key).2 X (List.range (s.cur_level + 1)) s
  exact ⟨this.1, this.2.1, this.2.2.1, this.2.2.2.1, this.2.2.2.2⟩

/-- Pointer/metadata characterisation of the pre-shrink state after removing
`X`. -/
theorem fremPre_facts {s t} (h : FWF s t) {key : Int} {X : Nat}
    (hX : ffound s t key = some X) :
    (∀ q L, q ≠ X →
        ffwd (fremPre s key X) q L =
          if L < (fnode s X).forward.length ∧ predAtF s t key L = q then ffwd s X L
          else ffwd s q L)
      ∧ (∀ q, q ≠ X → fmeta (fremPre s key X) q = fmeta s q)
      ∧ ((fremPre s key X).heap X = none) := by
  obtain ⟨hXt, hXk⟩ := ffound_mem hX
  have hflen := h.flen_le X hXt
  have hu : ∀ L, L ≤ s.cur_level →
      (((ffind s key).2.getD L none).getD 0) = predAtF s t key L := by
    intro L hL
    rw [(ffind_run h key).2 L hL]
    rfl
  have hfold := fremSplice_go (ffind s key).2 X s ((fnode s X).forward.length)
    (s.cur_level + 1) 0 s
    (fun q L => by rw [if_neg (fun hcc => Nat.not_lt_zero L hcc.1)])
    (fun q => rfl)
    (fun L hL => by
      rw [hu L (by omega)]
      exact predAtF_ne_found h hX L)
    (fun L hL => by
      rw [hu L (by omega), ffwd_predAtF h key (by omega)]
      constructor
      · intro hh
        exact (mem_BLF (List.mem_of_mem_head? (Option.mem_def.mpr hh))).2.1
      · intro hL2
        rw [BLF_cons_found h hX hL2]
        rfl)
    (fun L hL _ => by
      rw [hu L (by omega)]
      exact predAtF_len h key (by have := h.cur_le; omega))
  have hrr : List.range (s.cur_level + 1) = List.range' 0 (s.cur_level + 1) :=
    List.range_eq_range' _
  refine ⟨fun q L hq => ?_, fun q hq => ?_, ?_⟩
  · show ffwd (fdelete (fremoveSplice (ffind s key).2 X
        (List.range (s.cur_level + 1)) s) X) q L = _
    rw [ffwd_fdelete_ne _ _ hq, hrr, hfold.1 q L]
    have hiff : (L < 0 + (s.cur_level + 1) ∧ L < (fnode s X).forward.length
          ∧ ((ffind s key).2.getD L none).getD 0 = q)
        ↔ (L < (fnode s X).forward.length ∧ predAtF s t key L = q) := by
      constructor
      · rintro ⟨h1, h2, h3⟩
        rw [hu L (by omega)] at h3
        exact ⟨h2, h3⟩
      · rintro ⟨h1, h2⟩
        refine ⟨by omega, h1, ?_⟩
        rw [hu L (by omega)]
        exact h2
    rw [if_congr hiff rfl rfl]
  · show fmeta (fdelete (fremoveSplice (ffind s key).2 X
        (List.range (s.cur_level + 1)) s) X) q = _
    rw [fmeta_fdelete_ne _ _ hq, hrr, hfold.2 q]
  · unfold fremPre fdelete
    simp

/-- The tower of the pre-shrink state after removing `X`, level by level. -/
theorem towerF_fremPre {s t} (h : FWF s t) {key : Int} {X : Nat}
    (hX : ffound s t key = some X) (L : Nat) :
    towerF (fremPre s key X) (ALF s t key 0 ++ (BLF s t key 0).tail) L
      = if L < (fnode s X).forward.length then ALF s t key L ++ (BLF s t key L).tail
        else towerF s t L := by
  obtain ⟨hXt, hXk⟩ := ffound_mem hX
  have hmeta := (fremPre_facts h hX).2.1
  have hlen_pres : ∀ q ∈ ALF s t key 0 ++ (BLF s t key 0).tail,
      (fnode (fremPre s key X) q).forward.length = (fnode s q).forward.length := by
    intro q hq
    exact (fmeta_eq_elim (hmeta q ((mem_tF''_iff h hX q).mp hq).2)).2.2.1
  unfold towerF
  rw [List.filter_append]
  have h1 : (ALF s t key 0).filter
      (fun p => decide (L < (fnode (fremPre s key X) p).forward.length))
      = (ALF s t key 0).filter (fun p => decide (L < (fnode s p).forward.length)) :=
    List.filter_congr fun p hp => by rw [hlen_pres p (List.mem_append_left _ hp)]
  have h2 : ((BLF s t key 0).tail).filter
      (fun p => decide (L < (fnode (fremPre s key X) p).forward.length))
      = ((BLF s t key 0).tail).filter
        (fun p => decide (L < (fnode s p).forward.length)) :=
    List.filter_congr fun p hp => by rw [hlen_pres p (List.mem_append_right _ hp)]
  rw [h1, h2]
  have hALF : (ALF s t key 0).filter (fun p => decide (L < (fnode s p).forward.length))
      = ALF s t key L := by
    show ((towerF s t 0).filter _).filter _ = _
    rw [towerF_zero h]
    unfold ALF towerF
    rw [List.filter_filter, List.filter_filter]
    exact List.filter_congr fun p hp => Bool.and_comm _ _
  have hBLF0 : (BLF s t key 0).filter (fun p => decide (L < (fnode s p).forward.length))
      = BLF s t key L := by
    show ((towerF s t 0).filter _).filter _ = _
    rw [towerF_zero h]
    unfold BLF towerF
    rw [List.filter_filter, List.filter_filter]
    exact List.filter_congr fun p hp => Bool.and_comm _ _
  have hX0 : 0 < (fnode s X).forward.length := h.flen_pos X hXt
  rw [BLF_cons_found h hX hX0, List.filter_cons] at hBLF0
  by_cases hc : L < (fnode s X).forward.length
  · rw [if_pos hc]
    rw [if_pos (by simpa using hc)] at hBLF0
    rw [BLF_cons_found h hX hc] at hBLF0
    injection hBLF0 with hheq hBLF0
    rw [hALF, hBLF0]
  · rw [if_neg hc]
    rw [if_neg (by simpa using hc)] at hBLF0
    rw [hALF, hBLF0]
    exact (towerF_split h key L).symm

/-- The pre-shrink state after a successful remove satisfies the invariant
with the victim deleted from the live list. -/
theorem fremPre_wf {s t} (h : FWF s t) {key : Int} {X : Nat}
    (hX : ffound s t key = some X) :
    FWF (fremPre s key X) (ALF s t key 0 ++ (BLF s t key 0).tail) := by
  obtain ⟨hXt, hXk⟩ := ffound_mem hX
  have hfacts := fremPre_facts h hX
  have hfwd := hfacts.1
  have hmeta := hfacts.2.1
  have hheapX := hfacts.2.2
  obtain ⟨hrh, hrc, hrm, hrp, hrn⟩ := fremPre_rec s key X
  have hX0 : 0 < (fnode s X).forward.length := h.flen_pos X hXt
  have hflen := h.flen_le X hXt
  have hXh : X ≠ s.header := fun he => h.hmem (he ▸ hXt)
  have hALneX : ∀ {L : Nat} {a : Nat}, a ∈ ALF s t key L → a ≠ X := by
    intro L a ha he
    have := (mem_ALF ha).2.2
    rw [he, hXk] at this
    exact lt_irrefl key this
  have hBLtlneX : ∀ {L : Nat}, L < (fnode s X).forward.length →
      ∀ {b : Nat}, b ∈ (BLF s t key L).tail → b ≠ X := by
    intro L hL b hb he
    have hnd : (BLF s t key L).Nodup := h.nodup.sublist (BLF_sublist s t key L)
    rw [BLF_cons_found h hX hL] at hnd
    exact (List.nodup_cons.mp hnd).1 (he ▸ hb)
  have hBLtl_mem : ∀ {L : Nat}, L < (fnode s X).forward.length →
      ∀ {b : Nat}, b ∈ (BLF s t key L).tail → b ∈ BLF s t key L := by
    intro L hL b hb
    rw [BLF_cons_found h hX hL]
    exact List.mem_cons_of_mem _ hb
  have hXnotT : ∀ {L : Nat}, ¬ L < (fnode s X).forward.length →
      X ∉ towerF s t L := by
    intro L hL hmm
    have := List.mem_filter.mp hmm
    rw [decide_eq_true_eq] at this
    exact hL this.2
  refine ⟨?_, ?_, ?_, ?_, ?_, ?_, ?_, ?_, ?_, ?_, ?_, ?_⟩
  · rw [hrh]
    intro hm
    exact h.hmem ((mem_tF''_iff h hX _).mp hm).1
  · have hnd := h.nodup
    conv at hnd => rw [t_splitF h key, BLF_cons_found h hX hX0]
    exact (List.nodup_cons.mp (List.nodup_middle.mp hnd)).2
  · intro p
    rw [hrh, mem_tF''_iff h hX p]
    by_cases hp : p = X
    · subst hp
      rw [hheapX]
      simp only [Option.isSome_none, Bool.false_eq_true, false_iff]
      rintro (he | ⟨-, he⟩)
      · exact hXh he
      · exact he rfl
    · rw [(fmeta_eq_elim (hmeta p hp)).2.2.2, h.dom p]
      constructor
      · rintro (he | he)
        · exact Or.inl he
        · exact Or.inr ⟨he, hp⟩
      · rintro (he | ⟨he, -⟩)
        · exact Or.inl he
        · exact Or.inr he
  · intro p hp
    rw [hrn]
    by_cases hpe : p = X
    · rw [hpe, hheapX] at hp
      exact absurd hp (by simp)
    · rw [(fmeta_eq_elim (hmeta p hpe)).2.2.2] at hp
      exact h.bound p hp
  · rw [hrh, hrm, (fmeta_eq_elim (hmeta _ (fun he => hXh he.symm))).2.2.1]
    exact h.hdr_len
  · rw [hrc, hrm]
    exact h.cur_le
  · intro p hp
    obtain ⟨hpt, hpX⟩ := (mem_tF''_iff h hX p).mp hp
    rw [(fmeta_eq_elim (hmeta p hpX)).2.2.1]
    exact h.flen_pos p hpt
  · intro p hp
    obtain ⟨hpt, hpX⟩ := (mem_tF''_iff h hX p).mp hp
    rw [hrc, (fmeta_eq_elim (hmeta p hpX)).2.2.1]
    exact h.flen_le p hpt
  · rw [List.chain'_iff_pairwise, List.pairwise_map]
    have hsub : List.Sublist (ALF s t key 0 ++ (BLF s t key 0).tail) t := by
      conv_rhs => rw [t_splitF h key]
      exact (List.tail_sublist _).append_left _
    refine (h.pairwise_keysF.sublist hsub).imp_of_mem fun {a b} ha hb hab => ?_
    rw [(fmeta_eq_elim (hmeta a ((mem_tF''_iff h hX a).mp ha).2)).1,
      (fmeta_eq_elim (hmeta b ((mem_tF''_iff h hX b).mp hb).2)).1]
    exact hab
  · intro L hL
    rw [hrc] at hL
    rw [hrh, towerF_fremPre h hX L]
    by_cases hc : L < (fnode s X).forward.length
    · rw [if_pos hc]
      have hshape : s.header :: (ALF s t key L ++ (BLF s t key L).tail)
          = (s.header :: ALF s t key L) ++ (BLF s t key L).tail := by
        simp
      rw [hshape, List.chain'_append]
      have hbase := h.chains L hL
      rw [towerF_split h key L, BLF_cons_found h hX hc] at hbase
      have hbase1 : List.Chain' (fstep s L)
          ((s.header :: ALF s t key L) ++ (X :: (BLF s t key L).tail)) := by
        simpa using hbase
      have hbase2 : List.Chain' (fstep s L)
          ((s.header :: ALF s t key L ++ [X]) ++ (BLF s t key L).tail) := by
        simpa [List.append_assoc] using hbase
      refine ⟨?_, ?_, ?_⟩
      · refine fchain'_congr (fun a ha => ?_) hbase1.left_of_append
        have hamem : a ∈ s.header :: ALF s t key L :=
          (List.dropLast_sublist _).subset ha
        have haX : a ≠ X := by
          rcases List.mem_cons.mp hamem with rfl | hmm
          · exact fun he => hXh he.symm
          · exact hALneX hmm
        rw [hfwd a L haX, if_neg]
        rintro ⟨-, hpa⟩
        exact dropLast_ne_getLastD (nodup_header_ALF h key L) a ha hpa.symm
      · refine fchain'_congr (fun b hb => ?_) (hbase2.suffix ⟨_, rfl⟩)
        have hbtl : b ∈ (BLF s t key L).tail := (List.dropLast_sublist _).subset hb
        rw [hfwd b L (hBLtlneX hc hbtl), if_neg]
        rintro ⟨-, hpb⟩
        exact BLF_ne_predAtF h (hBLtl_mem hc hbtl) hpb
      · intro x hx y hy
        rw [Option.mem_def, getLast?_cons_getLastD] at hx
        injection hx with hx
        rw [Option.mem_def] at hy
        have hx' : x = predAtF s t key L := hx.symm
        unfold fstep
        rw [hx', hfwd _ L (predAtF_ne_found h hX L), if_pos ⟨hc, rfl⟩,
          ffwd_found_nextF h hX hc]
        exact hy
    · rw [if_neg hc]
      refine fchain'_congr (fun a ha => ?_) (h.chains L hL)
      have hamem : a ∈ s.header :: towerF s t L :=
        (List.dropLast_sublist _).subset ha
      have haX : a ≠ X := by
        rcases List.mem_cons.mp hamem with rfl | hmm
        · exact fun he => hXh he.symm
        · exact fun he => hXnotT hc (he ▸ hmm)
      rw [hfwd a L haX, if_neg (fun hcc => hc hcc.1)]
  · intro L hL
    rw [hrc] at hL
    rw [hrh, towerF_fremPre h hX L]
    by_cases hc : L < (fnode s X).forward.length
    · rw [if_pos hc]
      rcases htl : (BLF s t key L).tail with _ | ⟨c, lc⟩
      · rw [List.append_nil]
        show ffwd (fremPre s key X) (predAtF s t key L) L = none
        rw [hfwd _ L (predAtF_ne_found h hX L), if_pos ⟨hc, rfl⟩,
          ffwd_found_nextF h hX hc, htl]
        rfl
      · rw [getLastD_append_cons]
        have hzt : lc.getLastD c ∈ (BLF s t key L).tail := by
          rw [htl]
          exact getLastD_mem_cons lc c
        have hends := h.ends L hL
        rw [towerF_split h key L, BLF_cons_found h hX hc, htl,
          getLastD_append_cons, List.getLastD_cons] at hends
        rw [hfwd _ L (hBLtlneX hc hzt), if_neg]
        · exact hends
        · rintro ⟨-, hpz⟩
          exact BLF_ne_predAtF h (hBLtl_mem hc hzt) hpz
    · rw [if_neg hc]
      have hends := h.ends L hL
      have hzX : (towerF s t L).getLastD s.header ≠ X := by
        rcases hT : towerF s t L with _ | ⟨c, lc⟩
        · exact fun he => hXh he.symm
        · rw [List.getLastD_cons]
          intro he
          refine hXnotT hc ?_
          rw [hT, ← he]
          exact getLastD_mem_cons lc c
      rw [hfwd _ L hzX, if_neg (fun hcc => hc hcc.1)]
      exact hends
  · intro L hL
    rw [hrc] at hL
    rw [hrh, hfwd s.header L (fun he => hXh he.symm), if_neg]
    · exact h.high_empty L hL
    · rintro ⟨hcc, -⟩
      omega

/-- Shrinking `cur_level_` with the post-delete loop preserves the
invariant. -/
theorem fshrink_wf {s1 : FState} {t : List Nat} (h : FWF s1 t) :
    FWF { s1 with cur_level := fshrink s1 s1.cur_level } t := by
  have hspec := fshrink_spec s1 s1.cur_level
  refine ⟨h.hmem, h.nodup, h.dom, h.bound, h.hdr_len,
    le_trans hspec.1 h.cur_le, h.flen_pos, ?_, h.sorted, ?_, ?_, ?_⟩
  · intro p hp
    show (fnode s1 p).forward.length ≤ fshrink s1 s1.cur_level + 1
    by_contra hgt
    have hlen := h.flen_le p hp
    have hc1 : fshrink s1 s1.cur_level + 1 ≤ s1.cur_level := by omega
    have hmemT : p ∈ towerF s1 t (fshrink s1 s1.cur_level + 1) :=
      List.mem_filter.mpr ⟨hp, by simpa using by omega⟩
    have hch := h.chains (fshrink s1 s1.cur_level + 1) hc1
    rcases hT : towerF s1 t (fshrink s1 s1.cur_level + 1) with _ | ⟨c, lc⟩
    · rw [hT] at hmemT
      exact absurd hmemT (List.not_mem_nil _)
    · rw [hT] at hch
      have hlink := (List.chain'_cons.mp hch).1
      unfold fstep at hlink
      rw [hspec.2 (fshrink s1 s1.cur_level + 1) (by omega) hc1] at hlink
      exact absurd hlink (by simp)
  · intro L hL
    exact h.chains L (le_trans hL hspec.1)
  · intro L hL
    exact h.ends L (le_trans hL hspec.1)
  · intro L hL
    by_cases hle : L ≤ s1.cur_level
    · exact hspec.2 L hL hle
    · exact h.high_empty L (by omega)

/-- The state after a successful remove satisfies the invariant. -/
theorem fremResult_wf {s t} (h : FWF s t) {key : Int} {X : Nat}
    (hX : ffound s t key = some X) :
    FWF (fremResult s key X) (ALF s t key 0 ++ (BLF s t key 0).tail) :=
  fshrink_wf (fremPre_wf h hX)

/-- A present key is removed: `true` is returned, the key is gone, all other
keys are untouched. -/
theorem fremove_present {s t} (h : FWF s t) {key : Int} {X : Nat}
    (hX : ffound s t key = some X) :
    fremove s key = (fremResult s key X, true)
      ∧ FWF (fremResult s key X) (ALF s t key 0 ++ (BLF s t key 0).tail)
      ∧ lookupVF (fremResult s key X) (ALF s t key 0 ++ (BLF s t key 0).tail) key
          = none
      ∧ ∀ k', k' ≠ key →
          lookupVF (fremResult s key X) (ALF s t key 0 ++ (BLF s t key 0).tail) k'
            = lookupVF s t k' := by
  obtain ⟨hXt, hXk⟩ := ffound_mem hX
  have hwf2 := fremResult_wf h hX
  have hmetaP := (fremPre_facts h hX).2.1
  have hmeta : ∀ q, q ≠ X → fmeta (fremResult s key X) q = fmeta s q := by
    intro q hq
    exact hmetaP q hq
  have heq : fremove s key = (fremResult s key X, true) := by
    have hmem0 : X ∈ towerF s t 0 := by
      rw [towerF_zero h]
      exact hXt
    have hcand : (ffind s key).1 = some X := by
      rw [(ffind_run h key).1]
      unfold BLF
      exact head_filter_ge (towerF_sorted h 0) hmem0 hXk
    simp only [fremove, hcand]
    rw [if_neg (fun hne => hne hXk)]
    rfl
  refine ⟨heq, hwf2, ?_, ?_⟩
  · unfold lookupVF ffound
    rw [List.find?_eq_none.mpr, Option.map_none']
    intro y hy
    obtain ⟨hyt, hyX⟩ := (mem_tF''_iff h hX y).mp hy
    simp only [decide_eq_true_eq, (fmeta_eq_elim (hmeta y hyX)).1]
    intro he
    exact hyX (h.key_injF hyt hXt (he.trans hXk.symm))
  · intro k' hk'
    rcases hY : ffound s t k' with _ | Y
    · have h2 : ffound (fremResult s key X)
          (ALF s t key 0 ++ (BLF s t key 0).tail) k' = none := by
        unfold ffound
        rw [List.find?_eq_none]
        intro y hy
        obtain ⟨hyt, hyX⟩ := (mem_tF''_iff h hX y).mp hy
        simp only [decide_eq_true_eq, (fmeta_eq_elim (hmeta y hyX)).1]
        unfold ffound at hY
        have := List.find?_eq_none.mp hY y hyt
        simpa using this
      unfold lookupVF
      rw [h2, hY]
      rfl
    · obtain ⟨hYt, hYk⟩ := ffound_mem hY
      have hYX : Y ≠ X := fun he => hk' (by rw [← hYk, he, hXk])
      have hkeq : fkey (fremResult s key X) Y = k' := by
        rw [(fmeta_eq_elim (hmeta Y hYX)).1]
        exact hYk
      unfold lookupVF
      rw [ffound_of_mem hwf2 ((mem_tF''_iff h hX Y).mpr ⟨hYt, hYX⟩) hkeq, hY,
        Option.map_some', Option.map_some', (fmeta_eq_elim (hmeta Y hYX)).2.1]

/-! ### `for_each` and construction for the Fat variant -/

theorem fforEachAux_run (s : FState) :
    ∀ (l : List Nat) (d : Nat) (fuel : Nat),
      List.Chain' (fstep s 0) (d :: l) →
      ffwd s (l.getLastD d) 0 = none →
      l.length ≤ fuel →
      fforEachAux s fuel (ffwd s d 0)
        = l.map fun p => ((fnode s p).key, (fnode s p).value)
  | [], d, fuel, _, hend, _ => by
    rw [show ffwd s d 0 = none from hend]
    cases fuel <;> rfl
  | a :: l, d, fuel, hch, hend, hlen => by
    cases fuel with
    | zero => exact absurd hlen (by simp)
    | succ f =>
      have hlink : ffwd s d 0 = some a := (List.chain'_cons.mp hch).1
      rw [hlink]
      show ((fnode s a).key, (fnode s a).value) :: fforEachAux s f (ffwd s a 0)
        = (a :: l).map fun p => ((fnode s p).key, (fnode s p).value)
      rw [List.map_cons]
      congr 1
      exact fforEachAux_run s l a f (List.chain'_cons.mp hch).2
        (by rw [List.getLastD_cons] at hend; exact hend)
        (by simpa using Nat.le_of_succ_le_succ hlen)

/-- `FatSkipList::for_each` yields exactly the live pairs in key order. -/
theorem fforEach_run {s t} (h : FWF s t) :
    fforEach s = t.map fun p => ((fnode s p).key, (fnode s p).value) := by
  have hchain := h.chains 0 (Nat.zero_le _)
  rw [towerF_zero h] at hchain
  have hend := h.ends 0 (Nat.zero_le _)
  rw [towerF_zero h] at hend
  unfold fforEach
  exact fforEachAux_run s t s.header s.next_id hchain hend h.length_leF

/-- The `FatSkipList` constructor establishes the invariant with no live
nodes. -/
theorem finit_wf (max_level : Nat) (p : ℚ) : FWF (finit max_level p) [] := by
  refine ⟨?_, ?_, ?_, ?_, ?_, ?_, ?_, ?_, ?_, ?_, ?_, ?_⟩
  · simp
  · exact List.nodup_nil
  · intro q
    show ((finit max_level p).heap q).isSome = true ↔ q = 0 ∨ q ∈ ([] : List Nat)
    unfold finit
    by_cases h0 : q = 0 <;> simp [h0]
  · intro q hq
    show q < 1
    unfold finit at hq
    by_cases h0 : q = 0
    · omega
    · simp [h0] at hq
  · show (fnode (finit max_level p) 0).forward.length = max_level + 1
    unfold fnode finit
    simp
  · exact Nat.zero_le _
  · intro q hq
    exact absurd hq (List.not_mem_nil q)
  · intro q hq
    exact absurd hq (List.not_mem_nil q)
  · simp [List.chain'_nil]
  · intro L hL
    show List.Chain' (fstep (finit max_level p) L)
      (0 :: towerF (finit max_level p) [] L)
    have htow : towerF (finit max_level p) [] L = [] := rfl
    rw [htow]
    exact List.chain'_singleton _
  · intro L hL
    show ffwd (finit max_level p) (((towerF (finit max_level p) [] L)).getLastD 0) L
      = none
    have htow : towerF (finit max_level p) [] L = [] := rfl
    rw [htow]
    show (List.replicate (max_level + 1) (none : Option Nat)).getD L none = none
    simp only [List.getD_eq_getElem?_getD, List.getElem?_replicate]
    split <;> rfl
  · intro L hL
    show (List.replicate (max_level + 1) (none : Option Nat)).getD L none = none
    simp only [List.getD_eq_getElem?_getD, List.getElem?_replicate]
    split <;> rfl

/-! ### Operation sequences for the Fat variant -/

inductive FOp where
  | ins (key value : Int)
  | del (key : Int)
deriving DecidableEq

/-- `FDoes op s s'` holds when the call `op`, run on state `s` with some draw
stream, leaves state `s'` (Fat calls always terminate). -/
def FDoes : FOp → FState → FState → Prop
  | .ins key value, s, s' => ∃ draws b, finsertR s key value draws = (s', b)
  | .del key, s, s' => ∃ b, fremove s key = (s', b)

/-- A sequence of client calls executed left to right. -/
inductive FExec : List FOp → FState → FState → Prop
  | nil (s : FState) : FExec [] s s
  | cons {op : FOp} {ops : List FOp} {s s1 s2 : FState} :
      FDoes op s s1 → FExec ops s1 s2 → FExec (op :: ops) s s2

/-- Effect of one Fat call: well-formedness is preserved, a key neither
deleted nor re-inserted keeps its value (a duplicate insert overwrites!),
and a key whose insertion was not requested stays absent. -/
theorem FDoes_preserve {op : FOp} {s s' : FState} {t : List Nat} (h : FWF s t)
    (hdo : FDoes op s s') :
    ∃ t', FWF s' t'
      ∧ (∀ k' v, lookupVF s t k' = some v → op ≠ FOp.del k' →
          (∀ w, op ≠ FOp.ins k' w) → lookupVF s' t' k' = some v)
      ∧ (∀ k', lookupVF s t k' = none → (∀ v, op ≠ FOp.ins k' v) →
          lookupVF s' t' k' = none) := by
  rcases op with ⟨key, value⟩ | key
  · obtain ⟨draws, b, heq⟩ := hdo
    unfold finsertR at heq
    rcases hY : ffound s t key with _ | Y
    · have hnew := finsert_new h hY value
        (get_rand_level_le s.probability s.max_level draws)
      rw [hnew.1] at heq
      injection heq with heq1 heq2
      subst heq1
      refine ⟨_, hnew.2.1, fun k' v hv hne hni => ?_, fun k' hv hne => ?_⟩
      · have hk' : k' ≠ key := by
          intro he
          rw [he] at hv
          unfold lookupVF at hv
          rw [hY] at hv
          exact absurd hv (by simp)
        rw [hnew.2.2.2 k' hk']
        exact hv
      · by_cases hk' : k' = key
        · exact absurd (hk' ▸ rfl) (hne value)
        · rw [hnew.2.2.2 k' hk']
          exact hv
    · have hdup := finsert_dup h hY value
        (get_rand_level s.probability s.max_level draws)
      rw [hdup.1] at heq
      injection heq with heq1 heq2
      subst heq1
      refine ⟨t, hdup.2.1, fun k' v hv hne hni => ?_, fun k' hv hne => ?_⟩
      · have hk' : k' ≠ key := fun he => hni value (he ▸ rfl)
        rw [hdup.2.2.2 k' hk']
        exact hv
      · have hk' : k' ≠ key := by
          intro he
          rw [he] at hv
          unfold lookupVF at hv
          rw [hY] at hv
          exact absurd hv (by simp)
        rw [hdup.2.2.2 k' hk']
        exact hv
  · obtain ⟨b, heq⟩ := hdo
    rcases hY : ffound s t key with _ | Y
    · rw [fremove_absent h hY] at heq
      injection heq with heq1 heq2
      subst heq1
      exact ⟨t, h, fun k' v hv _ _ => hv, fun k' hv _ => hv⟩
    · have hrem := fremove_present h hY
      rw [hrem.1] at heq
      injection heq with heq1 heq2
      subst heq1
      refine ⟨_, hrem.2.1, fun k' v hv hne _ => ?_, fun k' hv hne => ?_⟩
      · have hk' : k' ≠ key := fun he => hne (he ▸ rfl)
        rw [hrem.2.2.2 k' hk']
        exact hv
      · by_cases hk' : k' = key
        · rw [hk']
          exact hrem.2.2.1
        · rw [hrem.2.2.2 k' hk']
          exact hv

theorem FExec_keep {ops : List FOp} {s s2 : FState} (hex : FExec ops s s2) :
    ∀ {t : List Nat}, FWF s t → ∀ {k : Int} {v : Int}, lookupVF s t k = some v →
      (∀ op ∈ ops, op ≠ FOp.del k ∧ ∀ w, op ≠ FOp.ins k w) →
      ∃ t2, FWF s2 t2 ∧ lookupVF s2 t2 k = some v := by
  induction hex with
  | nil s =>
    intro t h k v hv _
    exact ⟨t, h, hv⟩
  | cons hdo hex ih =>
    intro t h k v hv hops
    obtain ⟨t1, h1, hkeep, -⟩ := FDoes_preserve h hdo
    exact ih h1
      (hkeep k v hv (hops _ (by simp)).1 (hops _ (by simp)).2)
      (fun op hop => hops op (by simp [hop]))

theorem FExec_keep_none {ops : List FOp} {s s2 : FState} (hex : FExec ops s s2) :
    ∀ {t : List Nat}, FWF s t → ∀ {k : Int}, lookupVF s t k = none →
      (∀ op ∈ ops, ∀ v, op ≠ FOp.ins k v) →
      ∃ t2, FWF s2 t2 ∧ lookupVF s2 t2 k = none := by
  induction hex with
  | nil s =>
    intro t h k hv _
    exact ⟨t, h, hv⟩
  | cons hdo hex ih =>
    intro t h k hv hops
    obtain ⟨t1, h1, -, hnone⟩ := FDoes_preserve h hdo
    exact ih h1 (hnone k hv (hops _ (by simp)))
      (fun op hop => hops op (by simp [hop]))

theorem FExec_wf {ops : List FOp} {s s2 : FState} (hex : FExec ops s s2) :
    ∀ {t : List Nat}, FWF s t → ∃ t2, FWF s2 t2 := by
  induction hex with
  | nil s =>
    intro t h
    exact ⟨t, h⟩
  | cons hdo hex ih =>
    intro t h
    obtain ⟨t1, h1, -, -⟩ := FDoes_preserve h hdo
    exact ih h1

/-! ## The claims -/

/-- A four-node state for exercising `LockedSkipList::remove`: header `0`,
tail `1`, a *marked* predecessor `2` (key 5) and its fully linked, unmarked
successor `3` (key 10). -/
def c1s : LState :=
  { heap := fun q =>
      if q = 0 then some ⟨0, 0, [some 2], false, false, 0⟩
      else if q = 1 then some ⟨0, 0, [none], false, false, 0⟩
      else if q = 2 then some ⟨5, 50, [some 3], true, true, 0⟩
      else if q = 3 then some ⟨10, 100, [some 1], false, true, 0⟩
      else none,
    header := 0, tail := 1, max_level := 0, probability := 1/2, next_id := 4 }

/-- C1: the claimed behaviour — unlink and destroy the victim only after the
predecessor validation has succeeded, otherwise restart — is FALSE of the
code: `LockedSkipList::remove` lacks a `continue` after the failed
validation, so control falls through.  On `c1s` the victim 10's predecessor
(node 2) is marked, hence the validation fails, yet `remove(10)` still
unlinks node 3 from node 2, frees it and returns `true` on the very first
iteration instead of retrying. -/
theorem C1_remove_validation_fallthrough :
    lremoveValid (lsetMarked c1s 3) [2] 0 3 = false
      ∧ ∃ s' : LState, lremove c1s 10 1 = some (s', true)
          ∧ s'.heap 3 = none ∧ lfwd s' 2 0 = some 1 := by
  refine ⟨by decide, ((lremove c1s 10 1).getD (c1s, false)).1, ?_, ?_, ?_⟩
  · rfl
  · rfl
  · rfl

/-- C2 counterexample: in the coarse-locked variant an `insert(5, 1)` that
returned `true`, followed by NO `remove(5)` but by a duplicate
`insert(5, 2)` (which returns `false`), leaves `search(5) = (true, 2)`, not
`(true, 1)` — the claim omits the overwrite by a later duplicate insert. -/
theorem C2_search_after_insert_counterexample :
    ∃ s1 s2 : FState,
      finsert (finit 0 (1/2)) 5 1 0 = (s1, true)
        ∧ finsert s1 5 2 0 = (s2, false)
        ∧ fsearch s2 5 = (true, 2)
        ∧ fsearch s2 5 ≠ (true, 1) := by
  refine ⟨(finsert (finit 0 (1/2)) 5 1 0).1,
    (finsert (finsert (finit 0 (1/2)) 5 1 0).1 5 2 0).1, ?_, ?_, ?_, ?_⟩
  · rfl
  · rfl
  · rfl
  · intro hcc
    rw [show fsearch (finsert (finsert (finit 0 (1/2)) 5 1 0).1 5 2 0).1 5
        = (true, 2) from rfl] at hcc
    exact absurd hcc (by decide)

/-- C2 amended: if `k` currently maps to `v` then after any sequence of
calls that contains no `remove(k)` — and, in the coarse-locked variant, no
further `insert(k, _)` either — `search(k)` still returns `(true, v)`.  The
hypothesis `lookupV s t k = some v` is what `insert(k, v) = true`
establishes (`linsert_new`, `finsert_new`). -/
theorem C2_search_after_insert_amended :
    (∀ (s : LState) (t : List Nat) (k v : Int) (ops : List LOp) (s2 : LState),
        LWF s t → lookupV s t k = some v → LExec ops s s2 →
        (∀ op ∈ ops, op ≠ LOp.del k) →
        lsearch s2 k = (true, v))
      ∧ (∀ (s : FState) (t : List Nat) (k v : Int) (ops : List FOp) (s2 : FState),
        FWF s t → lookupVF s t k = some v → FExec ops s s2 →
        (∀ op ∈ ops, op ≠ FOp.del k ∧ ∀ w, op ≠ FOp.ins k w) →
        fsearch s2 k = (true, v)) := by
  constructor
  · intro s t k v ops s2 h hv hex hops
    obtain ⟨t2, h2, hv2⟩ := LExec_keep hex h hv hops
    rw [lsearch_run h2, hv2]
  · intro s t k v ops s2 h hv hex hops
    obtain ⟨t2, h2, hv2⟩ := FExec_keep hex h hv hops
    rw [fsearch_run h2, hv2]

theorem C2_search_after_insert_amended_witness :
    lsearch (linsResult (linit 0 (1/2)) 5 1 0) 5 = (true, 1) :=
  C2_search_after_insert_amended.1 (linsResult (linit 0 (1/2)) 5 1 0)
    (AL (linit 0 (1/2)) [] 5 0 ++ (linit 0 (1/2)).next_id :: BL (linit 0 (1/2)) [] 5 0)
    5 1 [] (linsResult (linit 0 (1/2)) 5 1 0)
    (linsResult_wf (linit_wf 0 (1/2)) rfl 1 (Nat.le_refl 0))
    ((linsert_new (linit_wf 0 (1/2)) rfl 1 (Nat.le_refl 0) 0).2.2.1)
    (LExec.nil _) (by simp)

/-- C3: after any sequence of inserts and removes on a freshly constructed
list, `for_each` visits the pairs in strictly increasing key order, in both
variants. -/
theorem C3_foreach_sorted :
    (∀ (max_level : Nat) (p : ℚ) (ops : List LOp) (s2 : LState),
        LExec ops (linit max_level p) s2 →
        ((lforEach s2).map Prod.fst).Chain' (· < ·))
      ∧ (∀ (max_level : Nat) (p : ℚ) (ops : List FOp) (s2 : FState),
        FExec ops (finit max_level p) s2 →
        ((fforEach s2).map Prod.fst).Chain' (· < ·)) := by
  constructor
  · intro max_level p ops s2 hex
    obtain ⟨t2, h2⟩ := LExec_wf hex (linit_wf max_level p)
    rw [lforEach_run h2, List.map_map]
    exact h2.sorted
  · intro max_level p ops s2 hex
    obtain ⟨t2, h2⟩ := FExec_wf hex (finit_wf max_level p)
    rw [fforEach_run h2, List.map_map]
    exact h2.sorted

theorem C3_foreach_sorted_witness :
    ((lforEach (linit 0 (1/2))).map Prod.fst).Chain' (· < ·)
      ∧ ((fforEach (finit 0 (1/2))).map Prod.fst).Chain' (· < ·) :=
  ⟨C3_foreach_sorted.1 0 (1/2) [] (linit 0 (1/2)) (LExec.nil _),
    C3_foreach_sorted.2 0 (1/2) [] (finit 0 (1/2)) (FExec.nil _)⟩

/-- C4: if `k` is currently absent — after a successful `remove(k)`, or on a
list in which `k` was never inserted, including the empty list — then after
any further calls that insert no `k`, `search(k)` returns `(false, 0)` (the
default-constructed value), in both variants. -/
theorem C4_search_absent :
    (∀ (s : LState) (t : List Nat) (k : Int) (ops : List LOp) (s2 : LState),
        LWF s t → lookupV s t k = none → LExec ops s s2 →
        (∀ op ∈ ops, ∀ v, op ≠ LOp.ins k v) →
        lsearch s2 k = (false, 0))
      ∧ (∀ (s : FState) (t : List Nat) (k : Int) (ops : List FOp) (s2 : FState),
        FWF s t → lookupVF s t k = none → FExec ops s s2 →
        (∀ op ∈ ops, ∀ v, op ≠ FOp.ins k v) →
        fsearch s2 k = (false, 0)) := by
  constructor
  · intro s t k ops s2 h hv hex hops
    obtain ⟨t2, h2, hv2⟩ := LExec_keep_none hex h hv hops
    rw [lsearch_run h2, hv2]
  · intro s t k ops s2 h hv hex hops
    obtain ⟨t2, h2, hv2⟩ := FExec_keep_none hex h hv hops
    rw [fsearch_run h2, hv2]

theorem C4_search_absent_witness :
    lsearch (linit 0 (1/2)) 7 = (false, 0) ∧ fsearch (finit 0 (1/2)) 7 = (false, 0) :=
  ⟨C4_search_absent.1 (linit 0 (1/2)) [] 7 [] (linit 0 (1/2))
      (linit_wf 0 (1/2)) rfl (LExec.nil _) (by simp),
    C4_search_absent.2 (finit 0 (1/2)) [] 7 [] (finit 0 (1/2))
      (finit_wf 0 (1/2)) rfl (FExec.nil _) (by simp)⟩

/-- C5: inserting a key that is already present returns `false` in both
variants; the concurrent variant returns with the state — hence the stored
value — completely untouched, while the coarse-locked variant overwrites the
stored value with the new one while still returning `false`. -/
theorem C5_duplicate_insert :
    (∀ (s : LState) (t : List Nat) (k v1 : Int) (nl fuel : Nat) (X : Nat),
        LWF s t → lfound s t k = some X →
        linsertLoop s k v1 nl (fuel + 1) = some (s, false))
      ∧ (∀ (s : FState) (t : List Nat) (k v1 : Int) (nl : Nat) (X : Nat),
        FWF s t → ffound s t k = some X →
        (finsert s k v1 nl).2 = false
          ∧ FWF (finsert s k v1 nl).1 t
          ∧ lookupVF (finsert s k v1 nl).1 t k = some v1) := by
  constructor
  · intro s t k v1 nl fuel X h hX
    exact linsert_dup h hX v1 nl fuel
  · intro s t k v1 nl X h hX
    have hdup := finsert_dup h hX v1 nl
    rw [hdup.1]
    exact ⟨rfl, hdup.2.1, hdup.2.2.1⟩

theorem C5_duplicate_insert_witness :
    linsertLoop (linsResult (linit 0 (1/2)) 5 1 0) 5 9 0 1
        = some (linsResult (linit 0 (1/2)) 5 1 0, false)
      ∧ (finsert (finsResult (finit 0 (1/2)) 5 1 0) 5 9 0).2 = false :=
  ⟨C5_duplicate_insert.1 (linsResult (linit 0 (1/2)) 5 1 0)
      (AL (linit 0 (1/2)) [] 5 0 ++ (linit 0 (1/2)).next_id :: BL (linit 0 (1/2)) [] 5 0)
      5 9 0 0 2
      (linsResult_wf (linit_wf 0 (1/2)) rfl 1 (Nat.le_refl 0)) (by decide),
    (C5_duplicate_insert.2 (finsResult (finit 0 (1/2)) 5 1 0)
      (ALF (finit 0 (1/2)) [] 5 0 ++ (finit 0 (1/2)).next_id :: BLF (finit 0 (1/2)) [] 5 0)
      5 9 0 1
      (finsResult_wf (finit_wf 0 (1/2)) rfl 1 (Nat.le_refl 0)) (by decide)).1⟩

/-- C6: `remove(k)` returns `true` with the victim's node deleted exactly
when a node carrying `k` is live, and `false` when `k` is absent; hence two
successive `remove(k)` calls on a list containing `k` yield `true` then
`false`, in both variants. -/
theorem C6_remove_iff_present :
    (∀ (s : LState) (t : List Nat) (k : Int) (fuel : Nat), LWF s t →
        (∀ X, lfound s t k = some X →
            lremove s k (fuel + 1) = some (lremResult s k X, true)
              ∧ ∃ t', LWF (lremResult s k X) t'
                  ∧ lookupV (lremResult s k X) t' k = none
                  ∧ lremove (lremResult s k X) k (fuel + 1)
                      = some (lremResult s k X, false))
          ∧ (lfound s t k = none → lremove s k (fuel + 1) = some (s, false)))
      ∧ (∀ (s : FState) (t : List Nat) (k : Int), FWF s t →
        (∀ X, ffound s t k = some X →
            fremove s k = (fremResult s k X, true)
              ∧ ∃ t', FWF (fremResult s k X) t'
                  ∧ lookupVF (fremResult s k X) t' k = none
                  ∧ fremove (fremResult s k X) k = (fremResult s k X, false))
          ∧ (ffound s t k = none → fremove s k = (s, false))) := by
  constructor
  · intro s t k fuel h
    constructor
    · intro X hX
      have hrem := lremove_present h hX fuel
      refine ⟨hrem.1, _, hrem.2.1, hrem.2.2.1, ?_⟩
      have hfd : lfound (lremResult s k X) (AL s t k 0 ++ (BL s t k 0).tail) k
          = none := by
        have := hrem.2.2.1
        unfold lookupV at this
        exact Option.map_eq_none'.mp this
      exact lremove_absent hrem.2.1 hfd fuel 0 false
    · intro hX
      exact lremove_absent h hX fuel 0 false
  · intro s t k h
    constructor
    · intro X hX
      have hrem := fremove_present h hX
      refine ⟨hrem.1, _, hrem.2.1, hrem.2.2.1, ?_⟩
      have hfd : ffound (fremResult s k X) (ALF s t k 0 ++ (BLF s t k 0).tail) k
          = none := by
        have := hrem.2.2.1
        unfold lookupVF at this
        exact Option.map_eq_none'.mp this
      exact fremove_absent hrem.2.1 hfd
    · intro hX
      exact fremove_absent h hX

theorem C6_remove_iff_present_witness :
    lremove (linsResult (linit 0 (1/2)) 5 1 0) 5 1
        = some (lremResult (linsResult (linit 0 (1/2)) 5 1 0) 5 2, true)
      ∧ fremove (finit 0 (1/2)) 7 = (finit 0 (1/2), false) :=
  ⟨((C6_remove_iff_present.1 (linsResult (linit 0 (1/2)) 5 1 0)
      (AL (linit 0 (1/2)) [] 5 0 ++ (linit 0 (1/2)).next_id :: BL (linit 0 (1/2)) [] 5 0)
      5 0
      (linsResult_wf (linit_wf 0 (1/2)) rfl 1 (Nat.le_refl 0))).1 2 (by decide)).1,
    (C6_remove_iff_present.2 (finit 0 (1/2)) [] 7 (finit_wf 0 (1/2))).2 rfl⟩

/-- C7: `get_rand_level` counts successive draws below `p`, capped at
`max_level`, so its result lies in `[0, max_level]`; consequently, on any
state reachable from a fresh list, no live node's tower exceeds the list's
`max_level` (in the coarse-locked variant the height is
`forward.length - 1`). -/
theorem C7_rand_level_bound :
    (∀ (p : ℚ) (max_level : Nat) (draws : Nat → ℚ),
        get_rand_level p max_level draws ≤ max_level
          ∧ (∀ j, j < get_rand_level p max_level draws → draws j < p)
          ∧ (get_rand_level p max_level draws < max_level →
              ¬ draws (get_rand_level p max_level draws) < p))
      ∧ (∀ (max_level : Nat) (pr : ℚ) (ops : List LOp) (s2 : LState),
          LExec ops (linit max_level pr) s2 →
          ∃ t2, LWF s2 t2 ∧ ∀ q ∈ t2, (lnode s2 q).node_level ≤ s2.max_level)
      ∧ (∀ (max_level : Nat) (pr : ℚ) (ops : List FOp) (s2 : FState),
          FExec ops (finit max_level pr) s2 →
          ∃ t2, FWF s2 t2 ∧ ∀ q ∈ t2, (fnode s2 q).forward.length ≤ s2.max_level + 1) := by
  refine ⟨get_rand_level_spec, ?_, ?_⟩
  · intro max_level pr ops s2 hex
    obtain ⟨t2, h2⟩ := LExec_wf hex (linit_wf max_level pr)
    exact ⟨t2, h2, fun q hq => h2.lvl_le q hq⟩
  · intro max_level pr ops s2 hex
    obtain ⟨t2, h2⟩ := FExec_wf hex (finit_wf max_level pr)
    exact ⟨t2, h2, fun q hq => le_trans (h2.flen_le q hq) (by
      have := h2.cur_le
      omega)⟩

theorem C7_rand_level_bound_witness :
    get_rand_level (1/2) 3 (fun _ => 0) ≤ 3
      ∧ ∃ t2, LWF (linit 3 (1/2)) t2
          ∧ ∀ q ∈ t2, (lnode (linit 3 (1/2)) q).node_level ≤ (linit 3 (1/2)).max_level :=
  ⟨(C7_rand_level_bound.1 (1/2) 3 (fun _ => 0)).1,
    C7_rand_level_bound.2.1 3 (1/2) [] (linit 3 (1/2)) (LExec.nil _)⟩

/-- C8: on a quiescent well-formed state every call returns: `search` and
`for_each` are plain bounded walks, the coarse-locked calls always return,
and the concurrent variant's `insert` retry loop (including the busy wait on
`fully_linked` for a live duplicate) and `remove` retry loop both finish on
their very first iteration. -/
theorem C8_termination :
    ∀ (s : LState) (t : List Nat) (k v : Int) (draws : Nat → ℚ), LWF s t →
      (linsertR s k v draws 1).isSome = true
        ∧ (lremove s k 1).isSome = true := by
  intro s t k v draws h
  constructor
  · unfold linsertR
    rcases hY : lfound s t k with _ | Y
    · rw [(linsert_new h hY v (get_rand_level_le s.probability s.max_level draws) 0).1]
      rfl
    · rw [linsert_dup h hY v _ 0]
      rfl
  · unfold lremove
    rcases hY : lfound s t k with _ | Y
    · rw [lremove_absent h hY 0 0 false]
      rfl
    · rw [(lremove_present h hY 0).1]
      rfl

theorem C8_termination_witness :
    (linsertR (linit 2 (1/2)) 5 1 (fun _ => 0) 1).isSome = true
      ∧ (lremove (linit 2 (1/2)) 5 1).isSome = true :=
  C8_termination (linit 2 (1/2)) [] 5 1 (fun _ => 0) (linit_wf 2 (1/2))

/-- C10: `insert(k, v)` and `remove(k)` never change the presence or the
stored value of any other key `k'`, in both variants. -/
theorem C10_frame :
    (∀ (s s' : LState) (t : List Nat) (k v k' : Int) (b : Bool)
        (draws : Nat → ℚ) (fuel : Nat),
        LWF s t → k' ≠ k →
        linsertR s k v draws fuel = some (s', b) →
        ∃ t', LWF s' t' ∧ lookupV s' t' k' = lookupV s t k')
      ∧ (∀ (s s' : LState) (t : List Nat) (k k' : Int) (b : Bool) (fuel : Nat),
        LWF s t → k' ≠ k →
        lremove s k fuel = some (s', b) →
        ∃ t', LWF s' t' ∧ lookupV s' t' k' = lookupV s t k')
      ∧ (∀ (s : FState) (t : List Nat) (k v k' : Int) (draws : Nat → ℚ),
        FWF s t → k' ≠ k →
        ∃ t', FWF (finsertR s k v draws).1 t'
          ∧ lookupVF (finsertR s k v draws).1 t' k' = lookupVF s t k')
      ∧ (∀ (s : FState) (t : List Nat) (k k' : Int),
        FWF s t → k' ≠ k →
        ∃ t', FWF (fremove s k).1 t'
          ∧ lookupVF (fremove s k).1 t' k' = lookupVF s t k') := by
  refine ⟨?_, ?_, ?_, ?_⟩
  · intro s s' t k v k' b draws fuel h hk' heq
    unfold linsertR at heq
    rcases fuel with _ | fuel
    · exact absurd heq (by simp [linsertLoop])
    · rcases hY : lfound s t k with _ | Y
      · have hnew := linsert_new h hY v
          (get_rand_level_le s.probability s.max_level draws) fuel
        rw [hnew.1] at heq
        injection heq with heq
        injection heq with heq1 heq2
        subst heq1
        exact ⟨_, hnew.2.1, hnew.2.2.2 k' hk'⟩
      · rw [linsert_dup h hY v _ fuel] at heq
        injection heq with heq
        injection heq with heq1 heq2
        subst heq1
        exact ⟨t, h, rfl⟩
  · intro s s' t k k' b fuel h hk' heq
    unfold lremove at heq
    rcases fuel with _ | fuel
    · exact absurd heq (by simp [lremoveLoop])
    · rcases hY : lfound s t k with _ | Y
      · rw [lremove_absent h hY fuel 0 false] at heq
        injection heq with heq
        injection heq with heq1 heq2
        subst heq1
        exact ⟨t, h, rfl⟩
      · have hrem := lremove_present h hY fuel
        rw [hrem.1] at heq
        injection heq with heq
        injection heq with heq1 heq2
        subst heq1
        exact ⟨_, hrem.2.1, hrem.2.2.2 k' hk'⟩
  · intro s t k v k' draws h hk'
    rcases hY : ffound s t k with _ | Y
    · have hnew := finsert_new h hY v
        (get_rand_level_le s.probability s.max_level draws)
      have he : (finsertR s k v draws).1
          = finsResult s k v (get_rand_level s.probability s.max_level draws) := by
        unfold finsertR
        rw [hnew.1]
      rw [he]
      exact ⟨_, hnew.2.1, hnew.2.2.2 k' hk'⟩
    · have hdup := finsert_dup h hY v
        (get_rand_level s.probability s.max_level draws)
      have he : (finsertR s k v draws).1 = fsetValue s Y v := by
        unfold finsertR
        rw [hdup.1]
      rw [he]
      exact ⟨t, hdup.2.1, hdup.2.2.2 k' hk'⟩
  · intro s t k k' h hk'
    rcases hY : ffound s t k with _ | Y
    · have he : (fremove s k).1 = s := by
        rw [fremove_absent h hY]
      rw [he]
      exact ⟨t, h, rfl⟩
    · have hrem := fremove_present h hY
      have he : (fremove s k).1 = fremResult s k Y := by
        rw [hrem.1]
      rw [he]
      exact ⟨_, hrem.2.1, hrem.2.2.2 k' hk'⟩

theorem C10_frame_witness :
    (∃ t', LWF (linsResult (linit 0 (1/2)) 5 1 0) t'
        ∧ lookupV (linsResult (linit 0 (1/2)) 5 1 0) t' 7
            = lookupV (linit 0 (1/2)) [] 7)
      ∧ (∃ t', FWF (fremove (finit 0 (1/2)) 5).1 t'
          ∧ lookupVF (fremove (finit 0 (1/2)) 5).1 t' 7
              = lookupVF (finit 0 (1/2)) [] 7) := by
  refine ⟨C10_frame.1 (linit 0 (1/2)) (linsResult (linit 0 (1/2)) 5 1 0) [] 5 1 7
      true (fun _ => 1) 1 (linit_wf 0 (1/2)) (by decide) ?_,
    C10_frame.2.2.2 (finit 0 (1/2)) [] 5 7 (finit_wf 0 (1/2)) (by decide)⟩
  unfold linsertR
  rw [show get_rand_level (linit 0 (1/2)).probability (linit 0 (1/2)).max_level
      (fun _ => 1) = 0 from Nat.le_zero.mp (get_rand_level_le _ _ _)]
  exact (linsert_new (linit_wf 0 (1/2)) rfl 1 (Nat.le_refl 0) 0).1
